import Mathlib

/-!
# Lifecycle of the managed wrapper around a native model handle

A shallow embedding of `cs/cli/vw_base.cpp` (class `VowpalWabbitBase`): construction,
the reference counter shared between a base model and the wrappers seeded from it,
the two disposal entry points, `InternalDispose`, `Reload` and `SaveModel`.

The managed heap is explicit: wrappers and examples live in two lists and a reference
is an index (a natural number); native handles (`vw*`) and example buffers (`example*`)
are natural numbers too, and a nullable pointer is an `Option`.  Every call that leaves
the class (native engine, stream, file system) is appended to a trace together with the
wrapper that issued it; whether such a call raises is decided by an oracle that sees the
trace so far, so theorems quantify over every behaviour of the collaborators.  Native
failures surface as `VowpalWabbitException`; the calls into the file-system library made
by `SaveModel` sit outside every `try` and may throw any managed exception.  A call that
builds a handle returns a handle never handed out before.  Recursion through the heap (a
dependent releasing its base, the walk along an example chain) is bounded by fuel.
-/

namespace VW

/-- What `VW::initialize` reads a model image from. -/
inductive ModelSource
  | stream (id : Nat)
  | memory (bytes : List Nat)
  deriving DecidableEq, Repr

/-- What `VW::save_predictor` writes to. -/
inductive SaveTarget
  | file (name : String)
  | stream (id : Nat)
  | memory
  deriving DecidableEq, Repr

/-- The calls `vw_base.cpp` makes outside the class; `initializeVW` is `VW::initialize`.
A `dealloc_example` entry carries, next to the three arguments of the native call, the
managed example `obj` whose buffer pointer was dereferenced for it. -/
inductive Call
  | seed_vw_model (base : Nat) (args : String)
  | initializeVW (args : String) (model : Option ModelSource)
  | finish (h : Nat)
  | release_parser_datastructures (h : Nat)
  | save_predictor (h : Nat) (target : SaveTarget)
  | dealloc_example (delete_label : Nat) (ex : Nat) (delete_prediction : Nat) (obj : Nat)
  | free_it (ex : Nat)
  | Close (stream : Nat)
  | CreateDirectory (directoryName : String)
  deriving DecidableEq, Repr

/-- One entry of the trace: the wrapper executing the call, and the call. -/
structure Event where
  who : Nat
  call : Call
  deriving DecidableEq, Repr

/-- The managed exceptions that can leave the class: the ones it throws itself, the one
`CATCHRETHROW` turns native failures into, and `IOException` for the failures of the
file-system library other than an invalid argument. -/
inductive Exn
  | ArgumentException
  | NotSupportedException
  | NullReferenceException
  | VowpalWabbitException
  | IOException
  deriving DecidableEq, Repr

/-- The collaborators.  `raises t e` tells whether call `e`, issued after history `t`,
raises; `GetDirectoryName` is `System::IO::Path::GetDirectoryName`, which returns the
directory part (null for a root) or throws; `fileRaises t e` tells whether the file-system
call `e` throws, and what; the other fields are what the code reads from a handle. -/
structure Engine where
  raises : List Event → Event → Bool
  delete_prediction : List Event → Nat → Nat
  delete_label : List Event → Nat → Nat
  image : List Event → Nat → List Nat
  final_regressor_name : List Event → Nat → String
  GetDirectoryName : String → Except Exn (Option String)
  fileRaises : List Event → Event → Option Exn

/-- The managed settings object, restricted to the members `vw_base.cpp` reads. -/
structure VowpalWabbitSettings where
  Arguments : String
  Model : Option Nat
  ModelStream : Option Nat
  ParallelOptions : Option Nat
  EnableThreadSafeExamplePooling : Bool
  deriving DecidableEq, Repr

/-- The members of `VowpalWabbitExample` that `InternalDispose` touches. -/
structure VowpalWabbitExample where
  m_example : Option Nat
  m_owner : Option Nat
  InnerExample : Option Nat
  deriving DecidableEq, Repr

/-- The fields of a wrapper.  The counter is declared in `vw_base.h`; it is kept as a
mathematical integer. -/
structure VowpalWabbitBase where
  m_examples : Option (List Nat)
  m_vw : Option Nat
  m_model : Option Nat
  m_settings : VowpalWabbitSettings
  m_instanceCount : Int
  deriving DecidableEq, Repr

/-- Heap, trace of outgoing calls, and the next native handle to be handed out. -/
structure State where
  wrappers : List VowpalWabbitBase
  examples : List VowpalWabbitExample
  trace : List Event
  nextHandle : Nat
  deriving DecidableEq, Repr

/-- Outcome of running a member function: normal return, a managed exception (with the
state it leaves behind), a null or dangling native dereference, or fuel exhausted. -/
inductive Res
  | ok (s : State)
  | raised (e : Exn) (s : State)
  | fault
  | outOfFuel
  deriving DecidableEq, Repr

/-- Sequencing: continue only after a normal return. -/
def Res.bind : Res → (State → Res) → Res
  | .ok s, k => k s
  | .raised e s, _ => .raised e s
  | .fault, _ => .fault
  | .outOfFuel, _ => .outOfFuel

/-- A handler that adjusts the state and rethrows (`catch (...) { ...; throw; }`). -/
def Res.onRaise : Res → (State → State) → Res
  | .raised e s, f => .raised e (f s)
  | r, _ => r

/-- The state an outcome carries, if any. -/
def Res.state? : Res → Option State
  | .ok s => some s
  | .raised _ s => some s
  | _ => none

/-- Field update of the wrapper at `w`. -/
def updW (s : State) (w : Nat) (f : VowpalWabbitBase → VowpalWabbitBase) : State :=
  match s.wrappers[w]? with
  | some x => { s with wrappers := s.wrappers.set w (f x) }
  | none => s

/-- Field update of the example at `e`. -/
def updE (s : State) (e : Nat) (f : VowpalWabbitExample → VowpalWabbitExample) : State :=
  match s.examples[e]? with
  | some x => { s with examples := s.examples.set e (f x) }
  | none => s

/-- Issue a call: it is logged, then it returns or raises as the oracle says. -/
def callNative (eng : Engine) (s : State) (who : Nat) (c : Call) : Res :=
  let s1 : State := { s with trace := s.trace ++ [⟨who, c⟩] }
  if eng.raises s.trace ⟨who, c⟩ then .raised .VowpalWabbitException s1 else .ok s1

/-- Issue a call into the file-system library, outside every `try`: it is logged, then it
returns or throws the managed exception the oracle names. -/
def callFile (eng : Engine) (s : State) (who : Nat) (c : Call) : Res :=
  let s1 : State := { s with trace := s.trace ++ [⟨who, c⟩] }
  match eng.fileRaises s.trace ⟨who, c⟩ with
  | some e => .raised e s1
  | none => .ok s1

/-- Substring test, `String::Contains`, on the characters of the text. -/
def containsSub (hay needle : List Char) : Bool :=
  hay.tails.any fun t => needle.isPrefixOf t

/-- The default settings object (`gcnew VowpalWabbitSettings`). -/
def VowpalWabbitSettings.fresh : VowpalWabbitSettings :=
  { Arguments := "", Model := none, ModelStream := none, ParallelOptions := none,
    EnableThreadSafeExamplePooling := false }

/-- The member `VowpalWabbitBase::IncrementReference`, lines 83-87. -/
def IncrementReference (s : State) (this : Nat) : Res :=
  match s.wrappers[this]? with
  | none => .fault
  | some _ => .ok (updW s this fun o => { o with m_instanceCount := o.m_instanceCount + 1 })

/-- The constructor `VowpalWabbitBase::VowpalWabbitBase(settings)`, lines 25-68.  Returns
the reference of the object under construction together with the outcome. -/
def construct (eng : Engine) (s : State) (settings : Option VowpalWabbitSettings) :
    Nat × Res :=
  let this := s.wrappers.length
  let s : State := { s with wrappers := s.wrappers ++
    [{ m_examples := none, m_vw := none, m_model := none,
       m_settings := settings.getD VowpalWabbitSettings.fresh, m_instanceCount := 0 }] }
  -- m_examples = gcnew Bag (synchronized or not: the same container here)
  let s := updW s this fun o => { o with m_examples := some [] }
  let body : Res :=
    match settings with
    | none => .raised .NullReferenceException s
    | some st =>
      let string := st.Arguments
      match st.Model with
      | some m =>
        let s := updW s this fun o => { o with m_model := some m }
        match s.wrappers[m]? with
        | none => .fault
        | some base =>
          match base.m_vw with
          | none => .fault
          | some bh =>
            (callNative eng s this (.seed_vw_model bh string)).bind fun s1 =>
            let s2 := updW { s1 with nextHandle := s1.nextHandle + 1 } this
              fun o => { o with m_vw := some s1.nextHandle }
            IncrementReference s2 m
      | none =>
        match st.ModelStream with
        | none =>
          (callNative eng s this (.initializeVW string none)).bind fun s1 =>
          .ok (updW { s1 with nextHandle := s1.nextHandle + 1 } this
            fun o => { o with m_vw := some s1.nextHandle })
        | some stream =>
          let string :=
            if !containsSub st.Arguments.data "--no_stdin".data then string ++ " --no_stdin"
            else string
          (callNative eng s this (.initializeVW string (some (.stream stream)))).bind fun s1 =>
          let s2 := updW { s1 with nextHandle := s1.nextHandle + 1 } this
            fun o => { o with m_vw := some s1.nextHandle }
          callNative eng s2 this (.Close stream)
  -- catch (...) { m_vw = nullptr; throw; }
  (this, body.onRaise fun s => updW s this fun o => { o with m_vw := none })

/-- The inner loop of `InternalDispose`, lines 114-119: starting at `inner`, follow
`InnerExample` and clear owner and buffer of every node reached. -/
def clearChain : Nat → State → Nat → Res
  | 0, _, _ => .outOfFuel
  | fuel + 1, s, inner =>
    match s.examples[inner]? with
    | none => .fault
    | some e =>
      match e.InnerExample with
      | none => .ok s
      | some i =>
        match s.examples[i]? with
        | none => .fault
        | some _ =>
          let s := updE s i fun x => { x with m_owner := none }
          let s := updE s i fun x => { x with m_example := none }
          clearChain fuel s i

/-- The body of the `for each` over the removed examples, lines 108-125. -/
def drainExamples (eng : Engine) (fuel : Nat) (this : Nat)
    (delete_label delete_prediction : Nat) : State → List Nat → Res
  | s, [] => .ok s
  | s, ex :: rest =>
    match s.examples[ex]? with
    | none => .fault
    | some e =>
      match e.m_example with
      | none => .fault
      | some buf =>
        (callNative eng s this (.dealloc_example delete_label buf delete_prediction ex)).bind
        fun s =>
        (callNative eng s this (.free_it buf)).bind fun s =>
        (clearChain fuel s ex).bind fun s =>
        let s := updE s ex fun x => { x with m_example := none }
        let s := updE s ex fun x => { x with m_owner := none }
        drainExamples eng fuel this delete_label delete_prediction s rest

/-- Lines 103-128: capture the two deallocators, drain the pool, drop the container.
`RemoveAll` empties the bag before the loop runs. -/
def drainPool (eng : Engine) (fuel : Nat) (s : State) (this : Nat) (h : Nat) : Res :=
  let delete_prediction := eng.delete_prediction s.trace h
  let delete_label := eng.delete_label s.trace h
  match (s.wrappers[this]?).bind (·.m_examples) with
  | none => .ok s
  | some exs =>
    let s := updW s this fun o => { o with m_examples := some [] }
    (drainExamples eng fuel this delete_label delete_prediction s exs).bind fun s =>
    .ok (updW s this fun o => { o with m_examples := none })

/-- The body of `VowpalWabbitBase::DecrementReference`, with the teardown it may start
passed in. -/
def DecrementReferenceWith (dispose : State → Nat → Res) (s : State) (this : Nat) : Res :=
  match s.wrappers[this]? with
  | none => .fault
  | some o =>
    let s := updW s this fun o => { o with m_instanceCount := o.m_instanceCount - 1 }
    if o.m_instanceCount - 1 ≤ 0 then dispose s this else .ok s

/-- Lines 130-135: give the base model back. -/
def releaseModel (dispose : State → Nat → Res) (s : State) (this : Nat) : Res :=
  match (s.wrappers[this]?).bind (·.m_model) with
  | none => .ok s
  | some m =>
    (DecrementReferenceWith dispose s m).bind fun s =>
    .ok (updW s this fun o => { o with m_model := none })

/-- Lines 138-152: the `try` block. -/
def finishHandle (eng : Engine) (s : State) (this : Nat) : Res :=
  match (s.wrappers[this]?).bind (·.m_vw) with
  | none => .ok s
  | some h =>
    (callNative eng s this (.release_parser_datastructures h)).bind fun s =>
    let s := updW s this fun o => { o with m_vw := none }
    callNative eng s this (.finish h)

/-- The member `VowpalWabbitBase::InternalDispose`, lines 98-153. -/
def InternalDispose (eng : Engine) : Nat → State → Nat → Res
  | 0, _, _ => .outOfFuel
  | fuel + 1, s, this =>
    match s.wrappers[this]? with
    | none => .fault
    | some self =>
      Res.bind
        (match self.m_vw with
          | none => Res.ok s
          | some h =>
            (drainPool eng fuel s this h).bind fun s =>
            releaseModel (InternalDispose eng fuel) s this)
        fun s => finishHandle eng s this

/-- The member `VowpalWabbitBase::DecrementReference`, lines 89-96. -/
def DecrementReference (eng : Engine) (fuel : Nat) (s : State) (this : Nat) : Res :=
  DecrementReferenceWith (InternalDispose eng fuel) s this

/-- The finalizer `!VowpalWabbitBase`, lines 75-81. -/
def Finalize (eng : Engine) (fuel : Nat) (s : State) (this : Nat) : Res :=
  match s.wrappers[this]? with
  | none => .fault
  | some self => if self.m_instanceCount ≤ 0 then InternalDispose eng fuel s this else .ok s

/-- The destructor `~VowpalWabbitBase`, lines 70-73: it calls the finalizer. -/
def Dispose (eng : Engine) (fuel : Nat) (s : State) (this : Nat) : Res :=
  Finalize eng fuel s this

/-- Modelled from the spec: `clr_io_memory_buf` (clr_io_memory.h is not part of the
sources), an in-memory buffer with a read/write position. -/
structure clr_io_memory_buf where
  data : List Nat
  pos : Nat
  deriving DecidableEq, Repr

/-- The member `VowpalWabbitBase::Reload(args)`, lines 170-202.  The call
`mem_buf.flush()` leaves the buffer as it is. -/
def Reload (eng : Engine) (s : State) (this : Nat) (args : Option String) : Res :=
  match s.wrappers[this]? with
  | none => .fault
  | some self =>
    if self.m_settings.ParallelOptions ≠ none then .raised .NotSupportedException s
    else
      let mem_buf : clr_io_memory_buf := { data := [], pos := 0 }
      let args := args.getD ""
      match self.m_vw with
      | none => .fault
      | some h =>
        let bytes := eng.image s.trace h
        (callNative eng s this (.save_predictor h .memory)).bind fun s =>
        -- the image has been written; the position is at its end
        let mem_buf : clr_io_memory_buf :=
          { data := mem_buf.data ++ bytes, pos := mem_buf.pos + bytes.length }
        (callNative eng s this (.release_parser_datastructures h)).bind fun s =>
        let s := updW s this fun o => { o with m_vw := none }
        (callNative eng s this (.finish h)).bind fun s =>
        -- mem_buf.reset_file(0)
        let mem_buf : clr_io_memory_buf := { mem_buf with pos := 0 }
        (callNative eng s this
          (.initializeVW args (some (.memory (mem_buf.data.drop mem_buf.pos))))).bind fun s1 =>
        .ok (updW { s1 with nextHandle := s1.nextHandle + 1 } this
          fun o => { o with m_vw := some s1.nextHandle })

/-- The member `VowpalWabbitBase::SaveModel(String^ filename)`, lines 233-252. -/
def SaveModelFile (eng : Engine) (s : State) (this : Nat) (filename : Option String) : Res :=
  match filename with
  | none => .raised .ArgumentException s
  | some name =>
    if name = "" then .raised .ArgumentException s
    else
      match eng.GetDirectoryName name with
      | .error e => .raised e s
      | .ok directoryName =>
        Res.bind
          (match directoryName with
            | none => Res.ok s
            | some d => if d = "" then Res.ok s else callFile eng s this (.CreateDirectory d))
        fun s =>
        match (s.wrappers[this]?).bind (·.m_vw) with
        | none => .fault
        | some h => callNative eng s this (.save_predictor h (.file name))

/-- The member `VowpalWabbitBase::SaveModel(Stream^ stream)`, lines 254-266. -/
def SaveModelStream (eng : Engine) (s : State) (this : Nat) (stream : Option Nat) : Res :=
  match stream with
  | none => .raised .ArgumentException s
  | some st =>
    match (s.wrappers[this]?).bind (·.m_vw) with
    | none => .fault
    | some h => callNative eng s this (.save_predictor h (.stream st))

/-- The member `VowpalWabbitBase::SaveModel()`, lines 221-231. -/
def SaveModel (eng : Engine) (s : State) (this : Nat) : Res :=
  match (s.wrappers[this]?).bind (·.m_vw) with
  | none => .fault
  | some h =>
    let name := eng.final_regressor_name s.trace h
    if name = "" then .ok s else SaveModelFile eng s this (some name)

/-- An engine in which no call raises. -/
def quietEngine : Engine :=
  { raises := fun _ _ => false
    delete_prediction := fun _ h => 2 * h
    delete_label := fun _ h => 2 * h + 1
    image := fun _ h => [h, h]
    final_regressor_name := fun _ _ => ""
    GetDirectoryName := fun _ => .ok none
    fileRaises := fun _ _ => none }

/-- An engine whose `GetDirectoryName` rejects a file name made of one blank, as the
library does for names of white space only, and in which no other call raises. -/
def blankPathEngine : Engine :=
  { quietEngine with
    GetDirectoryName := fun name => if name = " " then .error .ArgumentException else .ok none }

/-- The empty heap. -/
def State.empty : State := { wrappers := [], examples := [], trace := [], nextHandle := 100 }

/-- A wrapper configured for distributed coordination, with a live handle. -/
def parallelState : State :=
  { wrappers := [{ m_examples := some [], m_vw := some 7, m_model := none,
                   m_settings := { VowpalWabbitSettings.fresh with ParallelOptions := some 1 },
                   m_instanceCount := 0 }],
    examples := [], trace := [], nextHandle := 8 }

/-- A single wrapper with a live handle and default settings. -/
def loneState : State :=
  { wrappers := [{ m_examples := some [], m_vw := some 7, m_model := none,
                   m_settings := VowpalWabbitSettings.fresh, m_instanceCount := 0 }],
    examples := [], trace := [], nextHandle := 8 }

/-- The heap after a construction whose handle-building call `c` raised: the new object
has an empty pool, a null handle and count 0, and every older object is as before. -/
def failedConstruction (s : State) (st : VowpalWabbitSettings) (c : Call) : State :=
  { wrappers := s.wrappers ++ [{ m_examples := some [], m_vw := none, m_model := st.Model,
                                 m_settings := st, m_instanceCount := 0 }]
    examples := s.examples
    trace := s.trace ++ [⟨s.wrappers.length, c⟩]
    nextHandle := s.nextHandle }

/-- An engine in which every seeding call raises and nothing else does. -/
def seedFailsEngine : Engine :=
  { quietEngine with
    raises := fun _ e => match e.call with
      | .seed_vw_model _ _ => true
      | _ => false }

/-! ## Relations between the state before and after a member function -/

/-- The handle field of the wrapper at `x` (null also when `x` is no object). -/
def handleOf (s : State) (x : Nat) : Option Nat := (s.wrappers[x]?).bind (·.m_vw)

/-- Base-model references point to objects constructed earlier. -/
def Acyclic (s : State) : Prop :=
  ∀ (w : Nat) (W : VowpalWabbitBase) (b : Nat),
    s.wrappers[w]? = some W → W.m_model = some b → b < w

/-- What a field update of a wrapper during disposal may do: handle and base reference
stay or become null, a discarded pool stays discarded, the settings stay. -/
def ShrinkW (X Y : VowpalWabbitBase) : Prop :=
  (Y.m_vw = X.m_vw ∨ Y.m_vw = none) ∧ (Y.m_model = X.m_model ∨ Y.m_model = none) ∧
  (X.m_examples = none → Y.m_examples = none) ∧ Y.m_settings = X.m_settings

/-- What a field update of an example during disposal may do. -/
def ShrinkE (E F : VowpalWabbitExample) : Prop :=
  F.InnerExample = E.InnerExample ∧ (E.m_example = none → F.m_example = none) ∧
  (E.m_owner = none → F.m_owner = none)

/-- Facts that hold between the state before and any state after a disposal, whatever the
heap looks like and whatever the collaborators do. -/
structure Evolves (s t : State) : Prop where
  len : t.wrappers.length = s.wrappers.length
  elen : t.examples.length = s.examples.length
  nh : t.nextHandle = s.nextHandle
  wr : ∀ (x : Nat) (X : VowpalWabbitBase), s.wrappers[x]? = some X →
    ∃ Y, t.wrappers[x]? = some Y ∧ ShrinkW X Y
  ex : ∀ (e : Nat) (E : VowpalWabbitExample), s.examples[e]? = some E →
    ∃ F, t.examples[e]? = some F ∧ ShrinkE E F
  tr : ∃ evs, t.trace = s.trace ++ evs ∧
    ∀ x h, (⟨x, .finish h⟩ : Event) ∈ evs → handleOf t x = none

/-- Facts that hold for a disposal of the wrapper at `w` when base references are acyclic:
younger objects are untouched, the counter of `w` keeps its value, and every outgoing call
is issued by `w` or an older object. -/
structure Frame (w : Nat) (s t : State) : Prop where
  above : ∀ i, w < i → t.wrappers[i]? = s.wrappers[i]?
  cnt : (t.wrappers[w]?).map (·.m_instanceCount) = (s.wrappers[w]?).map (·.m_instanceCount)
  who : ∃ evs, t.trace = s.trace ++ evs ∧ ∀ ev ∈ evs, ev.who ≤ w

/-- The two together. -/
def Rel (w : Nat) (s t : State) : Prop := Evolves s t ∧ (Acyclic s → Frame w s t)

/-- A property of every state an outcome can carry. -/
def Res.All (P : State → Prop) (r : Res) : Prop := ∀ t, r.state? = some t → P t

/-- An engine in which every `finish` raises and nothing else does. -/
def finishFailsEngine : Engine :=
  { quietEngine with
    raises := fun _ e => match e.call with
      | .finish _ => true
      | _ => false }

/-- The state `loneState` is left in when its wrapper is disposed and `finish` raises. -/
def loneStateDisposed : State :=
  { wrappers := [{ m_examples := none, m_vw := none, m_model := none,
                   m_settings := VowpalWabbitSettings.fresh, m_instanceCount := 0 }],
    examples := [],
    trace := [⟨0, .release_parser_datastructures 7⟩, ⟨0, .finish 7⟩],
    nextHandle := 8 }

/-- A base model (object 0, handle 10, one dependent) and a wrapper seeded from it
(object 1, handle 11). -/
def seededState : State :=
  { wrappers := [{ m_examples := some [], m_vw := some 10, m_model := none,
                   m_settings := VowpalWabbitSettings.fresh, m_instanceCount := 1 },
                 { m_examples := some [], m_vw := some 11, m_model := some 0,
                   m_settings := { VowpalWabbitSettings.fresh with Model := some 0 },
                   m_instanceCount := 0 }],
    examples := [], trace := [], nextHandle := 12 }

/-- The state `Reload` leaves `seededState` in when the dependent is reloaded and `finish`
raises: the dependent has a null handle and still refers to its base. -/
def seededReloadFailed : State :=
  { wrappers := [{ m_examples := some [], m_vw := some 10, m_model := none,
                   m_settings := VowpalWabbitSettings.fresh, m_instanceCount := 1 },
                 { m_examples := some [], m_vw := none, m_model := some 0,
                   m_settings := { VowpalWabbitSettings.fresh with Model := some 0 },
                   m_instanceCount := 0 }],
    examples := [],
    trace := [⟨1, .save_predictor 11 .memory⟩, ⟨1, .release_parser_datastructures 11⟩,
      ⟨1, .finish 11⟩],
    nextHandle := 12 }

/-- The state right after `VowpalWabbitBase(settings)` with default settings on the empty
heap, all calls returning. -/
def freshWrapperState : State :=
  { wrappers := [{ m_examples := some [], m_vw := some 100, m_model := none,
                   m_settings := VowpalWabbitSettings.fresh, m_instanceCount := 0 }],
    examples := [], trace := [⟨0, .initializeVW "" none⟩], nextHandle := 101 }

/-! ## The example pool: what draining it amounts to -/

/-- Owner and buffer cleared, chain link kept. -/
def clearFields (x : VowpalWabbitExample) : VowpalWabbitExample :=
  { x with m_example := none, m_owner := none }

/-- The example list with the fields of node `i` cleared. -/
def nullEx (es : List VowpalWabbitExample) (i : Nat) : List VowpalWabbitExample :=
  match es[i]? with
  | some x => es.set i (clearFields x)
  | none => es

/-- The example list with the fields of all nodes in `l` cleared. -/
def nullAllEx (es : List VowpalWabbitExample) (l : List Nat) : List VowpalWabbitExample :=
  l.foldl nullEx es

/-- The nodes reached from `e` along `InnerExample`, `e` itself excluded; `none` when the
walk meets a dangling reference or has not reached the null link within `n` steps (as on
a cyclic chain, for every `n`). -/
def chainNodes (es : List VowpalWabbitExample) : Nat → Nat → Option (List Nat)
  | 0, _ => none
  | n + 1, e =>
    match es[e]? with
    | none => none
    | some E =>
      match E.InnerExample with
      | none => some []
      | some i =>
        match es[i]? with
        | none => none
        | some _ => (chainNodes es n i).map fun l => i :: l

/-- The native buffer of example `e`. -/
def bufOf (es : List VowpalWabbitExample) (e : Nat) : Option Nat := (es[e]?).bind (·.m_example)

/-- The pool can be drained in the given order: every pooled example has a buffer and a
chain that ends, and no pooled example is a later entry of the pool again or lies on the
chain of an entry drained before it. -/
def poolOK (es : List VowpalWabbitExample) (fuel : Nat) : List Nat → Bool
  | [] => true
  | e :: rest =>
    (bufOf es e).isSome &&
    (match chainNodes es fuel e with
      | some l => rest.all fun x => x != e && !l.contains x
      | none => false) &&
    poolOK es fuel rest

/-- All nodes the drain clears, in the order it clears them. -/
def drainNodes (es : List VowpalWabbitExample) (fuel : Nat) : List Nat → List Nat
  | [] => []
  | e :: rest => ((chainNodes es fuel e).getD [] ++ [e]) ++ drainNodes es fuel rest

/-- The calls the drain makes for wrapper `w`: per pooled example, `dealloc_example` on
its buffer with the two captured deallocators, then `free_it` on the buffer. -/
def drainEvents (es : List VowpalWabbitExample) (w dl dp : Nat) : List Nat → List Event
  | [] => []
  | e :: rest =>
    (match bufOf es e with
      | some buf => [⟨w, .dealloc_example dl buf dp e⟩, ⟨w, .free_it buf⟩]
      | none => []) ++ drainEvents es w dl dp rest

/-- The calls made while draining. -/
def Call.isDrain : Call → Bool
  | .dealloc_example _ _ _ _ => true
  | .free_it _ => true
  | _ => false

/-- The calls that free an example. -/
def Call.isDealloc : Call → Bool
  | .dealloc_example _ _ _ _ => true
  | _ => false

/-- The managed example a `dealloc_example` entry was issued for. -/
def Call.deallocOf : Call → Option Nat
  | .dealloc_example _ _ _ e => some e
  | _ => none

/-- The state after wrapper `w` (with fields `W`, handle `h`, pool `exs`) has drained its
pool: heads and chain nodes cleared, the calls logged, the container dropped. -/
def drained (eng : Engine) (s : State) (w : Nat) (W : VowpalWabbitBase) (fuel h : Nat)
    (exs : List Nat) : State :=
  { wrappers := s.wrappers.set w { W with m_examples := none }
    examples := nullAllEx s.examples (drainNodes s.examples fuel exs)
    trace := s.trace ++ drainEvents s.examples w (eng.delete_label s.trace h)
      (eng.delete_prediction s.trace h) exs
    nextHandle := s.nextHandle }

/-- The new calls are issued by wrappers other than `w`, or free no example. -/
def NoDeallocBy (w : Nat) (s t : State) : Prop :=
  ∃ evs, t.trace = s.trace ++ evs ∧ ∀ ev ∈ evs, ev.who = w → ev.call.isDealloc = false

/-- A wrapper (object 0, handle 7) whose pool holds example 2, which wraps example 1, which
wraps example 0; all three carry the buffer 50 of the head. -/
def pooledState : State :=
  { wrappers := [{ m_examples := some [2], m_vw := some 7, m_model := none,
                   m_settings := VowpalWabbitSettings.fresh, m_instanceCount := 0 }],
    examples := [{ m_example := some 50, m_owner := some 0, InnerExample := none },
                 { m_example := some 50, m_owner := some 0, InnerExample := some 0 },
                 { m_example := some 50, m_owner := some 0, InnerExample := some 1 }],
    trace := [], nextHandle := 8 }

/-- As `pooledState`, but the pool holds example 1 and also example 0, which lies on the
chain of example 1. -/
def overlappingPoolState : State :=
  { wrappers := [{ m_examples := some [1, 0], m_vw := some 7, m_model := none,
                   m_settings := VowpalWabbitSettings.fresh, m_instanceCount := 0 }],
    examples := [{ m_example := some 50, m_owner := some 0, InnerExample := none },
                 { m_example := some 51, m_owner := some 0, InnerExample := some 0 }],
    trace := [], nextHandle := 8 }

/-- The same two examples with the pool in the other order: example 0, an inner node of
example 1, comes first. -/
def innerFirstPoolState : State :=
  { wrappers := [{ m_examples := some [0, 1], m_vw := some 7, m_model := none,
                   m_settings := VowpalWabbitSettings.fresh, m_instanceCount := 0 }],
    examples := [{ m_example := some 50, m_owner := some 0, InnerExample := none },
                 { m_example := some 51, m_owner := some 0, InnerExample := some 0 }],
    trace := [], nextHandle := 8 }

/-- A wrapper (object 0, handle 7) whose pool holds the same example twice. -/
def duplicatePoolState : State :=
  { wrappers := [{ m_examples := some [0, 0], m_vw := some 7, m_model := none,
                   m_settings := VowpalWabbitSettings.fresh, m_instanceCount := 0 }],
    examples := [{ m_example := some 50, m_owner := some 0, InnerExample := none }],
    trace := [], nextHandle := 8 }

/-- An engine in which every `dealloc_example` raises and nothing else does. -/
def deallocFailsEngine : Engine :=
  { quietEngine with
    raises := fun _ e => match e.call with
      | .dealloc_example _ _ _ _ => true
      | _ => false }

/-! ## Well-formed heaps and complete teardowns -/

/-- Example `e` sits in the pool of some wrapper. -/
def InPool (s : State) (e : Nat) : Prop :=
  ∃ (w : Nat) (W : VowpalWabbitBase) (exs : List Nat),
    s.wrappers[w]? = some W ∧ W.m_examples = some exs ∧ e ∈ exs

/-- A well-formed heap: a base model is older than the wrappers seeded from it, an inner
example is older than the example wrapping it, pools hold each example at most once and
are pairwise disjoint, a pooled example has a buffer and does not lie on the chain of a
pooled example, two wrappers never hold the same handle, and handles were handed out in
order. -/
structure WF (s : State) : Prop where
  model_lt : Acyclic s
  inner_lt : ∀ (e : Nat) (E : VowpalWabbitExample) (i : Nat),
    s.examples[e]? = some E → E.InnerExample = some i → i < e
  pool_nodup : ∀ (w : Nat) (W : VowpalWabbitBase) (exs : List Nat),
    s.wrappers[w]? = some W → W.m_examples = some exs → exs.Nodup
  pool_disjoint : ∀ (w v : Nat) (W V : VowpalWabbitBase) (exs eys : List Nat) (e : Nat),
    s.wrappers[w]? = some W → s.wrappers[v]? = some V → W.m_examples = some exs →
    V.m_examples = some eys → e ∈ exs → e ∈ eys → w = v
  pool_buf : ∀ e, InPool s e → (bufOf s.examples e).isSome = true
  pool_head : ∀ (e x : Nat), InPool s e → InPool s x → ∀ (n : Nat) (l : List Nat),
    chainNodes s.examples n e = some l → x ∉ l
  handle_inj : ∀ (w v : Nat) (W V : VowpalWabbitBase) (h : Nat),
    s.wrappers[w]? = some W → s.wrappers[v]? = some V → W.m_vw = some h → V.m_vw = some h →
    w = v
  handle_lt : ∀ (w : Nat) (W : VowpalWabbitBase) (h : Nat),
    s.wrappers[w]? = some W → W.m_vw = some h → h < s.nextHandle

/-- What disposal does to the fields of a wrapper that matter for well-formedness. -/
def Shrink2 (X Y : VowpalWabbitBase) : Prop :=
  (Y.m_vw = X.m_vw ∨ Y.m_vw = none) ∧ (Y.m_model = X.m_model ∨ Y.m_model = none) ∧
  (Y.m_examples = X.m_examples ∨ Y.m_examples = none ∨ Y.m_examples = some [])

/-- A step of disposal as far as well-formedness is concerned: wrappers shrink, and the
examples whose fields are cleared are in no pool. -/
structure Shrinks (s t : State) : Prop where
  nh : t.nextHandle = s.nextHandle
  wr : ∀ (x : Nat) (Y : VowpalWabbitBase), t.wrappers[x]? = some Y →
    ∃ X, s.wrappers[x]? = some X ∧ Shrink2 X Y
  ex : ∃ l, t.examples = nullAllEx s.examples l ∧ ∀ x ∈ l, ¬ InPool s x

/-- The handles on which `finish` is called, in order. -/
def finishes : List Event → List Nat
  | [] => []
  | ev :: evs =>
    match ev.call with
    | .finish h => h :: finishes evs
    | _ => finishes evs

/-- What a complete teardown of wrapper `w` (fields `W` on entry) achieves, from state `s`
to state `t` with new calls `evs`. -/
structure TornDown (s : State) (w : Nat) (W : VowpalWabbitBase) (t : State)
    (evs : List Event) : Prop where
  wf : WF t
  tr : t.trace = s.trace ++ evs
  fin_nodup : (finishes evs).Nodup
  fin_src : ∀ h ∈ finishes evs, ∃ (i : Nat) (X : VowpalWabbitBase),
    i ≤ w ∧ s.wrappers[i]? = some X ∧ X.m_vw = some h
  last : ∀ h, W.m_vw = some h →
    ∃ pre, evs = pre ++ [⟨w, .release_parser_datastructures h⟩, ⟨w, .finish h⟩] ∧
      ∀ (b : Nat) (B : VowpalWabbitBase) (hb : Nat), W.m_model = some b →
        s.wrappers[b]? = some B → B.m_instanceCount - 1 ≤ 0 → B.m_vw = some hb →
        (⟨b, .finish hb⟩ : Event) ∈ pre
  base_cnt : ∀ (h b : Nat) (B : VowpalWabbitBase), W.m_vw = some h → W.m_model = some b →
    s.wrappers[b]? = some B →
    ∃ B1, t.wrappers[b]? = some B1 ∧ B1.m_instanceCount = B.m_instanceCount - 1
  base_kept : ∀ (h b : Nat) (B : VowpalWabbitBase), W.m_vw = some h → W.m_model = some b →
    s.wrappers[b]? = some B → 0 < B.m_instanceCount - 1 →
    t.wrappers[b]? = some { B with m_instanceCount := B.m_instanceCount - 1 } ∧
    (∀ i, i ≠ w → i ≠ b → t.wrappers[i]? = s.wrappers[i]?) ∧ finishes evs = [h] ∧
    (∀ e, InPool t e → t.examples[e]? = s.examples[e]?)

/-- The wrappers are as before and every new call is issued by `w` and satisfies `P`. -/
def Own (P : Call → Bool) (w : Nat) (s t : State) : Prop :=
  t.wrappers = s.wrappers ∧
    ∃ evs, t.trace = s.trace ++ evs ∧ ∀ ev ∈ evs, ev.who = w ∧ P ev.call = true

/-! ## Concrete heaps used as instances -/

/-- The state after a base model and then a wrapper seeded from it were constructed on the
empty heap, all calls returning: the base (object 0, handle 100) has count 1, the
dependent (object 1, handle 101) refers to it. -/
def seededFreshState : State :=
  { wrappers := [{ m_examples := some [], m_vw := some 100, m_model := none,
                   m_settings := VowpalWabbitSettings.fresh, m_instanceCount := 1 },
                 { m_examples := some [], m_vw := some 101, m_model := some 0,
                   m_settings := { VowpalWabbitSettings.fresh with Model := some 0 },
                   m_instanceCount := 0 }],
    examples := [],
    trace := [⟨0, .initializeVW "" none⟩, ⟨1, .seed_vw_model 100 ""⟩],
    nextHandle := 102 }

/-- A base model (object 0, handle 10) with one pooled example and two dependents
(objects 1 and 2, handles 11 and 12). -/
def sharedState : State :=
  { wrappers := [{ m_examples := some [0], m_vw := some 10, m_model := none,
                   m_settings := VowpalWabbitSettings.fresh, m_instanceCount := 2 },
                 { m_examples := some [], m_vw := some 11, m_model := some 0,
                   m_settings := { VowpalWabbitSettings.fresh with Model := some 0 },
                   m_instanceCount := 0 },
                 { m_examples := some [], m_vw := some 12, m_model := some 0,
                   m_settings := { VowpalWabbitSettings.fresh with Model := some 0 },
                   m_instanceCount := 0 }],
    examples := [{ m_example := some 50, m_owner := some 0, InnerExample := none }],
    trace := [], nextHandle := 13 }

/-- A base model (object 0, handle 10) with one pooled example and no dependent yet. -/
def baseState : State :=
  { wrappers := [{ m_examples := some [0], m_vw := some 10, m_model := none,
                   m_settings := VowpalWabbitSettings.fresh, m_instanceCount := 0 }],
    examples := [{ m_example := some 50, m_owner := some 0, InnerExample := none }],
    trace := [], nextHandle := 11 }

/-- Construct wrappers one after the other from the given settings; the run ends at the
first construction that does not return normally. -/
def constructAll (eng : Engine) : State → List VowpalWabbitSettings → Res
  | s, [] => .ok s
  | s, st :: rest => (construct eng s (some st)).2.bind fun s1 => constructAll eng s1 rest

/-- Dispose the listed wrappers one after the other; the run ends at the first disposal
that does not return normally. -/
def disposeAll (eng : Engine) (fuel : Nat) : State → List Nat → Res
  | s, [] => .ok s
  | s, w :: rest => (Dispose eng fuel s w).bind fun s1 => disposeAll eng fuel s1 rest

/-- The fields of a wrapper just seeded from base `b` with settings `st` in state `s`. -/
def dependentOf (s : State) (b : Nat) (st : VowpalWabbitSettings) : VowpalWabbitBase :=
  { m_examples := some [], m_vw := some s.nextHandle, m_model := some b,
    m_settings := st, m_instanceCount := 0 }

/-- The state after a wrapper has been seeded from the live base `b` (fields `B`, handle
`hb`) with settings `st`, all calls returning. -/
def seededFrom (s : State) (b : Nat) (B : VowpalWabbitBase) (hb : Nat)
    (st : VowpalWabbitSettings) : State :=
  { wrappers := s.wrappers.set b { B with m_instanceCount := B.m_instanceCount + 1 } ++
      [dependentOf s b st]
    examples := s.examples
    trace := s.trace ++ [⟨s.wrappers.length, .seed_vw_model hb st.Arguments⟩]
    nextHandle := s.nextHandle + 1 }

/-- Wrapper `d` is live, seeded from `b`, and nobody is seeded from it. -/
def Dep (s : State) (b d : Nat) : Prop :=
  ∃ (D : VowpalWabbitBase) (hd : Nat), s.wrappers[d]? = some D ∧ D.m_vw = some hd ∧
    D.m_model = some b ∧ D.m_instanceCount ≤ 0

/-- The state after a third wrapper (object 2, handle 102) has been seeded from the
dependent of `seededFreshState`: object 1 is seeded from object 0 and is itself a base. -/
def chainState : State :=
  { wrappers := [{ m_examples := some [], m_vw := some 100, m_model := none,
                   m_settings := VowpalWabbitSettings.fresh, m_instanceCount := 1 },
                 { m_examples := some [], m_vw := some 101, m_model := some 0,
                   m_settings := { VowpalWabbitSettings.fresh with Model := some 0 },
                   m_instanceCount := 1 },
                 { m_examples := some [], m_vw := some 102, m_model := some 1,
                   m_settings := { VowpalWabbitSettings.fresh with Model := some 1 },
                   m_instanceCount := 0 }],
    examples := [],
    trace := [⟨0, .initializeVW "" none⟩, ⟨1, .seed_vw_model 100 ""⟩,
      ⟨2, .seed_vw_model 101 ""⟩],
    nextHandle := 103 }

/-- The state `Reload` leaves `seededFreshState` in when the dependent is reloaded and
`finish` raises: the dependent has a null handle and still refers to its base. -/
def seededFreshReloadFailed : State :=
  { wrappers := [{ m_examples := some [], m_vw := some 100, m_model := none,
                   m_settings := VowpalWabbitSettings.fresh, m_instanceCount := 1 },
                 { m_examples := some [], m_vw := none, m_model := some 0,
                   m_settings := { VowpalWabbitSettings.fresh with Model := some 0 },
                   m_instanceCount := 0 }],
    examples := [],
    trace := [⟨0, .initializeVW "" none⟩, ⟨1, .seed_vw_model 100 ""⟩,
      ⟨1, .save_predictor 101 .memory⟩, ⟨1, .release_parser_datastructures 101⟩,
      ⟨1, .finish 101⟩],
    nextHandle := 102 }

/-! ## Sequences of caller-facing operations -/

/-- A caller-facing operation together with the wrapper it is applied to; `construct st`
builds a new wrapper from the settings `st`. -/
inductive Step
  | construct (st : VowpalWabbitSettings)
  | IncrementReference (x : Nat)
  | DecrementReference (x : Nat)
  | Dispose (x : Nat)
  | Finalize (x : Nat)
  deriving DecidableEq, Repr

/-- One operation. -/
def runStep (eng : Engine) (fuel : Nat) (s : State) : Step → Res
  | .construct st => (construct eng s (some st)).2
  | .IncrementReference x => IncrementReference s x
  | .DecrementReference x => DecrementReference eng fuel s x
  | .Dispose x => Dispose eng fuel s x
  | .Finalize x => Finalize eng fuel s x

/-- A sequence of operations; the run ends at the first one that does not return
normally. -/
def runSteps (eng : Engine) (fuel : Nat) : State → List Step → Res
  | s, [] => .ok s
  | s, st :: rest => (runStep eng fuel s st).bind fun s1 => runSteps eng fuel s1 rest

/-- Wrapper `d` has a live handle and refers to `w` as its base model. -/
def holds (w : Nat) (d : VowpalWabbitBase) : Bool := d.m_model == some w && d.m_vw.isSome

/-- The number of wrappers with a live handle that refer to `w` as their base model. -/
def dependents (s : State) (w : Nat) : Nat := s.wrappers.countP (holds w)

/-- The reference count of the wrapper at `w` (0 when `w` is no object). -/
def countOf (s : State) (w : Nat) : Int := ((s.wrappers[w]?).map (·.m_instanceCount)).getD 0

/-- The count of `w` beyond what its live dependents account for. -/
def balance (s : State) (w : Nat) : Int := countOf s w - dependents s w

/-- The state the first disposal of the dependent of `seededFreshState` ends in when every
`finish` raises: the base has been torn down, its `finish` raised, and the dependent still
has its handle and its base reference. -/
def baseFinishRaised : State :=
  { wrappers := [{ m_examples := none, m_vw := none, m_model := none,
                   m_settings := VowpalWabbitSettings.fresh, m_instanceCount := 0 },
                 { m_examples := none, m_vw := some 101, m_model := some 0,
                   m_settings := { VowpalWabbitSettings.fresh with Model := some 0 },
                   m_instanceCount := 0 }],
    examples := [],
    trace := [⟨0, .initializeVW "" none⟩, ⟨1, .seed_vw_model 100 ""⟩,
      ⟨0, .release_parser_datastructures 100⟩, ⟨0, .finish 100⟩],
    nextHandle := 102 }

/-- The operations of a sample run on a fresh wrapper (object 0): a wrapper is seeded from
it, its count is incremented, the dependent is disposed, the count is decremented. -/
def sampleSteps : List Step :=
  [.construct { VowpalWabbitSettings.fresh with Model := some 0 },
   .IncrementReference 0, .Dispose 1, .DecrementReference 0]

/-- The state `sampleSteps` ends in when run from `freshWrapperState` with all calls
returning. -/
def sampleStepsEnd : State :=
  { wrappers := [{ m_examples := none, m_vw := none, m_model := none,
                   m_settings := VowpalWabbitSettings.fresh, m_instanceCount := 0 },
                 { m_examples := none, m_vw := none, m_model := none,
                   m_settings := { VowpalWabbitSettings.fresh with Model := some 0 },
                   m_instanceCount := 0 }],
    examples := [],
    trace := [⟨0, .initializeVW "" none⟩, ⟨1, .seed_vw_model 100 ""⟩,
      ⟨1, .release_parser_datastructures 101⟩, ⟨1, .finish 101⟩,
      ⟨0, .release_parser_datastructures 100⟩, ⟨0, .finish 100⟩],
    nextHandle := 102 }

/-! ## Basic facts about the state-passing primitives -/

@[simp] theorem Res.bind_ok (s : State) (k : State → Res) : (Res.ok s).bind k = k s := rfl

@[simp] theorem Res.bind_raised (e : Exn) (s : State) (k : State → Res) :
    (Res.raised e s).bind k = Res.raised e s := rfl

@[simp] theorem Res.bind_fault (k : State → Res) : Res.fault.bind k = Res.fault := rfl

@[simp] theorem Res.bind_outOfFuel (k : State → Res) : Res.outOfFuel.bind k = Res.outOfFuel := rfl

@[simp] theorem updW_examples (s : State) (w : Nat) (f : VowpalWabbitBase → VowpalWabbitBase) :
    (updW s w f).examples = s.examples := by
  unfold updW; split <;> rfl

@[simp] theorem updW_trace (s : State) (w : Nat) (f : VowpalWabbitBase → VowpalWabbitBase) :
    (updW s w f).trace = s.trace := by
  unfold updW; split <;> rfl

@[simp] theorem updW_nextHandle (s : State) (w : Nat) (f : VowpalWabbitBase → VowpalWabbitBase) :
    (updW s w f).nextHandle = s.nextHandle := by
  unfold updW; split <;> rfl

@[simp] theorem updW_length (s : State) (w : Nat) (f : VowpalWabbitBase → VowpalWabbitBase) :
    (updW s w f).wrappers.length = s.wrappers.length := by
  unfold updW; split <;> simp

theorem updW_get (s : State) (w i : Nat) (f : VowpalWabbitBase → VowpalWabbitBase) :
    (updW s w f).wrappers[i]? = if i = w then (s.wrappers[w]?).map f else s.wrappers[i]? := by
  unfold updW
  split
  · rename_i x hx
    by_cases h : i = w
    · subst h
      have hlt : i < s.wrappers.length := by
        rcases List.getElem?_eq_some_iff.1 hx with ⟨hl, _⟩
        exact hl
      simp [hx, List.getElem?_set_self, hlt]
    · have h2 : w ≠ i := fun e => h e.symm
      simp [h, List.getElem?_set_ne h2]
  · rename_i hx
    by_cases h : i = w
    · subst h; simp [hx]
    · simp [h]

theorem updW_get_self (s : State) (w : Nat) (f : VowpalWabbitBase → VowpalWabbitBase) :
    (updW s w f).wrappers[w]? = (s.wrappers[w]?).map f := by
  rw [updW_get]; simp

theorem updW_get_ne (s : State) (w i : Nat) (f : VowpalWabbitBase → VowpalWabbitBase)
    (h : i ≠ w) : (updW s w f).wrappers[i]? = s.wrappers[i]? := by
  rw [updW_get]; simp [h]

theorem updW_of_get (s : State) (w : Nat) (f : VowpalWabbitBase → VowpalWabbitBase)
    (x : VowpalWabbitBase) (h : s.wrappers[w]? = some x) :
    updW s w f = { s with wrappers := s.wrappers.set w (f x) } := by
  unfold updW; rw [h]



/-! ## Configuration errors, reload, construction failure, disposal of a dead wrapper -/

theorem callNative_cases (eng : Engine) (s : State) (who : Nat) (c : Call) :
    callNative eng s who c = .ok { s with trace := s.trace ++ [⟨who, c⟩] } ∨
    callNative eng s who c =
      .raised .VowpalWabbitException { s with trace := s.trace ++ [⟨who, c⟩] } := by
  unfold callNative
  by_cases h : eng.raises s.trace ⟨who, c⟩ = true
  · right; simp [h]
  · left; simp [h]

theorem callNative_ok (eng : Engine) (s : State) (who : Nat) (c : Call)
    (h : eng.raises s.trace ⟨who, c⟩ = false) :
    callNative eng s who c = .ok { s with trace := s.trace ++ [⟨who, c⟩] } := by
  simp [callNative, h]

theorem callNative_raised (eng : Engine) (s : State) (who : Nat) (c : Call)
    (h : eng.raises s.trace ⟨who, c⟩ = true) :
    callNative eng s who c =
      .raised .VowpalWabbitException { s with trace := s.trace ++ [⟨who, c⟩] } := by
  simp [callNative, h]

theorem callNative_not_argument (eng : Engine) (s : State) (who : Nat) (c : Call) (s1 : State) :
    callNative eng s who c ≠ .raised .ArgumentException s1 := by
  rcases callNative_cases eng s who c with h | h <;> rw [h] <;> simp

theorem Res.bind_not_argument (r : Res) (k : State → Res)
    (hr : ∀ s1, r ≠ .raised .ArgumentException s1)
    (hk : ∀ s2 s1, k s2 ≠ .raised .ArgumentException s1) (s1 : State) :
    r.bind k ≠ .raised .ArgumentException s1 := by
  cases r with
  | ok s => exact hk s s1
  | raised e s =>
    intro h
    simp only [Res.bind_raised] at h
    exact hr s1 h
  | fault => simp
  | outOfFuel => simp

/-- C8, as stated, fails in its last clause: a file name made of one blank is not empty,
yet `SaveModel(" ")` raises the invalid-argument condition, thrown by `GetDirectoryName`
after the wrapper's own test has let the name through. -/
theorem blank_path_raises_argument :
    (" " : String) ≠ "" ∧
    SaveModelFile blankPathEngine loneState 0 (some " ") =
      .raised .ArgumentException loneState := by
  refine ⟨by decide, ?_⟩
  simp [SaveModelFile, blankPathEngine]

/-- C8, amended: the three configuration errors are raised with the state (handle, heap,
trace of outgoing calls, so also no directory creation) exactly as before the call.  A
non-empty file name passes the wrapper's own test: `SaveModel(path)` then raises the
invalid-argument condition only when `GetDirectoryName` throws it for that name, with the
state unchanged, or when `CreateDirectory` throws it for the directory part, with that
call as the only one made; in both cases `save_predictor` has not been called. -/
theorem config_errors_atomic (eng : Engine) (s : State) (this : Nat) :
    SaveModelFile eng s this none = .raised .ArgumentException s ∧
    SaveModelFile eng s this (some "") = .raised .ArgumentException s ∧
    SaveModelStream eng s this none = .raised .ArgumentException s ∧
    (∀ self args, s.wrappers[this]? = some self → self.m_settings.ParallelOptions ≠ none →
      Reload eng s this args = .raised .NotSupportedException s) ∧
    (∀ name, name ≠ "" → ∀ s1,
      SaveModelFile eng s this (some name) = .raised .ArgumentException s1 →
      (eng.GetDirectoryName name = .error .ArgumentException ∧ s1 = s) ∨
      (∃ d, eng.GetDirectoryName name = .ok (some d) ∧ d ≠ "" ∧
        eng.fileRaises s.trace ⟨this, .CreateDirectory d⟩ = some .ArgumentException ∧
        s1 = { s with trace := s.trace ++ [⟨this, .CreateDirectory d⟩] })) := by
  refine ⟨rfl, ?_, rfl, ?_, ?_⟩
  · simp [SaveModelFile]
  · intro self args hself hpar
    simp [Reload, hself, hpar]
  · intro name hname s1 hrun
    simp only [SaveModelFile, hname, if_false] at hrun
    have hsave : ∀ s2 : State,
        (match (s2.wrappers[this]?).bind (·.m_vw) with
          | none => Res.fault
          | some h => callNative eng s2 this (.save_predictor h (.file name))) ≠
        .raised .ArgumentException s1 := by
      intro s2
      cases (s2.wrappers[this]?).bind (·.m_vw) with
      | none => simp
      | some h => exact callNative_not_argument eng s2 this _ s1
    cases hg : eng.GetDirectoryName name with
    | error e =>
      rw [hg] at hrun
      simp only [Res.raised.injEq] at hrun
      left
      exact ⟨by rw [hrun.1], hrun.2.symm⟩
    | ok dir =>
      rw [hg] at hrun
      right
      cases dir with
      | none =>
        simp only [Res.bind_ok] at hrun
        exact absurd hrun (hsave s)
      | some d =>
        by_cases hde : d = ""
        · simp only [hde, if_true, Res.bind_ok] at hrun
          exact absurd hrun (hsave s)
        · simp only [hde, if_false, callFile] at hrun
          cases hf : eng.fileRaises s.trace ⟨this, .CreateDirectory d⟩ with
          | none =>
            rw [hf] at hrun
            simp only [Res.bind_ok] at hrun
            exact absurd hrun
              (hsave { s with trace := s.trace ++ [⟨this, .CreateDirectory d⟩] })
          | some e =>
            rw [hf] at hrun
            simp only [Res.bind_raised, Res.raised.injEq] at hrun
            exact ⟨d, rfl, hde, by rw [hf, hrun.1], hrun.2.symm⟩

theorem config_errors_atomic_witness :
    Reload quietEngine parallelState 0 (some "--new-flag") =
      .raised .NotSupportedException parallelState ∧
    ((blankPathEngine.GetDirectoryName " " = .error .ArgumentException ∧
        loneState = loneState) ∨
      ∃ d, blankPathEngine.GetDirectoryName " " = .ok (some d) ∧ d ≠ "" ∧
        blankPathEngine.fileRaises loneState.trace ⟨0, .CreateDirectory d⟩ =
          some .ArgumentException ∧
        loneState = { loneState with
          trace := loneState.trace ++ [⟨0, .CreateDirectory d⟩] }) :=
  ⟨(config_errors_atomic quietEngine parallelState 0).2.2.2.1 _ _ rfl (by decide),
   (config_errors_atomic blankPathEngine loneState 0).2.2.2.2 " " (by decide) loneState
     (by simp [SaveModelFile, blankPathEngine])⟩

theorem Reload_outcomes (eng : Engine) (s : State) (this : Nat) (self : VowpalWabbitBase)
    (h : Nat) (args : Option String)
    (hself : s.wrappers[this]? = some self)
    (hpar : self.m_settings.ParallelOptions = none)
    (hvw : self.m_vw = some h)
    (hsave : eng.raises s.trace ⟨this, .save_predictor h .memory⟩ = false)
    (hrel : eng.raises (s.trace ++ [⟨this, .save_predictor h .memory⟩])
      ⟨this, .release_parser_datastructures h⟩ = false) :
    (eng.raises (s.trace ++ [⟨this, .save_predictor h .memory⟩,
        ⟨this, .release_parser_datastructures h⟩]) ⟨this, .finish h⟩ = true →
      Reload eng s this args = .raised .VowpalWabbitException
        { wrappers := s.wrappers.set this { self with m_vw := none }
          examples := s.examples
          trace := s.trace ++ [⟨this, .save_predictor h .memory⟩,
            ⟨this, .release_parser_datastructures h⟩, ⟨this, .finish h⟩]
          nextHandle := s.nextHandle }) ∧
    (eng.raises (s.trace ++ [⟨this, .save_predictor h .memory⟩,
        ⟨this, .release_parser_datastructures h⟩]) ⟨this, .finish h⟩ = false →
     eng.raises (s.trace ++ [⟨this, .save_predictor h .memory⟩,
        ⟨this, .release_parser_datastructures h⟩, ⟨this, .finish h⟩])
        ⟨this, .initializeVW (args.getD "") (some (.memory (eng.image s.trace h)))⟩ = true →
      Reload eng s this args = .raised .VowpalWabbitException
        { wrappers := s.wrappers.set this { self with m_vw := none }
          examples := s.examples
          trace := s.trace ++ [⟨this, .save_predictor h .memory⟩,
            ⟨this, .release_parser_datastructures h⟩, ⟨this, .finish h⟩,
            ⟨this, .initializeVW (args.getD "") (some (.memory (eng.image s.trace h)))⟩]
          nextHandle := s.nextHandle }) ∧
    (eng.raises (s.trace ++ [⟨this, .save_predictor h .memory⟩,
        ⟨this, .release_parser_datastructures h⟩]) ⟨this, .finish h⟩ = false →
     eng.raises (s.trace ++ [⟨this, .save_predictor h .memory⟩,
        ⟨this, .release_parser_datastructures h⟩, ⟨this, .finish h⟩])
        ⟨this, .initializeVW (args.getD "") (some (.memory (eng.image s.trace h)))⟩ = false →
      Reload eng s this args = .ok
        { wrappers := s.wrappers.set this { self with m_vw := some s.nextHandle }
          examples := s.examples
          trace := s.trace ++ [⟨this, .save_predictor h .memory⟩,
            ⟨this, .release_parser_datastructures h⟩, ⟨this, .finish h⟩,
            ⟨this, .initializeVW (args.getD "") (some (.memory (eng.image s.trace h)))⟩]
          nextHandle := s.nextHandle + 1 }) := by
  have hlt : this < s.wrappers.length := (List.getElem?_eq_some_iff.1 hself).1
  refine ⟨?_, ?_, ?_⟩
  · intro hfin
    simp [Reload, hself, hpar, hvw, callNative, hsave, hrel, hfin, updW]
  · intro hfin hinit
    simp [Reload, hself, hpar, hvw, callNative, hsave, hrel, hfin, hinit, updW, hlt]
  · intro hfin hinit
    simp [Reload, hself, hpar, hvw, callNative, hsave, hrel, hfin, hinit, updW, hlt]

/-- C9: on a non-distributed wrapper with live handle `h`, when `save_predictor` and
`release_parser_datastructures` return, `Reload` nulls the handle before `finish h`; if
`finish h` raises the wrapper is left with a null handle, and if `finish` and the
rebuilding call return, the calls made are exactly save, release, finish, build (from the
full image, read from position 0 with the given or empty argument text), the handle is
the one the build returned and nothing else in the wrapper changed. -/
theorem Reload_sequence (eng : Engine) (s : State) (this : Nat) (self : VowpalWabbitBase)
    (h : Nat) (args : Option String)
    (hself : s.wrappers[this]? = some self)
    (hpar : self.m_settings.ParallelOptions = none)
    (hvw : self.m_vw = some h)
    (hsave : eng.raises s.trace ⟨this, .save_predictor h .memory⟩ = false)
    (hrel : eng.raises (s.trace ++ [⟨this, .save_predictor h .memory⟩])
      ⟨this, .release_parser_datastructures h⟩ = false) :
    (eng.raises (s.trace ++ [⟨this, .save_predictor h .memory⟩,
        ⟨this, .release_parser_datastructures h⟩]) ⟨this, .finish h⟩ = true →
      Reload eng s this args = .raised .VowpalWabbitException
        { wrappers := s.wrappers.set this { self with m_vw := none }
          examples := s.examples
          trace := s.trace ++ [⟨this, .save_predictor h .memory⟩,
            ⟨this, .release_parser_datastructures h⟩, ⟨this, .finish h⟩]
          nextHandle := s.nextHandle }) ∧
    (eng.raises (s.trace ++ [⟨this, .save_predictor h .memory⟩,
        ⟨this, .release_parser_datastructures h⟩]) ⟨this, .finish h⟩ = false →
     eng.raises (s.trace ++ [⟨this, .save_predictor h .memory⟩,
        ⟨this, .release_parser_datastructures h⟩, ⟨this, .finish h⟩])
        ⟨this, .initializeVW (args.getD "") (some (.memory (eng.image s.trace h)))⟩ = false →
      Reload eng s this args = .ok
        { wrappers := s.wrappers.set this { self with m_vw := some s.nextHandle }
          examples := s.examples
          trace := s.trace ++ [⟨this, .save_predictor h .memory⟩,
            ⟨this, .release_parser_datastructures h⟩, ⟨this, .finish h⟩,
            ⟨this, .initializeVW (args.getD "") (some (.memory (eng.image s.trace h)))⟩]
          nextHandle := s.nextHandle + 1 }) :=
  ⟨(Reload_outcomes eng s this self h args hself hpar hvw hsave hrel).1,
   (Reload_outcomes eng s this self h args hself hpar hvw hsave hrel).2.2⟩

theorem Reload_sequence_witness :
    Reload quietEngine loneState 0 (some "--new-flag") = .ok
      { wrappers := [{ m_examples := some [], m_vw := some 8, m_model := none,
                       m_settings := VowpalWabbitSettings.fresh, m_instanceCount := 0 }]
        examples := []
        trace := [⟨0, .save_predictor 7 .memory⟩, ⟨0, .release_parser_datastructures 7⟩,
          ⟨0, .finish 7⟩, ⟨0, .initializeVW "--new-flag" (some (.memory [7, 7]))⟩]
        nextHandle := 9 } :=
  (Reload_sequence quietEngine loneState 0 _ 7 (some "--new-flag") rfl rfl rfl rfl rfl).2
    rfl rfl

theorem updW_append_new (ws : List VowpalWabbitBase) (es : List VowpalWabbitExample)
    (tr : List Event) (nh : Nat) (x : VowpalWabbitBase)
    (f : VowpalWabbitBase → VowpalWabbitBase) :
    updW { wrappers := ws ++ [x], examples := es, trace := tr, nextHandle := nh } ws.length f =
      { wrappers := ws ++ [f x], examples := es, trace := tr, nextHandle := nh } := by
  simp [updW]

/-- C7: when the call that builds the handle raises (seeding from a base, building from
arguments alone, building from a model stream), the constructor raises to its caller,
the object under construction has a null handle, and the heap is otherwise untouched, so
a supplied base keeps its reference count. -/
theorem construct_failure_propagates (eng : Engine) (s : State) (st : VowpalWabbitSettings) :
    (∀ m base bh, st.Model = some m → s.wrappers[m]? = some base → base.m_vw = some bh →
      eng.raises s.trace ⟨s.wrappers.length, .seed_vw_model bh st.Arguments⟩ = true →
      construct eng s (some st) = (s.wrappers.length, .raised .VowpalWabbitException
        (failedConstruction s st (.seed_vw_model bh st.Arguments))) ∧
      (failedConstruction s st (.seed_vw_model bh st.Arguments)).wrappers[m]? = some base) ∧
    (st.Model = none → st.ModelStream = none →
      eng.raises s.trace ⟨s.wrappers.length, .initializeVW st.Arguments none⟩ = true →
      construct eng s (some st) = (s.wrappers.length, .raised .VowpalWabbitException
        (failedConstruction s st (.initializeVW st.Arguments none)))) ∧
    (∀ stream, st.Model = none → st.ModelStream = some stream →
      eng.raises s.trace ⟨s.wrappers.length, .initializeVW
        (if !containsSub st.Arguments.data "--no_stdin".data then st.Arguments ++ " --no_stdin"
          else st.Arguments) (some (.stream stream))⟩ = true →
      construct eng s (some st) = (s.wrappers.length, .raised .VowpalWabbitException
        (failedConstruction s st (.initializeVW
          (if !containsSub st.Arguments.data "--no_stdin".data
            then st.Arguments ++ " --no_stdin" else st.Arguments)
          (some (.stream stream)))))) := by
  refine ⟨?_, ?_, ?_⟩
  · intro m base bh hm hbase hbvw hr
    have hlt : m < s.wrappers.length := (List.getElem?_eq_some_iff.1 hbase).1
    have hne : m ≠ s.wrappers.length := Nat.ne_of_lt hlt
    have hget : ∀ x : VowpalWabbitBase, (s.wrappers ++ [x])[m]? = some base := by
      intro x
      rw [List.getElem?_append_left hlt]; exact hbase
    constructor
    · simp only [construct, hm, Option.getD_some, updW_append_new, hget, hbvw, callNative, hr,
        if_true, Res.bind_raised, Res.onRaise, failedConstruction]
    · simp only [failedConstruction]
      rw [List.getElem?_append_left hlt]; exact hbase
  · intro hm hs hr
    simp only [construct, hm, hs, Option.getD_some, updW_append_new, callNative, hr,
      if_true, Res.bind_raised, Res.onRaise, failedConstruction]
  · intro stream hm hs hr
    simp only [construct, hm, hs, Option.getD_some, updW_append_new, callNative, hr,
      if_true, Res.bind_raised, Res.onRaise, failedConstruction]

theorem construct_failure_propagates_witness :
    construct seedFailsEngine loneState
        (some { VowpalWabbitSettings.fresh with Model := some 0 }) =
      (1, .raised .VowpalWabbitException
        { wrappers := [{ m_examples := some [], m_vw := some 7, m_model := none,
                         m_settings := VowpalWabbitSettings.fresh, m_instanceCount := 0 },
                       { m_examples := some [], m_vw := none, m_model := some 0,
                         m_settings := { VowpalWabbitSettings.fresh with Model := some 0 },
                         m_instanceCount := 0 }]
          examples := []
          trace := [⟨1, .seed_vw_model 7 ""⟩]
          nextHandle := 8 }) :=
  ((construct_failure_propagates seedFailsEngine loneState
    { VowpalWabbitSettings.fresh with Model := some 0 }).1 0 _ 7 rfl rfl rfl rfl).1

/-! ## What every disposal preserves -/

theorem ShrinkW.reflW (X : VowpalWabbitBase) : ShrinkW X X :=
  ⟨Or.inl rfl, Or.inl rfl, fun h => h, rfl⟩

theorem ShrinkW.transW {X Y Z : VowpalWabbitBase} (h1 : ShrinkW X Y) (h2 : ShrinkW Y Z) :
    ShrinkW X Z := by
  obtain ⟨a1, b1, c1, d1⟩ := h1
  obtain ⟨a2, b2, c2, d2⟩ := h2
  refine ⟨?_, ?_, fun h => c2 (c1 h), d2.trans d1⟩
  · rcases a2 with h | h
    · rw [h]; exact a1
    · exact Or.inr h
  · rcases b2 with h | h
    · rw [h]; exact b1
    · exact Or.inr h

theorem ShrinkE.reflE (E : VowpalWabbitExample) : ShrinkE E E := ⟨rfl, fun h => h, fun h => h⟩

theorem ShrinkE.transE {E F G : VowpalWabbitExample} (h1 : ShrinkE E F) (h2 : ShrinkE F G) :
    ShrinkE E G :=
  ⟨h2.1.trans h1.1, fun h => h2.2.1 (h1.2.1 h), fun h => h2.2.2 (h1.2.2 h)⟩

theorem handleOf_none_of_evolves {s t : State} (h : Evolves s t) (x : Nat)
    (hx : handleOf s x = none) : handleOf t x = none := by
  unfold handleOf at *
  cases hs : s.wrappers[x]? with
  | none =>
    have : t.wrappers[x]? = none := by
      rw [List.getElem?_eq_none_iff] at hs ⊢
      rw [h.len]; exact hs
    simp [this]
  | some X =>
    obtain ⟨Y, hY, hsh⟩ := h.wr x X hs
    have hx2 : X.m_vw = none := by simpa [hs] using hx
    have : Y.m_vw = none := by
      rcases hsh.1 with e | e
      · rw [e]; exact hx2
      · exact e
    simp [hY, this]

theorem Evolves.erefl (s : State) : Evolves s s :=
  { len := rfl, elen := rfl, nh := rfl
    wr := fun _ X hX => ⟨X, hX, ShrinkW.reflW X⟩
    ex := fun _ E hE => ⟨E, hE, ShrinkE.reflE E⟩
    tr := ⟨[], by simp, by simp⟩ }

theorem Evolves.etrans {s t u : State} (h1 : Evolves s t) (h2 : Evolves t u) : Evolves s u where
  len := h2.len.trans h1.len
  elen := h2.elen.trans h1.elen
  nh := h2.nh.trans h1.nh
  wr := by
    intro x X hX
    obtain ⟨Y, hY, hXY⟩ := h1.wr x X hX
    obtain ⟨Z, hZ, hYZ⟩ := h2.wr x Y hY
    exact ⟨Z, hZ, hXY.transW hYZ⟩
  ex := by
    intro e E hE
    obtain ⟨F, hF, hEF⟩ := h1.ex e E hE
    obtain ⟨G, hG, hFG⟩ := h2.ex e F hF
    exact ⟨G, hG, hEF.transE hFG⟩
  tr := by
    obtain ⟨e1, ht1, hf1⟩ := h1.tr
    obtain ⟨e2, ht2, hf2⟩ := h2.tr
    refine ⟨e1 ++ e2, by rw [ht2, ht1, List.append_assoc], ?_⟩
    intro x h hmem
    rcases List.mem_append.1 hmem with hm | hm
    · exact handleOf_none_of_evolves h2 x (hf1 x h hm)
    · exact hf2 x h hm

theorem Acyclic.of_evolves {s t : State} (h : Evolves s t) (ha : Acyclic s) : Acyclic t := by
  intro w Y b hY hb
  have hlt : w < s.wrappers.length := by
    rw [← h.len]; exact (List.getElem?_eq_some_iff.1 hY).1
  obtain ⟨X, hX⟩ : ∃ X, s.wrappers[w]? = some X := ⟨_, List.getElem?_eq_getElem hlt⟩
  obtain ⟨Y2, hY2, hsh⟩ := h.wr w X hX
  rw [hY] at hY2
  cases hY2
  rcases hsh.2.1 with e | e
  · exact ha w X b hX (by rw [← e]; exact hb)
  · rw [e] at hb; cases hb

theorem Frame.frefl (w : Nat) (s : State) : Frame w s s :=
  { above := fun _ _ => rfl, cnt := rfl, who := ⟨[], by simp, by simp⟩ }

theorem Frame.ftrans {w : Nat} {s t u : State} (h1 : Frame w s t) (h2 : Frame w t u) :
    Frame w s u where
  above := fun i hi => (h2.above i hi).trans (h1.above i hi)
  cnt := h2.cnt.trans h1.cnt
  who := by
    obtain ⟨e1, ht1, hf1⟩ := h1.who
    obtain ⟨e2, ht2, hf2⟩ := h2.who
    refine ⟨e1 ++ e2, by rw [ht2, ht1, List.append_assoc], ?_⟩
    intro ev hmem
    rcases List.mem_append.1 hmem with hm | hm
    · exact hf1 ev hm
    · exact hf2 ev hm

theorem Frame.fmono {b w : Nat} {s t : State} (hbw : b ≤ w) (h : Frame b s t) : Frame w s t where
  above := fun i hi => h.above i (Nat.lt_of_le_of_lt hbw hi)
  cnt := by
    rcases Nat.eq_or_lt_of_le hbw with e | e
    · subst e; exact h.cnt
    · rw [h.above w e]
  who := by
    obtain ⟨evs, ht, hf⟩ := h.who
    exact ⟨evs, ht, fun ev hm => Nat.le_trans (hf ev hm) hbw⟩

theorem Rel.rrefl (w : Nat) (s : State) : Rel w s s := ⟨Evolves.erefl s, fun _ => Frame.frefl w s⟩

theorem Rel.rtrans {w : Nat} {s t u : State} (h1 : Rel w s t) (h2 : Rel w t u) : Rel w s u :=
  ⟨h1.1.etrans h2.1, fun ha => (h1.2 ha).ftrans (h2.2 (Acyclic.of_evolves h1.1 ha))⟩

theorem Rel.rmono {b w : Nat} {s t : State} (h : Rel b s t) (hbw : Acyclic s → b ≤ w) :
    Rel w s t :=
  ⟨h.1, fun ha => (h.2 ha).fmono (hbw ha)⟩

theorem Res.All.ok {P : State → Prop} {s : State} (h : P s) : (Res.ok s).All P := by
  intro t ht
  simp only [Res.state?, Option.some.injEq] at ht
  subst ht; exact h

theorem Res.All.bind_rel {w : Nat} {s : State} {r : Res} {k : State → Res}
    (hr : r.All (Rel w s)) (hk : ∀ s1, Rel w s s1 → (k s1).All (Rel w s1)) :
    (r.bind k).All (Rel w s) := by
  cases r with
  | ok s1 =>
    intro t ht
    have h1 : Rel w s s1 := hr s1 rfl
    exact h1.rtrans (hk s1 h1 t ht)
  | raised e s1 => exact hr
  | fault => intro t ht; simp [Res.state?] at ht
  | outOfFuel => intro t ht; simp [Res.state?] at ht

@[simp] theorem updE_wrappers (s : State) (e : Nat)
    (f : VowpalWabbitExample → VowpalWabbitExample) : (updE s e f).wrappers = s.wrappers := by
  unfold updE; split <;> rfl

@[simp] theorem updE_trace (s : State) (e : Nat)
    (f : VowpalWabbitExample → VowpalWabbitExample) : (updE s e f).trace = s.trace := by
  unfold updE; split <;> rfl

@[simp] theorem updE_nextHandle (s : State) (e : Nat)
    (f : VowpalWabbitExample → VowpalWabbitExample) :
    (updE s e f).nextHandle = s.nextHandle := by
  unfold updE; split <;> rfl

@[simp] theorem updE_length (s : State) (e : Nat)
    (f : VowpalWabbitExample → VowpalWabbitExample) :
    (updE s e f).examples.length = s.examples.length := by
  unfold updE; split <;> simp

theorem updE_get (s : State) (e i : Nat) (f : VowpalWabbitExample → VowpalWabbitExample) :
    (updE s e f).examples[i]? = if i = e then (s.examples[e]?).map f else s.examples[i]? := by
  unfold updE
  split
  · rename_i x hx
    by_cases h : i = e
    · subst h
      have hlt : i < s.examples.length := (List.getElem?_eq_some_iff.1 hx).1
      simp [hx, List.getElem?_set_self, hlt]
    · have h2 : e ≠ i := fun c => h c.symm
      simp [h, List.getElem?_set_ne h2]
  · rename_i hx
    by_cases h : i = e
    · subst h; simp [hx]
    · simp [h]

theorem rel_updW (w x : Nat) (s : State) (f : VowpalWabbitBase → VowpalWabbitBase)
    (hf : ∀ X, ShrinkW X (f X))
    (hx : Acyclic s → x < w ∨ (x = w ∧ ∀ X, (f X).m_instanceCount = X.m_instanceCount)) :
    Rel w s (updW s x f) := by
  refine ⟨⟨updW_length s x f, by simp, updW_nextHandle s x f, ?_, ?_,
    ⟨[], by simp, by simp⟩⟩, ?_⟩
  · intro y Y hY
    rw [updW_get]
    by_cases h : y = x
    · subst h
      exact ⟨f Y, by simp [hY], hf Y⟩
    · exact ⟨Y, by simp [h, hY], ShrinkW.reflW Y⟩
  · intro e E hE
    exact ⟨E, by simpa using hE, ShrinkE.reflE E⟩
  · intro ha
    refine ⟨?_, ?_, ⟨[], by simp, by simp⟩⟩
    · intro i hi
      rcases hx ha with h | h
      · exact updW_get_ne s x i f (by omega)
      · exact updW_get_ne s x i f (by omega)
    · rcases hx ha with h | ⟨h, hc⟩
      · rw [updW_get_ne s x w f (by omega)]
      · subst h
        rw [updW_get_self]
        cases s.wrappers[x]? with
        | none => rfl
        | some X => simp [hc X]

theorem rel_updE (w : Nat) (e : Nat) (s : State)
    (f : VowpalWabbitExample → VowpalWabbitExample) (hf : ∀ E, ShrinkE E (f E)) :
    Rel w s (updE s e f) := by
  refine ⟨⟨by simp, by simp, by simp, ?_, ?_, ⟨[], by simp, by simp⟩⟩, ?_⟩
  · intro y Y hY
    exact ⟨Y, by simpa using hY, ShrinkW.reflW Y⟩
  · intro i E hE
    rw [updE_get]
    by_cases h : i = e
    · subst h
      exact ⟨f E, by simp [hE], hf E⟩
    · exact ⟨E, by simp [h, hE], ShrinkE.reflE E⟩
  · intro _
    exact ⟨fun i _ => by simp, by simp, ⟨[], by simp, by simp⟩⟩

theorem rel_log (w : Nat) (s : State) (c : Call)
    (hc : (∀ h, c ≠ .finish h) ∨ handleOf s w = none) :
    Rel w s { s with trace := s.trace ++ [⟨w, c⟩] } := by
  refine ⟨⟨rfl, rfl, rfl, fun _ X hX => ⟨X, hX, ShrinkW.reflW X⟩,
    fun _ E hE => ⟨E, hE, ShrinkE.reflE E⟩, ⟨[⟨w, c⟩], rfl, ?_⟩⟩, ?_⟩
  · intro x h hmem
    simp only [List.mem_singleton, Event.mk.injEq] at hmem
    obtain ⟨hxw, hch⟩ := hmem
    rcases hc with hc | hc
    · exact absurd hch.symm (hc h)
    · subst hxw; exact hc
  · intro _
    refine ⟨fun _ _ => rfl, rfl, ⟨[⟨w, c⟩], rfl, ?_⟩⟩
    intro ev hmem
    simp only [List.mem_singleton] at hmem
    subst hmem
    exact Nat.le_refl _

theorem callNative_rel (eng : Engine) (w : Nat) (s : State) (c : Call)
    (hc : (∀ h, c ≠ .finish h) ∨ handleOf s w = none) :
    (callNative eng s w c).All (Rel w s) := by
  intro t ht
  rcases callNative_cases eng s w c with h | h <;> rw [h] at ht <;>
    simp only [Res.state?, Option.some.injEq] at ht <;> subst ht <;> exact rel_log w s c hc

theorem clearChain_rel (w : Nat) : ∀ (fuel : Nat) (s : State) (e : Nat),
    (clearChain fuel s e).All (Rel w s) := by
  intro fuel
  induction fuel with
  | zero => intro s e t ht; simp [clearChain, Res.state?] at ht
  | succ n ih =>
    intro s e
    cases h1 : s.examples[e]? with
    | none => intro t ht; simp [clearChain, h1, Res.state?] at ht
    | some E =>
      cases h2 : E.InnerExample with
      | none =>
        simp only [clearChain, h1, h2]
        exact Res.All.ok (Rel.rrefl w s)
      | some i =>
        cases h3 : s.examples[i]? with
        | none => intro t ht; simp [clearChain, h1, h2, h3, Res.state?] at ht
        | some I =>
          simp only [clearChain, h1, h2, h3]
          intro t ht
          have r1 : Rel w s (updE s i fun x => { x with m_owner := none }) :=
            rel_updE w i s _ (fun E => ⟨rfl, fun h => h, fun _ => rfl⟩)
          have r2 : Rel w (updE s i fun x => { x with m_owner := none })
              (updE (updE s i fun x => { x with m_owner := none }) i
                fun x => { x with m_example := none }) :=
            rel_updE w i _ _ (fun E => ⟨rfl, fun _ => rfl, fun h => h⟩)
          exact (r1.rtrans r2).rtrans (ih _ i t ht)

theorem drainExamples_rel (eng : Engine) (fuel : Nat) (w : Nat) (dl dp : Nat) :
    ∀ (exs : List Nat) (s : State), (drainExamples eng fuel w dl dp s exs).All (Rel w s) := by
  intro exs
  induction exs with
  | nil => intro s; exact Res.All.ok (Rel.rrefl w s)
  | cons ex rest ih =>
    intro s
    cases h1 : s.examples[ex]? with
    | none => intro t ht; simp [drainExamples, h1, Res.state?] at ht
    | some E =>
      cases h2 : E.m_example with
      | none => intro t ht; simp [drainExamples, h1, h2, Res.state?] at ht
      | some buf =>
        simp only [drainExamples, h1, h2]
        apply Res.All.bind_rel (callNative_rel eng w s _ (Or.inl (by intro h; simp)))
        intro s1 _
        apply Res.All.bind_rel (callNative_rel eng w s1 _ (Or.inl (by intro h; simp)))
        intro s2 _
        apply Res.All.bind_rel (clearChain_rel w fuel s2 ex)
        intro s3 _ t ht
        have r1 : Rel w s3 (updE s3 ex fun x => { x with m_example := none }) :=
          rel_updE w ex s3 _ (fun E => ⟨rfl, fun _ => rfl, fun h => h⟩)
        have r2 : Rel w (updE s3 ex fun x => { x with m_example := none })
            (updE (updE s3 ex fun x => { x with m_example := none }) ex
              fun x => { x with m_owner := none }) :=
          rel_updE w ex _ _ (fun E => ⟨rfl, fun h => h, fun _ => rfl⟩)
        exact (r1.rtrans r2).rtrans (ih _ t ht)

theorem drainPool_rel (eng : Engine) (fuel : Nat) (w : Nat) (s : State) (h : Nat) :
    (drainPool eng fuel s w h).All (Rel w s) := by
  cases h1 : (s.wrappers[w]?).bind (·.m_examples) with
  | none =>
    simp only [drainPool, h1]
    exact Res.All.ok (Rel.rrefl w s)
  | some exs =>
    simp only [drainPool, h1]
    have r1 : Rel w s (updW s w fun o => { o with m_examples := some [] }) := by
      refine ⟨⟨by simp, by simp, by simp, ?_,
        fun _ E hE => ⟨E, by simpa using hE, ShrinkE.reflE E⟩,
        ⟨[], by simp, by simp⟩⟩, fun _ => ⟨fun i hi => updW_get_ne s w i _ (by omega), ?_,
        ⟨[], by simp, by simp⟩⟩⟩
      · intro y Y hY
        rw [updW_get]
        by_cases hy : y = w
        · subst hy
          refine ⟨{ Y with m_examples := some [] }, by simp [hY], Or.inl rfl, Or.inl rfl,
            ?_, rfl⟩
          intro hn
          simp [hY, hn] at h1
        · exact ⟨Y, by simp [hy, hY], ShrinkW.reflW Y⟩
      · rw [updW_get_self]
        cases s.wrappers[w]? <;> rfl
    intro t ht
    cases h2 : drainExamples eng fuel w (eng.delete_label s.trace h)
        (eng.delete_prediction s.trace h)
        (updW s w fun o => { o with m_examples := some [] }) exs with
    | ok s2 =>
      rw [h2] at ht
      simp only [Res.bind_ok, Res.state?, Option.some.injEq] at ht
      subst ht
      have r2 := drainExamples_rel eng fuel w _ _ exs _ s2 (by rw [h2]; rfl)
      have r3 : Rel w s2 (updW s2 w fun o => { o with m_examples := none }) :=
        rel_updW w w s2 _ (fun X => ⟨Or.inl rfl, Or.inl rfl, fun _ => rfl, rfl⟩)
          (fun _ => Or.inr ⟨rfl, fun _ => rfl⟩)
      exact (r1.rtrans r2).rtrans r3
    | raised e s2 =>
      rw [h2] at ht
      simp only [Res.bind_raised, Res.state?, Option.some.injEq] at ht
      subst ht
      exact r1.rtrans (drainExamples_rel eng fuel w _ _ exs _ s2 (by rw [h2]; rfl))
    | fault => rw [h2] at ht; simp [Res.state?] at ht
    | outOfFuel => rw [h2] at ht; simp [Res.state?] at ht

theorem finishHandle_rel (eng : Engine) (w : Nat) (s : State) :
    (finishHandle eng s w).All (Rel w s) := by
  cases h1 : (s.wrappers[w]?).bind (·.m_vw) with
  | none =>
    simp only [finishHandle, h1]
    exact Res.All.ok (Rel.rrefl w s)
  | some h =>
    simp only [finishHandle, h1]
    apply Res.All.bind_rel (callNative_rel eng w s _ (Or.inl (by intro h; simp)))
    intro s1 _
    have r1 : Rel w s1 (updW s1 w fun o => { o with m_vw := none }) :=
      rel_updW w w s1 _ (fun X => ⟨Or.inr rfl, Or.inl rfl, fun hn => hn, rfl⟩)
        (fun _ => Or.inr ⟨rfl, fun _ => rfl⟩)
    intro t ht
    refine r1.rtrans (callNative_rel eng w _ _ (Or.inr ?_) t ht)
    unfold handleOf
    rw [updW_get_self]
    cases s1.wrappers[w]? <;> rfl

theorem DecrementReferenceWith_rel (dispose : State → Nat → Res) (w b : Nat) (s : State)
    (hb : Acyclic s → b < w) (hd : ∀ s1, (dispose s1 b).All (Rel b s1)) :
    (DecrementReferenceWith dispose s b).All (Rel w s) := by
  cases h1 : s.wrappers[b]? with
  | none => intro t ht; simp [DecrementReferenceWith, h1, Res.state?] at ht
  | some B =>
    simp only [DecrementReferenceWith, h1]
    have r1 : Rel w s (updW s b fun o => { o with m_instanceCount := o.m_instanceCount - 1 }) :=
      rel_updW w b s _ (fun X => ShrinkW.reflW _) (fun ha => Or.inl (hb ha))
    split
    · intro t ht
      have r2 := hd _ t ht
      exact ⟨r1.1.etrans r2.1, fun ha =>
        (r1.2 ha).ftrans ((r2.2 (Acyclic.of_evolves r1.1 ha)).fmono (Nat.le_of_lt (hb ha)))⟩
    · exact Res.All.ok r1

theorem releaseModel_rel (dispose : State → Nat → Res) (w : Nat) (s : State)
    (hd : ∀ b s1, (dispose s1 b).All (Rel b s1)) :
    (releaseModel dispose s w).All (Rel w s) := by
  cases h1 : (s.wrappers[w]?).bind (·.m_model) with
  | none =>
    simp only [releaseModel, h1]
    exact Res.All.ok (Rel.rrefl w s)
  | some m =>
    simp only [releaseModel, h1]
    have hm : Acyclic s → m < w := by
      intro ha
      cases hW : s.wrappers[w]? with
      | none => simp [hW] at h1
      | some W =>
        simp only [hW, Option.bind_some] at h1
        exact ha w W m hW h1
    apply Res.All.bind_rel (DecrementReferenceWith_rel dispose w m s hm (hd m))
    intro s1 _
    exact Res.All.ok (rel_updW w w s1 _ (fun X => ⟨Or.inl rfl, Or.inr rfl, fun hn => hn, rfl⟩)
      (fun _ => Or.inr ⟨rfl, fun _ => rfl⟩))

/-- Every state a disposal of `w` can leave behind is related to the state it started in. -/
theorem InternalDispose_rel (eng : Engine) : ∀ (fuel : Nat) (w : Nat) (s : State),
    (InternalDispose eng fuel s w).All (Rel w s) := by
  intro fuel
  induction fuel with
  | zero => intro w s t ht; simp [InternalDispose, Res.state?] at ht
  | succ n ih =>
    intro w s
    cases h1 : s.wrappers[w]? with
    | none => intro t ht; simp [InternalDispose, h1, Res.state?] at ht
    | some W =>
      simp only [InternalDispose, h1]
      apply Res.All.bind_rel
      · cases h2 : W.m_vw with
        | none => exact Res.All.ok (Rel.rrefl w s)
        | some h =>
          simp only
          apply Res.All.bind_rel (drainPool_rel eng n w s h)
          intro s1 _
          exact releaseModel_rel _ w s1 (fun b s2 => ih b s2)
      · intro s1 _
        exact finishHandle_rel eng w s1

theorem Finalize_rel (eng : Engine) (fuel : Nat) (w : Nat) (s : State) :
    (Finalize eng fuel s w).All (Rel w s) := by
  cases h1 : s.wrappers[w]? with
  | none => intro t ht; simp [Finalize, h1, Res.state?] at ht
  | some W =>
    simp only [Finalize, h1]
    split
    · exact InternalDispose_rel eng fuel w s
    · exact Res.All.ok (Rel.rrefl w s)

/-! ## Disposing twice, and disposing a wrapper whose handle is null -/

theorem InternalDispose_dead (eng : Engine) (n : Nat) (s : State) (w : Nat)
    (X : VowpalWabbitBase) (hX : s.wrappers[w]? = some X) (hvw : X.m_vw = none) :
    InternalDispose eng (n + 1) s w = .ok s := by
  simp [InternalDispose, hX, hvw, finishHandle]

theorem Finalize_dead (eng : Engine) (n : Nat) (s : State) (w : Nat)
    (X : VowpalWabbitBase) (hX : s.wrappers[w]? = some X) (hvw : X.m_vw = none) :
    Finalize eng (n + 1) s w = .ok s := by
  simp only [Finalize, hX]
  split
  · exact InternalDispose_dead eng n s w X hX hvw
  · rfl

theorem dead_of_handleOf {s t : State} (h : Evolves s t) (w : Nat) (X : VowpalWabbitBase)
    (hX : s.wrappers[w]? = some X) (hn : handleOf t w = none) :
    ∃ Y, t.wrappers[w]? = some Y ∧ Y.m_vw = none := by
  obtain ⟨Y, hY, _⟩ := h.wr w X hX
  refine ⟨Y, hY, ?_⟩
  simpa [handleOf, hY] using hn

/-- C3: a wrapper with count at most 0 and live handle `h` is disposed (destructor or
finalizer) and the disposal returns or raises after having invoked `finish h` itself; then
its handle is null, and a second disposal, by either entry point, returns normally and
leaves the state, trace of outgoing calls included, exactly as it was. -/
theorem dispose_twice (eng : Engine) (fuel n : Nat) (s : State) (w : Nat)
    (W : VowpalWabbitBase) (h : Nat) (s1 : State) (evs : List Event)
    (hW : s.wrappers[w]? = some W) (_hc : W.m_instanceCount ≤ 0) (_hvw : W.m_vw = some h)
    (h1 : (Dispose eng fuel s w).state? = some s1 ∨ (Finalize eng fuel s w).state? = some s1)
    (htr : s1.trace = s.trace ++ evs) (hfin : (⟨w, .finish h⟩ : Event) ∈ evs) :
    handleOf s1 w = none ∧ Dispose eng (n + 1) s1 w = .ok s1 ∧
      Finalize eng (n + 1) s1 w = .ok s1 := by
  have h1 : (Finalize eng fuel s w).state? = some s1 := by
    rcases h1 with h1 | h1
    · exact h1
    · exact h1
  have hrel := Finalize_rel eng fuel w s s1 h1
  obtain ⟨evs2, ht2, hf2⟩ := hrel.1.tr
  have hev : evs2 = evs := by
    rw [ht2] at htr
    exact List.append_cancel_left htr
  subst hev
  have hn := hf2 w h hfin
  obtain ⟨Y, hY, hYn⟩ := dead_of_handleOf hrel.1 w W hW hn
  exact ⟨hn, Finalize_dead eng n s1 w Y hY hYn, Finalize_dead eng n s1 w Y hY hYn⟩

theorem dispose_twice_witness :
    handleOf loneStateDisposed 0 = none ∧
    Dispose finishFailsEngine 1 loneStateDisposed 0 = .ok loneStateDisposed ∧
    Finalize finishFailsEngine 1 loneStateDisposed 0 = .ok loneStateDisposed :=
  dispose_twice finishFailsEngine 1 0 loneState 0 _ 7 loneStateDisposed
    [⟨0, .release_parser_datastructures 7⟩, ⟨0, .finish 7⟩] rfl (by decide) rfl
    (Or.inl (by decide)) rfl (by decide)

theorem finishHandle_ok_dead (eng : Engine) (s t : State) (w : Nat)
    (h : finishHandle eng s w = .ok t) : handleOf t w = none := by
  cases h1 : (s.wrappers[w]?).bind (·.m_vw) with
  | none =>
    simp only [finishHandle, h1, Res.ok.injEq] at h
    subst h
    exact h1
  | some hd =>
    simp only [finishHandle, h1] at h
    rcases callNative_cases eng s w (.release_parser_datastructures hd) with c | c
    · rw [c] at h
      simp only [Res.bind_ok] at h
      rcases callNative_cases eng
        (updW { s with trace := s.trace ++ [⟨w, .release_parser_datastructures hd⟩] } w
          fun o => { o with m_vw := none }) w (.finish hd) with d | d
      · rw [d] at h
        simp only [Res.ok.injEq] at h
        subst h
        simp only [handleOf]
        rw [updW_get_self]
        cases s.wrappers[w]? <;> rfl
      · rw [d] at h; simp at h
    · rw [c] at h; simp at h

theorem Res.bind_eq_ok {r : Res} {k : State → Res} {t : State} (h : r.bind k = .ok t) :
    ∃ s1, r = .ok s1 ∧ k s1 = .ok t := by
  cases r with
  | ok s1 => exact ⟨s1, rfl, h⟩
  | raised e s1 => simp at h
  | fault => simp at h
  | outOfFuel => simp at h

theorem InternalDispose_ok_dead (eng : Engine) (fuel : Nat) (s t : State) (w : Nat)
    (h : InternalDispose eng fuel s w = .ok t) :
    ∃ Y, t.wrappers[w]? = some Y ∧ Y.m_vw = none := by
  have hrel := InternalDispose_rel eng fuel w s t (by rw [h]; rfl)
  cases fuel with
  | zero => simp [InternalDispose] at h
  | succ n =>
    cases hW : s.wrappers[w]? with
    | none => simp [InternalDispose, hW] at h
    | some W =>
      simp only [InternalDispose, hW] at h
      obtain ⟨s1, _, h2⟩ := Res.bind_eq_ok h
      exact dead_of_handleOf hrel.1 w W hW (finishHandle_ok_dead eng s1 t w h2)

theorem construct_raised_dead (eng : Engine) (s s1 : State)
    (settings : Option VowpalWabbitSettings) (e : Exn)
    (h : (construct eng s settings).2 = .raised e s1) :
    ∃ Y, s1.wrappers[s.wrappers.length]? = some Y ∧ Y.m_vw = none := by
  have key : ∀ (r : Res), (∀ e0 s0, r = .raised e0 s0 → s.wrappers.length < s0.wrappers.length) →
      (r.onRaise fun t => updW t s.wrappers.length fun o => { o with m_vw := none }) =
        .raised e s1 → ∃ Y, s1.wrappers[s.wrappers.length]? = some Y ∧ Y.m_vw = none := by
    intro r hr hraise
    cases r with
    | raised e0 s0 =>
      simp only [Res.onRaise, Res.raised.injEq] at hraise
      obtain ⟨_, hs⟩ := hraise
      subst hs
      have hlt := hr e0 s0 rfl
      rw [updW_get_self, List.getElem?_eq_getElem hlt]
      exact ⟨_, rfl, rfl⟩
    | ok s0 => simp [Res.onRaise] at hraise
    | fault => simp [Res.onRaise] at hraise
    | outOfFuel => simp [Res.onRaise] at hraise
  have hcall : ∀ (t : State) (c : Call) (k : State → Res),
      s.wrappers.length < t.wrappers.length →
      (∀ t1, t1.wrappers.length = t.wrappers.length → ∀ e0 s0, k t1 = .raised e0 s0 →
        s.wrappers.length < s0.wrappers.length) →
      ∀ e0 s0, (callNative eng t s.wrappers.length c).bind k = .raised e0 s0 →
        s.wrappers.length < s0.wrappers.length := by
    intro t c k ht hk e0 s0 hb
    rcases callNative_cases eng t s.wrappers.length c with hc | hc
    · rw [hc] at hb
      exact hk { t with trace := t.trace ++ [⟨s.wrappers.length, c⟩] } rfl e0 s0 hb
    · rw [hc] at hb
      simp only [Res.bind_raised, Res.raised.injEq] at hb
      obtain ⟨_, hs⟩ := hb
      subst hs
      exact ht
  unfold construct at h
  simp only [updW_append_new] at h
  apply key _ _ h
  intro e0 s0 hbody
  cases settings with
  | none =>
    simp only [Res.raised.injEq] at hbody
    obtain ⟨_, hs⟩ := hbody
    subst hs
    simp
  | some st =>
    simp only at hbody
    cases hm : st.Model with
    | some m =>
      simp only [hm, Option.getD_some, updW_append_new] at hbody
      split at hbody
      · simp at hbody
      · split at hbody
        · simp at hbody
        · refine hcall _ _ _ (by simp) ?_ e0 s0 hbody
          intro t1 ht1 e1 s2 hk
          simp only [IncrementReference] at hk
          split at hk <;> simp at hk
    | none =>
      simp only [hm, Option.getD_some] at hbody
      cases hs : st.ModelStream with
      | none =>
        simp only [hs] at hbody
        refine hcall _ _ _ (by simp) ?_ e0 s0 hbody
        intro t1 ht1 e1 s2 hk
        simp at hk
      | some stream =>
        simp only [hs] at hbody
        refine hcall _ _ _ (by simp) ?_ e0 s0 hbody
        intro t1 ht1 e1 s2 hk
        rcases callNative_cases eng (updW { t1 with nextHandle := t1.nextHandle + 1 }
          s.wrappers.length fun o => { o with m_vw := some t1.nextHandle })
          s.wrappers.length (.Close stream) with hc | hc
        · rw [hc] at hk; simp at hk
        · rw [hc] at hk
          simp only [Res.raised.injEq] at hk
          obtain ⟨_, hs2⟩ := hk
          subst hs2
          simp only [updW_length, ht1]
          simp

/-- C10: disposing a wrapper whose handle is null returns normally and leaves the whole
state as it was: no outgoing call, pool and base reference kept, every counter unchanged.
Such states are the ones left by a disposal that returned, by a construction that raised,
and by a `Reload` in which `finish` or the rebuilding call raised; in the last case the
wrapper still refers to its base, whose counter a later disposal therefore never
decrements. -/
theorem dispose_dead_wrapper_noop (eng : Engine) (n : Nat) (s : State) (w : Nat) :
    (∀ W, s.wrappers[w]? = some W → W.m_vw = none →
      InternalDispose eng (n + 1) s w = .ok s ∧ Dispose eng (n + 1) s w = .ok s ∧
      Finalize eng (n + 1) s w = .ok s) ∧
    (∀ fuel s1, InternalDispose eng fuel s w = .ok s1 →
      InternalDispose eng (n + 1) s1 w = .ok s1) ∧
    (∀ settings e s1, construct eng s settings = (w, .raised e s1) →
      InternalDispose eng (n + 1) s1 w = .ok s1) ∧
    (∀ W h args, s.wrappers[w]? = some W → W.m_settings.ParallelOptions = none →
      W.m_vw = some h →
      eng.raises s.trace ⟨w, .save_predictor h .memory⟩ = false →
      eng.raises (s.trace ++ [⟨w, .save_predictor h .memory⟩])
        ⟨w, .release_parser_datastructures h⟩ = false →
      (eng.raises (s.trace ++ [⟨w, .save_predictor h .memory⟩,
          ⟨w, .release_parser_datastructures h⟩]) ⟨w, .finish h⟩ = true ∨
        eng.raises (s.trace ++ [⟨w, .save_predictor h .memory⟩,
          ⟨w, .release_parser_datastructures h⟩, ⟨w, .finish h⟩])
          ⟨w, .initializeVW (args.getD "") (some (.memory (eng.image s.trace h)))⟩ = true) →
      ∃ s1, Reload eng s w args = .raised .VowpalWabbitException s1 ∧
        s1.wrappers = s.wrappers.set w { W with m_vw := none } ∧
        Dispose eng (n + 1) s1 w = .ok s1) := by
  refine ⟨?_, ?_, ?_, ?_⟩
  · intro W hW hvw
    exact ⟨InternalDispose_dead eng n s w W hW hvw, Finalize_dead eng n s w W hW hvw,
      Finalize_dead eng n s w W hW hvw⟩
  · intro fuel s1 h
    obtain ⟨Y, hY, hYn⟩ := InternalDispose_ok_dead eng fuel s s1 w h
    exact InternalDispose_dead eng n s1 w Y hY hYn
  · intro settings e s1 h
    have hw : w = s.wrappers.length := by
      have := congrArg Prod.fst h
      simpa [construct] using this.symm
    have h2 : (construct eng s settings).2 = .raised e s1 := by rw [h]
    obtain ⟨Y, hY, hYn⟩ := construct_raised_dead eng s s1 settings e h2
    subst hw
    exact InternalDispose_dead eng n s1 _ Y hY hYn
  · intro W h args hW hpar hvw hsave hrel hor
    have hlt : w < s.wrappers.length := (List.getElem?_eq_some_iff.1 hW).1
    by_cases hfin : eng.raises (s.trace ++ [⟨w, .save_predictor h .memory⟩,
          ⟨w, .release_parser_datastructures h⟩]) ⟨w, .finish h⟩ = true
    · refine ⟨_, (Reload_outcomes eng s w W h args hW hpar hvw hsave hrel).1 hfin, rfl, ?_⟩
      exact Finalize_dead eng n _ w { W with m_vw := none } (by simp [hlt]) rfl
    · have hinit := hor.resolve_left hfin
      simp only [Bool.not_eq_true] at hfin
      refine ⟨_, (Reload_outcomes eng s w W h args hW hpar hvw hsave hrel).2.1 hfin hinit,
        rfl, ?_⟩
      exact Finalize_dead eng n _ w { W with m_vw := none } (by simp [hlt]) rfl

theorem dispose_dead_wrapper_noop_witness :
    Reload finishFailsEngine seededState 1 none =
      .raised .VowpalWabbitException seededReloadFailed ∧
    InternalDispose finishFailsEngine 1 seededReloadFailed 1 = .ok seededReloadFailed ∧
    Dispose finishFailsEngine 1 seededReloadFailed 1 = .ok seededReloadFailed ∧
    Finalize finishFailsEngine 1 seededReloadFailed 1 = .ok seededReloadFailed :=
  ⟨by decide, (dispose_dead_wrapper_noop finishFailsEngine 0 seededReloadFailed 1).1 _ rfl rfl⟩

theorem evolves_updW (x : Nat) (s : State) (f : VowpalWabbitBase → VowpalWabbitBase)
    (hf : ∀ X, ShrinkW X (f X)) : Evolves s (updW s x f) :=
  (rel_updW (x + 1) x s f hf (fun _ => Or.inl (Nat.lt_succ_self x))).1


/-! ## Draining the pool -/

theorem updE_clear_twice (s : State) (i : Nat) :
    updE (updE s i fun x => { x with m_owner := none }) i (fun x => { x with m_example := none })
      = { s with examples := nullEx s.examples i } := by
  cases h : s.examples[i]? with
  | none => simp [updE, nullEx, h]
  | some x =>
    have hlt : i < s.examples.length := (List.getElem?_eq_some_iff.1 h).1
    simp [updE, nullEx, h, hlt, clearFields]

theorem updE_clear_twice2 (s : State) (i : Nat) :
    updE (updE s i fun x => { x with m_example := none }) i (fun x => { x with m_owner := none })
      = { s with examples := nullEx s.examples i } := by
  cases h : s.examples[i]? with
  | none => simp [updE, nullEx, h]
  | some x =>
    have hlt : i < s.examples.length := (List.getElem?_eq_some_iff.1 h).1
    simp [updE, nullEx, h, hlt, clearFields]

theorem nullEx_get (es : List VowpalWabbitExample) (i x : Nat) :
    (nullEx es i)[x]? = if x = i then (es[i]?).map clearFields else es[x]? := by
  unfold nullEx
  cases h : es[i]? with
  | none =>
    by_cases hx : x = i
    · subst hx; simp [h]
    · simp [hx]
  | some E =>
    have hlt : i < es.length := (List.getElem?_eq_some_iff.1 h).1
    by_cases hx : x = i
    · subst hx; simp [List.getElem?_set_self, hlt]
    · have : i ≠ x := fun c => hx c.symm
      simp [hx, List.getElem?_set_ne this]

@[simp] theorem nullEx_length (es : List VowpalWabbitExample) (i : Nat) :
    (nullEx es i).length = es.length := by
  unfold nullEx; split <;> simp

@[simp] theorem nullAllEx_nil (es : List VowpalWabbitExample) : nullAllEx es [] = es := rfl

theorem nullAllEx_cons (es : List VowpalWabbitExample) (i : Nat) (l : List Nat) :
    nullAllEx es (i :: l) = nullAllEx (nullEx es i) l := rfl

theorem nullAllEx_append (es : List VowpalWabbitExample) (a b : List Nat) :
    nullAllEx es (a ++ b) = nullAllEx (nullAllEx es a) b := by
  simp [nullAllEx, List.foldl_append]

@[simp] theorem nullAllEx_length (es : List VowpalWabbitExample) (l : List Nat) :
    (nullAllEx es l).length = es.length := by
  induction l generalizing es with
  | nil => rfl
  | cons i l ih => rw [nullAllEx_cons, ih, nullEx_length]

theorem clearFields_idem (x : VowpalWabbitExample) : clearFields (clearFields x) = clearFields x :=
  rfl

theorem nullAllEx_get (es : List VowpalWabbitExample) (l : List Nat) (x : Nat) :
    (nullAllEx es l)[x]? = if x ∈ l then (es[x]?).map clearFields else es[x]? := by
  induction l generalizing es with
  | nil => simp
  | cons i l ih =>
    rw [nullAllEx_cons, ih, nullEx_get]
    by_cases hxi : x = i
    · subst hxi
      by_cases hxl : x ∈ l
      · cases es[x]? <;> simp [hxl, clearFields_idem]
      · simp [hxl]
    · by_cases hxl : x ∈ l
      · simp [hxl, hxi]
      · simp [hxl, hxi]

/-- The chain walk only reads the links. -/
theorem chainNodes_congr (es fs : List VowpalWabbitExample)
    (h : ∀ x : Nat, (fs[x]?).map (·.InnerExample) = (es[x]?).map (·.InnerExample)) :
    ∀ n e, chainNodes fs n e = chainNodes es n e := by
  intro n
  induction n with
  | zero => intro e; rfl
  | succ n ih =>
    intro e
    have he := h e
    cases h1 : es[e]? with
    | none =>
      rw [h1] at he
      cases h2 : fs[e]? with
      | none => simp [chainNodes, h1, h2]
      | some F => rw [h2] at he; simp at he
    | some E =>
      rw [h1] at he
      cases h2 : fs[e]? with
      | none => rw [h2] at he; simp at he
      | some F =>
        rw [h2] at he
        simp only [Option.map_some', Option.some.injEq] at he
        simp only [chainNodes, h1, h2, he]
        cases h3 : E.InnerExample with
        | none => rfl
        | some i =>
          have hi := h i
          simp only
          cases h4 : es[i]? with
          | none =>
            rw [h4] at hi
            cases h5 : fs[i]? with
            | none => rfl
            | some G => rw [h5] at hi; simp at hi
          | some I =>
            rw [h4] at hi
            cases h5 : fs[i]? with
            | none => rw [h5] at hi; simp at hi
            | some G => simp only [ih i]

theorem nullAllEx_links (es : List VowpalWabbitExample) (l : List Nat) (x : Nat) :
    ((nullAllEx es l)[x]?).map (·.InnerExample) = (es[x]?).map (·.InnerExample) := by
  rw [nullAllEx_get]
  split
  · cases es[x]? <;> simp [clearFields]
  · rfl

theorem chainNodes_nullAllEx (es : List VowpalWabbitExample) (l : List Nat) (n e : Nat) :
    chainNodes (nullAllEx es l) n e = chainNodes es n e :=
  chainNodes_congr es _ (nullAllEx_links es l) n e

/-- The inner loop clears exactly the nodes of the chain. -/
theorem clearChain_eq : ∀ (n : Nat) (s : State) (e : Nat) (l : List Nat),
    chainNodes s.examples n e = some l →
    clearChain n s e = .ok { s with examples := nullAllEx s.examples l } := by
  intro n
  induction n with
  | zero => intro s e l h; simp [chainNodes] at h
  | succ n ih =>
    intro s e l h
    cases h1 : s.examples[e]? with
    | none => simp [chainNodes, h1] at h
    | some E =>
      cases h2 : E.InnerExample with
      | none =>
        simp only [chainNodes, h1, h2, Option.some.injEq] at h
        subst h
        simp [clearChain, h1, h2]
      | some i =>
        cases h3 : s.examples[i]? with
        | none => simp [chainNodes, h1, h2, h3] at h
        | some I =>
          simp only [chainNodes, h1, h2, h3] at h
          cases h4 : chainNodes s.examples n i with
          | none => simp [h4] at h
          | some l2 =>
            simp only [h4, Option.map_some', Option.some.injEq] at h
            subst h
            simp only [clearChain, h1, h2, h3, updE_clear_twice]
            have hc : chainNodes (nullEx s.examples i) n i = some l2 := by
              have := chainNodes_nullAllEx s.examples [i] n i
              simp only [nullAllEx, List.foldl] at this
              rw [this, h4]
            rw [ih { s with examples := nullEx s.examples i } i l2 hc]
            rfl

theorem bufOf_nullAllEx (es : List VowpalWabbitExample) (l : List Nat) (x : Nat)
    (hx : x ∉ l) : bufOf (nullAllEx es l) x = bufOf es x := by
  simp [bufOf, nullAllEx_get, hx]

theorem drainNodes_congr (es fs : List VowpalWabbitExample) (fuel : Nat)
    (h : ∀ e, chainNodes fs fuel e = chainNodes es fuel e) (l : List Nat) :
    drainNodes fs fuel l = drainNodes es fuel l := by
  induction l with
  | nil => rfl
  | cons e rest ih => simp [drainNodes, h e, ih]

theorem drainEvents_congr (es fs : List VowpalWabbitExample) (w dl dp : Nat) (l : List Nat)
    (h : ∀ x ∈ l, bufOf fs x = bufOf es x) :
    drainEvents fs w dl dp l = drainEvents es w dl dp l := by
  induction l with
  | nil => rfl
  | cons e rest ih =>
    simp only [drainEvents, h e (List.mem_cons_self e rest)]
    rw [ih (fun x hx => h x (List.mem_cons_of_mem e hx))]

theorem poolOK_congr (es fs : List VowpalWabbitExample) (fuel : Nat)
    (hc : ∀ e, chainNodes fs fuel e = chainNodes es fuel e) (l : List Nat)
    (h : ∀ x ∈ l, bufOf fs x = bufOf es x) :
    poolOK fs fuel l = poolOK es fuel l := by
  induction l with
  | nil => rfl
  | cons e rest ih =>
    simp only [poolOK, h e (List.mem_cons_self e rest), hc e]
    rw [ih (fun x hx => h x (List.mem_cons_of_mem e hx))]

theorem poolOK_cons {es : List VowpalWabbitExample} {fuel e : Nat} {rest : List Nat}
    (h : poolOK es fuel (e :: rest) = true) :
    ∃ E buf l, es[e]? = some E ∧ E.m_example = some buf ∧ chainNodes es fuel e = some l ∧
      (∀ x ∈ rest, x ≠ e ∧ x ∉ l) ∧ poolOK es fuel rest = true := by
  simp only [poolOK, Bool.and_eq_true] at h
  obtain ⟨⟨hb, hc⟩, hr⟩ := h
  cases h1 : es[e]? with
  | none => simp [bufOf, h1] at hb
  | some E =>
    cases h2 : E.m_example with
    | none => simp [bufOf, h1, h2] at hb
    | some buf =>
      cases h3 : chainNodes es fuel e with
      | none => simp [h3] at hc
      | some l =>
        refine ⟨E, buf, l, rfl, h2, rfl, ?_, hr⟩
        simp only [h3, List.all_eq_true, Bool.and_eq_true, bne_iff_ne, ne_eq,
          Bool.not_eq_true', List.contains_eq_any_beq, List.any_eq_false, beq_iff_eq] at hc
        intro x hx
        refine ⟨(hc x hx).1, ?_⟩
        intro hxl
        exact (hc x hx).2 x hxl rfl

/-- The loop over the removed examples, when its calls return and the pool can be drained
in this order: one `dealloc_example` and one `free_it` per pooled example, heads and chain
nodes cleared, nothing else changed. -/
theorem drainExamples_eq (eng : Engine) (fuel w dl dp : Nat)
    (hq : ∀ t c, c.isDrain = true → eng.raises t ⟨w, c⟩ = false) :
    ∀ (exs : List Nat) (s : State), poolOK s.examples fuel exs = true →
      drainExamples eng fuel w dl dp s exs = .ok
        { s with
          examples := nullAllEx s.examples (drainNodes s.examples fuel exs)
          trace := s.trace ++ drainEvents s.examples w dl dp exs } := by
  intro exs
  induction exs with
  | nil => intro s _; simp [drainExamples, drainNodes, drainEvents]
  | cons e rest ih =>
    intro s hok
    obtain ⟨E, buf, l, hE, hbuf, hl, hrest, hokr⟩ := poolOK_cons hok
    have hb : bufOf s.examples e = some buf := by simp [bufOf, hE, hbuf]
    have hnot : ∀ x ∈ rest, x ∉ l ++ [e] := by
      intro x hx hm
      rcases List.mem_append.1 hm with h | h
      · exact (hrest x hx).2 h
      · exact (hrest x hx).1 (by simpa using h)
    have hchain : ∀ x, chainNodes (nullAllEx s.examples (l ++ [e])) fuel x =
        chainNodes s.examples fuel x := fun x => chainNodes_nullAllEx s.examples _ fuel x
    have hbufs : ∀ x ∈ rest, bufOf (nullAllEx s.examples (l ++ [e])) x = bufOf s.examples x :=
      fun x hx => bufOf_nullAllEx s.examples _ x (hnot x hx)
    have hok2 : poolOK (nullAllEx s.examples (l ++ [e])) fuel rest = true := by
      rw [poolOK_congr s.examples _ fuel hchain rest hbufs]; exact hokr
    have step := ih
      { s with
        examples := nullAllEx s.examples (l ++ [e])
        trace := s.trace ++ [⟨w, .dealloc_example dl buf dp e⟩, ⟨w, .free_it buf⟩] } hok2
    simp only [drainExamples, hE, hbuf]
    rw [callNative_ok eng s w (.dealloc_example dl buf dp e) (hq _ _ rfl)]
    simp only [Res.bind_ok]
    rw [callNative_ok eng _ w (.free_it buf) (hq _ _ rfl)]
    simp only [Res.bind_ok]
    have hcc : ∀ tr, clearChain fuel { s with trace := tr } e =
        .ok { s with trace := tr, examples := nullAllEx s.examples l } :=
      fun tr => clearChain_eq fuel { s with trace := tr } e l hl
    rw [hcc]
    simp only [Res.bind_ok, updE_clear_twice2]
    have e1 : nullEx (nullAllEx s.examples l) e = nullAllEx s.examples (l ++ [e]) := by
      rw [nullAllEx_append]; rfl
    simp only [e1, List.append_assoc, List.singleton_append]
    rw [step]
    simp only [drainNodes, drainEvents, hl, hb, Option.getD_some,
      drainNodes_congr s.examples _ fuel hchain rest,
      drainEvents_congr s.examples _ w dl dp rest hbufs, ← nullAllEx_append,
      List.append_assoc, List.singleton_append, List.cons_append, List.nil_append]

theorem drainPool_eq (eng : Engine) (fuel : Nat) (s : State) (w : Nat) (W : VowpalWabbitBase)
    (h : Nat) (exs : List Nat) (hW : s.wrappers[w]? = some W) (hpool : W.m_examples = some exs)
    (hok : poolOK s.examples fuel exs = true)
    (hq : ∀ t c, c.isDrain = true → eng.raises t ⟨w, c⟩ = false) :
    drainPool eng fuel s w h = .ok (drained eng s w W fuel h exs) := by
  have hlt : w < s.wrappers.length := (List.getElem?_eq_some_iff.1 hW).1
  simp only [drainPool, hW, Option.some_bind, hpool]
  rw [updW_of_get s w _ W hW]
  have hd := drainExamples_eq eng fuel w (eng.delete_label s.trace h)
    (eng.delete_prediction s.trace h) hq exs
    { s with wrappers := s.wrappers.set w { W with m_examples := some [] } } hok
  rw [hd]
  simp only [Res.bind_ok]
  rw [updW_of_get _ w _ { W with m_examples := some [] } (by simp [hlt])]
  simp [drained, List.set_set]

theorem chainNodes_valid (es : List VowpalWabbitExample) : ∀ (n e : Nat) (l : List Nat),
    chainNodes es n e = some l → ∀ x ∈ l, ∃ X, es[x]? = some X := by
  intro n
  induction n with
  | zero => intro e l h; simp [chainNodes] at h
  | succ n ih =>
    intro e l h
    cases h1 : es[e]? with
    | none => simp [chainNodes, h1] at h
    | some E =>
      cases h2 : E.InnerExample with
      | none =>
        simp only [chainNodes, h1, h2, Option.some.injEq] at h
        subst h
        simp
      | some i =>
        cases h3 : es[i]? with
        | none => simp [chainNodes, h1, h2, h3] at h
        | some I =>
          simp only [chainNodes, h1, h2, h3] at h
          cases h4 : chainNodes es n i with
          | none => simp [h4] at h
          | some l2 =>
            simp only [h4, Option.map_some', Option.some.injEq] at h
            subst h
            intro x hx
            rcases List.mem_cons.1 hx with hx | hx
            · subst hx; exact ⟨I, h3⟩
            · exact ih i l2 h4 x hx

theorem mem_drainNodes (es : List VowpalWabbitExample) (fuel : Nat) (exs : List Nat)
    (e : Nat) (he : e ∈ exs) (l : List Nat) (hl : chainNodes es fuel e = some l) :
    ∀ x ∈ e :: l, x ∈ drainNodes es fuel exs := by
  induction exs with
  | nil => simp at he
  | cons a rest ih =>
    intro x hx
    rcases List.mem_cons.1 he with h | h
    · subst h
      simp only [drainNodes, hl, Option.getD_some, List.mem_append, List.mem_singleton]
      rcases List.mem_cons.1 hx with hx | hx
      · exact Or.inl (Or.inr hx)
      · exact Or.inl (Or.inl hx)
    · simp only [drainNodes, List.mem_append]
      exact Or.inr (ih h x hx)

theorem drainEvents_filter (es : List VowpalWabbitExample) (w dl dp : Nat) :
    ∀ (exs bufs : List Nat), exs.map (bufOf es) = bufs.map some →
      (drainEvents es w dl dp exs).filter (fun ev => ev.who == w && ev.call.isDealloc) =
        List.zipWith (fun e buf => ⟨w, .dealloc_example dl buf dp e⟩) exs bufs := by
  intro exs
  induction exs with
  | nil =>
    intro bufs h
    cases bufs with
    | nil => rfl
    | cons b bs => simp at h
  | cons e rest ih =>
    intro bufs h
    cases bufs with
    | nil => simp at h
    | cons b bs =>
      simp only [List.map_cons, List.cons.injEq] at h
      obtain ⟨hb, hr⟩ := h
      simp only [drainEvents, hb, List.cons_append, List.nil_append, List.zipWith_cons_cons]
      have h1 : ((⟨w, .dealloc_example dl b dp e⟩ : Event).who == w &&
          (Call.dealloc_example dl b dp e).isDealloc) = true := by simp [Call.isDealloc]
      have h2 : ¬ ((⟨w, .free_it b⟩ : Event).who == w && (Call.free_it b).isDealloc) = true := by
        simp [Call.isDealloc]
      rw [List.filter_cons, if_pos h1, List.filter_cons, if_neg h2, ih bs hr]

theorem NoDeallocBy.nrefl (w : Nat) (s : State) : NoDeallocBy w s s := ⟨[], by simp, by simp⟩

theorem NoDeallocBy.ntrans {w : Nat} {s t u : State} (h1 : NoDeallocBy w s t)
    (h2 : NoDeallocBy w t u) : NoDeallocBy w s u := by
  obtain ⟨e1, ht1, hf1⟩ := h1
  obtain ⟨e2, ht2, hf2⟩ := h2
  refine ⟨e1 ++ e2, by rw [ht2, ht1, List.append_assoc], ?_⟩
  intro ev hmem
  rcases List.mem_append.1 hmem with hm | hm
  · exact hf1 ev hm
  · exact hf2 ev hm

theorem noDealloc_log (w : Nat) (s : State) (c : Call) (hc : c.isDealloc = false) :
    NoDeallocBy w s { s with trace := s.trace ++ [⟨w, c⟩] } := by
  refine ⟨[⟨w, c⟩], rfl, ?_⟩
  intro ev hmem _
  simp only [List.mem_singleton] at hmem
  subst hmem
  exact hc

theorem callNative_noDealloc (eng : Engine) (w : Nat) (s : State) (c : Call)
    (hc : c.isDealloc = false) : (callNative eng s w c).All (NoDeallocBy w s) := by
  intro t ht
  rcases callNative_cases eng s w c with h | h <;> rw [h] at ht <;>
    simp only [Res.state?, Option.some.injEq] at ht <;> subst ht <;> exact noDealloc_log w s c hc

theorem noDealloc_updW (w x : Nat) (s : State) (f : VowpalWabbitBase → VowpalWabbitBase) :
    NoDeallocBy w s (updW s x f) := ⟨[], by simp, by simp⟩

theorem Res.All.bind_noDealloc {w : Nat} {s : State} {r : Res} {k : State → Res}
    (hr : r.All (NoDeallocBy w s)) (hk : ∀ s1, (k s1).All (NoDeallocBy w s1)) :
    (r.bind k).All (NoDeallocBy w s) := by
  cases r with
  | ok s1 =>
    intro t ht
    exact (hr s1 rfl).ntrans (hk s1 t ht)
  | raised e s1 => exact hr
  | fault => intro t ht; simp [Res.state?] at ht
  | outOfFuel => intro t ht; simp [Res.state?] at ht

theorem finishHandle_noDealloc (eng : Engine) (w : Nat) (s : State) :
    (finishHandle eng s w).All (NoDeallocBy w s) := by
  cases h1 : (s.wrappers[w]?).bind (·.m_vw) with
  | none =>
    simp only [finishHandle, h1]
    exact Res.All.ok (NoDeallocBy.nrefl w s)
  | some h =>
    simp only [finishHandle, h1]
    apply Res.All.bind_noDealloc
      (callNative_noDealloc eng w s (.release_parser_datastructures h) rfl)
    intro s1 t ht
    exact (noDealloc_updW w w s1 _).ntrans (callNative_noDealloc eng w _ (.finish h) rfl t ht)

theorem releaseModel_noDealloc (eng : Engine) (fuel w : Nat) (s : State) (ha : Acyclic s) :
    (releaseModel (InternalDispose eng fuel) s w).All (NoDeallocBy w s) := by
  cases h1 : (s.wrappers[w]?).bind (·.m_model) with
  | none =>
    simp only [releaseModel, h1]
    exact Res.All.ok (NoDeallocBy.nrefl w s)
  | some m =>
    simp only [releaseModel, h1]
    have hm : m < w := by
      cases hW : s.wrappers[w]? with
      | none => simp [hW] at h1
      | some W =>
        simp only [hW, Option.bind_some] at h1
        exact ha w W m hW h1
    apply Res.All.bind_noDealloc
    · cases h2 : s.wrappers[m]? with
      | none => intro t ht; simp [DecrementReferenceWith, h2, Res.state?] at ht
      | some B =>
        simp only [DecrementReferenceWith, h2]
        split
        · intro t ht
          have e1 := evolves_updW m s
            (fun o => { o with m_instanceCount := o.m_instanceCount - 1 }) (fun X => ShrinkW.reflW _)
          have fr := (InternalDispose_rel eng fuel m _ t ht).2 (Acyclic.of_evolves e1 ha)
          obtain ⟨evs, htr, hwho⟩ := fr.who
          refine ⟨evs, by simpa using htr, ?_⟩
          intro ev hev hw
          have := hwho ev hev
          omega
        · exact Res.All.ok (noDealloc_updW w m s _)
    · intro s1
      exact Res.All.ok (noDealloc_updW w w s1 _)

theorem chainNodes_head_valid (es : List VowpalWabbitExample) (n e : Nat) (l : List Nat)
    (h : chainNodes es n e = some l) : ∃ X, es[e]? = some X := by
  cases n with
  | zero => simp [chainNodes] at h
  | succ n =>
    cases h1 : es[e]? with
    | none => simp [chainNodes, h1] at h
    | some E => exact ⟨E, rfl⟩

/-! ## Well-formedness is preserved -/

theorem nullAllEx_get_some (es : List VowpalWabbitExample) (l : List Nat) (x : Nat)
    (F : VowpalWabbitExample) (h : (nullAllEx es l)[x]? = some F) :
    ∃ E, es[x]? = some E ∧ F.InnerExample = E.InnerExample ∧ (x ∉ l → F = E) := by
  rw [nullAllEx_get] at h
  by_cases hx : x ∈ l
  · simp only [hx, if_true] at h
    cases hE : es[x]? with
    | none => simp [hE] at h
    | some E =>
      simp only [hE, Option.map_some', Option.some.injEq] at h
      subst h
      exact ⟨E, rfl, rfl, fun c => absurd hx c⟩
  · simp only [hx, if_false] at h
    exact ⟨F, h, rfl, fun _ => rfl⟩

theorem shrink2_pool {X Y : VowpalWabbitBase} (h : Shrink2 X Y) (exs : List Nat) (e : Nat)
    (hY : Y.m_examples = some exs) (he : e ∈ exs) : X.m_examples = some exs := by
  rcases h.2.2 with h1 | h1 | h1
  · rw [← h1]; exact hY
  · rw [h1] at hY; cases hY
  · rw [h1] at hY
    simp only [Option.some.injEq] at hY
    subst hY
    simp at he

theorem inPool_of_shrinks {s t : State} (h : Shrinks s t) (e : Nat) (he : InPool t e) :
    InPool s e := by
  obtain ⟨w, Y, exs, hY, hp, hm⟩ := he
  obtain ⟨X, hX, hsh⟩ := h.wr w Y hY
  exact ⟨w, X, exs, hX, shrink2_pool hsh exs e hp hm, hm⟩

theorem WF_of_shrinks {s t : State} (hwf : WF s) (h : Shrinks s t) : WF t := by
  obtain ⟨l, hl, hnot⟩ := h.ex
  refine ⟨?_, ?_, ?_, ?_, ?_, ?_, ?_, ?_⟩
  · intro w Y b hY hb
    obtain ⟨X, hX, hsh⟩ := h.wr w Y hY
    rcases hsh.2.1 with e | e
    · exact hwf.model_lt w X b hX (by rw [← e]; exact hb)
    · rw [e] at hb; cases hb
  · intro e F i hF hi
    rw [hl] at hF
    obtain ⟨E, hE, hlink, _⟩ := nullAllEx_get_some s.examples l e F hF
    exact hwf.inner_lt e E i hE (by rw [← hlink]; exact hi)
  · intro w Y exs hY hp
    obtain ⟨X, hX, hsh⟩ := h.wr w Y hY
    rcases hsh.2.2 with e | e | e
    · exact hwf.pool_nodup w X exs hX (by rw [← e]; exact hp)
    · rw [e] at hp; cases hp
    · rw [e] at hp
      simp only [Option.some.injEq] at hp
      subst hp
      exact List.nodup_nil
  · intro w v Y Z exs eys e hY hZ hp hq he1 he2
    obtain ⟨X1, hX1, hsh1⟩ := h.wr w Y hY
    obtain ⟨X2, hX2, hsh2⟩ := h.wr v Z hZ
    exact hwf.pool_disjoint w v X1 X2 exs eys e hX1 hX2 (shrink2_pool hsh1 exs e hp he1)
      (shrink2_pool hsh2 eys e hq he2) he1 he2
  · intro e he
    have hs := inPool_of_shrinks h e he
    rw [hl, bufOf_nullAllEx s.examples l e (fun c => hnot e c hs)]
    exact hwf.pool_buf e hs
  · intro e x he hx n c hc
    rw [hl, chainNodes_nullAllEx] at hc
    exact hwf.pool_head e x (inPool_of_shrinks h e he) (inPool_of_shrinks h x hx) n c hc
  · intro w v Y Z hd hY hZ h1 h2
    obtain ⟨X1, hX1, hsh1⟩ := h.wr w Y hY
    obtain ⟨X2, hX2, hsh2⟩ := h.wr v Z hZ
    have e1 : X1.m_vw = some hd := by
      rcases hsh1.1 with e | e
      · rw [← e]; exact h1
      · rw [e] at h1; cases h1
    have e2 : X2.m_vw = some hd := by
      rcases hsh2.1 with e | e
      · rw [← e]; exact h2
      · rw [e] at h2; cases h2
    exact hwf.handle_inj w v X1 X2 hd hX1 hX2 e1 e2
  · intro w Y hd hY h1
    obtain ⟨X, hX, hsh⟩ := h.wr w Y hY
    have e1 : X.m_vw = some hd := by
      rcases hsh.1 with e | e
      · rw [← e]; exact h1
      · rw [e] at h1; cases h1
    rw [h.nh]
    exact hwf.handle_lt w X hd hX e1

theorem shrink2_refl (X : VowpalWabbitBase) : Shrink2 X X :=
  ⟨Or.inl rfl, Or.inl rfl, Or.inl rfl⟩

theorem shrinks_updW (s : State) (w : Nat) (f : VowpalWabbitBase → VowpalWabbitBase)
    (hf : ∀ X, Shrink2 X (f X)) : Shrinks s (updW s w f) := by
  refine ⟨by simp, ?_, ⟨[], by simp, by simp⟩⟩
  intro x Y hY
  rw [updW_get] at hY
  by_cases hx : x = w
  · subst hx
    simp only [if_true] at hY
    cases hX : s.wrappers[x]? with
    | none => simp [hX] at hY
    | some X =>
      simp only [hX, Option.map_some', Option.some.injEq] at hY
      subst hY
      exact ⟨X, rfl, hf X⟩
  · simp only [hx, if_false] at hY
    exact ⟨Y, hY, shrink2_refl Y⟩

theorem WF_updW {s : State} (hwf : WF s) (w : Nat) (f : VowpalWabbitBase → VowpalWabbitBase)
    (hf : ∀ X, Shrink2 X (f X)) : WF (updW s w f) :=
  WF_of_shrinks hwf (shrinks_updW s w f hf)

theorem WF_trace {s : State} (hwf : WF s) (tr : List Event) : WF { s with trace := tr } :=
  WF_of_shrinks hwf ⟨rfl, fun _ Y hY => ⟨Y, hY, shrink2_refl Y⟩, ⟨[], rfl, by simp⟩⟩

theorem chainNodes_total (es : List VowpalWabbitExample)
    (hin : ∀ (e : Nat) (E : VowpalWabbitExample) (i : Nat),
      es[e]? = some E → E.InnerExample = some i → i < e) :
    ∀ (n e : Nat) (E : VowpalWabbitExample), es[e]? = some E → e < n →
      ∃ l, chainNodes es n e = some l := by
  intro n
  induction n with
  | zero => intro e E _ h; omega
  | succ n ih =>
    intro e E hE hlt
    cases h2 : E.InnerExample with
    | none => exact ⟨[], by simp [chainNodes, hE, h2]⟩
    | some i =>
      have hi : i < e := hin e E i hE h2
      have hil : i < es.length := Nat.lt_trans hi (List.getElem?_eq_some_iff.1 hE).1
      obtain ⟨l, hl⟩ := ih i es[i] (List.getElem?_eq_getElem hil) (by omega)
      exact ⟨i :: l, by simp [chainNodes, hE, h2, List.getElem?_eq_getElem hil, hl]⟩

theorem poolOK_of_wf (es : List VowpalWabbitExample) (fuel : Nat)
    (hin : ∀ (e : Nat) (E : VowpalWabbitExample) (i : Nat),
      es[e]? = some E → E.InnerExample = some i → i < e)
    (hfuel : es.length ≤ fuel) :
    ∀ (exs : List Nat), exs.Nodup → (∀ e ∈ exs, (bufOf es e).isSome = true) →
      (∀ e ∈ exs, ∀ x ∈ exs, ∀ l, chainNodes es fuel e = some l → x ∉ l) →
      poolOK es fuel exs = true := by
  intro exs
  induction exs with
  | nil => intro _ _ _; rfl
  | cons e rest ih =>
    intro hnd hbuf hhead
    have hb := hbuf e (List.mem_cons_self e rest)
    obtain ⟨E, hE⟩ : ∃ E, es[e]? = some E := by
      cases h : es[e]? with
      | none => simp [bufOf, h] at hb
      | some E => exact ⟨E, rfl⟩
    have hlt : e < es.length := (List.getElem?_eq_some_iff.1 hE).1
    obtain ⟨l, hl⟩ := chainNodes_total es hin fuel e E hE (by omega)
    have hrest := ih (List.nodup_cons.1 hnd).2
      (fun x hx => hbuf x (List.mem_cons_of_mem e hx))
      (fun x hx y hy => hhead x (List.mem_cons_of_mem e hx) y (List.mem_cons_of_mem e hy))
    simp only [poolOK, hb, hl, hrest, Bool.true_and, Bool.and_true, List.all_eq_true,
      Bool.and_eq_true, bne_iff_ne, ne_eq, Bool.not_eq_true', List.contains_eq_any_beq,
      List.any_eq_false, beq_iff_eq]
    intro x hx
    refine ⟨?_, ?_⟩
    · intro c
      subst c
      exact (List.nodup_cons.1 hnd).1 hx
    · intro y hy c
      subst c
      exact hhead e (List.mem_cons_self e rest) x (List.mem_cons_of_mem e hx) l hl hy

theorem mem_drainNodes_inv (es : List VowpalWabbitExample) (fuel : Nat) (exs : List Nat)
    (x : Nat) (hx : x ∈ drainNodes es fuel exs) :
    x ∈ exs ∨ ∃ e l, e ∈ exs ∧ chainNodes es fuel e = some l ∧ x ∈ l := by
  induction exs with
  | nil => simp [drainNodes] at hx
  | cons a rest ih =>
    simp only [drainNodes, List.mem_append, List.mem_singleton] at hx
    rcases hx with (h | h) | h
    · cases hc : chainNodes es fuel a with
      | none => simp [hc] at h
      | some l =>
        simp only [hc, Option.getD_some] at h
        exact Or.inr ⟨a, l, List.mem_cons_self a rest, hc, h⟩
    · subst h; exact Or.inl (List.mem_cons_self _ _)
    · rcases ih h with h2 | ⟨e, l, he, hl, hxl⟩
      · exact Or.inl (List.mem_cons_of_mem a h2)
      · exact Or.inr ⟨e, l, List.mem_cons_of_mem a he, hl, hxl⟩

theorem finishes_append (a b : List Event) : finishes (a ++ b) = finishes a ++ finishes b := by
  induction a with
  | nil => rfl
  | cons ev a ih =>
    simp only [List.cons_append, finishes]
    split <;> simp [ih]

theorem finishes_drainEvents (es : List VowpalWabbitExample) (w dl dp : Nat) (exs : List Nat) :
    finishes (drainEvents es w dl dp exs) = [] := by
  induction exs with
  | nil => rfl
  | cons e rest ih =>
    simp only [drainEvents, finishes_append, ih, List.append_nil]
    cases bufOf es e <;> rfl

/-- On a well-formed heap the drain phase completes and leaves a well-formed heap. -/
theorem drainPool_wf (eng : Engine) (hq : ∀ t e, eng.raises t e = false) (f : Nat) (s : State)
    (w : Nat) (W : VowpalWabbitBase) (h : Nat) (hwf : WF s) (hW : s.wrappers[w]? = some W)
    (hfuel : s.examples.length ≤ f) :
    ∃ s1 devs, drainPool eng f s w h = .ok s1 ∧ WF s1 ∧ s1.trace = s.trace ++ devs ∧
      finishes devs = [] ∧ s1.nextHandle = s.nextHandle ∧
      s1.examples.length = s.examples.length ∧
      (∀ e, InPool s1 e → s1.examples[e]? = s.examples[e]?) ∧
      (∀ x, s1.wrappers[x]? =
        if x = w then some { W with m_examples := none } else s.wrappers[x]?) := by
  have hlt : w < s.wrappers.length := (List.getElem?_eq_some_iff.1 hW).1
  cases hp : W.m_examples with
  | none =>
    refine ⟨s, [], by simp [drainPool, hW, hp], hwf, by simp, rfl, rfl, rfl, fun _ _ => rfl, ?_⟩
    intro x
    by_cases hx : x = w
    · subst hx
      simp only [if_true, hW, Option.some.injEq]
      cases W
      simp only at hp
      subst hp
      rfl
    · simp [hx]
  | some exs =>
    have hin : ∀ e ∈ exs, InPool s e := fun e he => ⟨w, W, exs, hW, hp, he⟩
    have hok : poolOK s.examples f exs = true :=
      poolOK_of_wf s.examples f hwf.inner_lt hfuel exs (hwf.pool_nodup w W exs hW hp)
        (fun e he => hwf.pool_buf e (hin e he))
        (fun e he x hx l hl => hwf.pool_head e x (hin e he) (hin x hx) f l hl)
    have hnotin : ∀ x ∈ drainNodes s.examples f exs,
        ¬ InPool (updW s w fun o => { o with m_examples := none }) x := by
      intro x hx hpool
      obtain ⟨v, V, eys, hV, hVp, hxe⟩ := hpool
      rw [updW_get] at hV
      by_cases hvw : v = w
      · subst hvw
        simp only [if_true, hW, Option.map_some', Option.some.injEq] at hV
        subst hV
        simp at hVp
      · simp only [hvw, if_false] at hV
        rcases mem_drainNodes_inv s.examples f exs x hx with h1 | ⟨e, l, he, hl, hxl⟩
        · exact hvw (hwf.pool_disjoint v w V W eys exs x hV hW hVp hp hxe h1)
        · exact hwf.pool_head e x (hin e he) ⟨v, V, eys, hV, hVp, hxe⟩ f l hl hxl
    refine ⟨drained eng s w W f h exs, _, drainPool_eq eng f s w W h exs hW hp hok
      (fun t c _ => hq t _), ?_, rfl, finishes_drainEvents _ _ _ _ _, rfl, by simp [drained],
      ?_, ?_⟩
    · -- first drop the container, then clear the nodes
      have hwf1 : WF (updW s w fun o => { o with m_examples := none }) :=
        WF_updW hwf w _ (fun X => ⟨Or.inl rfl, Or.inl rfl, Or.inr (Or.inl rfl)⟩)
      apply WF_of_shrinks hwf1
      refine ⟨by simp [drained], ?_, ⟨drainNodes s.examples f exs, by simp [drained], hnotin⟩⟩
      intro x Y hY
      refine ⟨Y, ?_, shrink2_refl Y⟩
      rw [updW_of_get s w _ W hW]
      exact hY
    · intro e he
      have he2 : InPool (updW s w fun o => { o with m_examples := none }) e := by
        rw [updW_of_get s w _ W hW]
        exact he
      have : e ∉ drainNodes s.examples f exs := fun c => hnotin e c he2
      simp [drained, nullAllEx_get, this]
    · intro x
      by_cases hx : x = w
      · subst hx; simp [drained, hlt]
      · have : w ≠ x := fun c => hx c.symm
        simp [drained, hx, List.getElem?_set_ne this]

/-! ## A complete teardown on a well-formed heap -/

theorem finishHandle_total (eng : Engine) (hq : ∀ t e, eng.raises t e = false) (s : State)
    (w : Nat) (W : VowpalWabbitBase) (h : Nat) (hW : s.wrappers[w]? = some W)
    (hv : W.m_vw = some h) (hwf : WF s) :
    ∃ t, finishHandle eng s w = .ok t ∧ WF t ∧
      t.trace = s.trace ++ [⟨w, .release_parser_datastructures h⟩, ⟨w, .finish h⟩] ∧
      (∀ x, t.wrappers[x]? = if x = w then some { W with m_vw := none } else s.wrappers[x]?) ∧
      t.examples = s.examples ∧ t.nextHandle = s.nextHandle := by
  refine ⟨{ (updW { s with trace := s.trace ++ [⟨w, .release_parser_datastructures h⟩] } w
      fun o => { o with m_vw := none }) with
      trace := s.trace ++ [⟨w, .release_parser_datastructures h⟩, ⟨w, .finish h⟩] },
    ?_, ?_, rfl, ?_, by simp, by simp⟩
  · simp [finishHandle, hW, hv, callNative, hq]
  · exact WF_trace (WF_updW (WF_trace hwf _) w (fun o => { o with m_vw := none })
      (fun X => ⟨Or.inr rfl, Or.inl rfl, Or.inl rfl⟩)) _
  · intro x
    show (updW _ w _).wrappers[x]? = _
    rw [updW_get]
    by_cases hx : x = w
    · subst hx; simp [hW]
    · simp [hx]

theorem finishes_two (w h : Nat) :
    finishes [⟨w, .release_parser_datastructures h⟩, ⟨w, .finish h⟩] = [h] := rfl

theorem mem_finishes_of_mem (evs : List Event) (b h : Nat)
    (hm : (⟨b, .finish h⟩ : Event) ∈ evs) : h ∈ finishes evs := by
  induction evs with
  | nil => simp at hm
  | cons ev evs ih =>
    rcases List.mem_cons.1 hm with hm | hm
    · subst hm
      simp [finishes]
    · simp only [finishes]
      split
      · exact List.mem_cons_of_mem _ (ih hm)
      · exact ih hm

theorem tornDown_dead (s : State) (w : Nat) (W : VowpalWabbitBase) (hwf : WF s)
    (hv : W.m_vw = none) : TornDown s w W s [] where
  wf := hwf
  tr := by simp
  fin_nodup := List.nodup_nil
  fin_src := by intro h hm; simp [finishes] at hm
  last := by intro h hh; rw [hv] at hh; cases hh
  base_cnt := by intro h b B hh; rw [hv] at hh; cases hh
  base_kept := by intro h b B hh; rw [hv] at hh; cases hh

theorem mem_finishes_two (w h x : Nat) (l : List Nat)
    (hx : x ∈ l ++ finishes [⟨w, .release_parser_datastructures h⟩, ⟨w, .finish h⟩]) :
    x ∈ l ∨ x = h := by
  rw [finishes_two] at hx
  rcases List.mem_append.1 hx with h1 | h1
  · exact Or.inl h1
  · exact Or.inr (by simpa using h1)

/-- On a well-formed heap, with every call returning and enough fuel, the teardown of a
wrapper returns normally, and `TornDown` describes what it did. -/
theorem teardown_total (eng : Engine) (hq : ∀ t e, eng.raises t e = false) :
    ∀ (fuel : Nat) (s : State) (w : Nat) (W : VowpalWabbitBase), WF s →
      s.wrappers[w]? = some W → w + s.examples.length + 1 ≤ fuel →
      ∃ t evs, InternalDispose eng fuel s w = .ok t ∧ TornDown s w W t evs := by
  intro fuel
  induction fuel with
  | zero => intro s w W _ _ hf; omega
  | succ f ih =>
    intro s w W hwf hW hfuel
    cases hv : W.m_vw with
    | none => exact ⟨s, [], InternalDispose_dead eng f s w W hW hv, tornDown_dead s w W hwf hv⟩
    | some h =>
      obtain ⟨s1, devs, hd, wf1, tr1, fdev, nh1, el1, hex1, hw1⟩ :=
        drainPool_wf eng hq f s w W h hwf hW (by omega)
      have hID : InternalDispose eng (f + 1) s w =
          ((releaseModel (InternalDispose eng f) s1 w).bind fun s2 => finishHandle eng s2 w) := by
        simp only [InternalDispose, hW, hv, hd, Res.bind_ok]
      have hW1 : s1.wrappers[w]? = some { W with m_examples := none } := by rw [hw1]; simp
      cases hm : W.m_model with
      | none =>
        have hrel : releaseModel (InternalDispose eng f) s1 w = .ok s1 := by
          simp [releaseModel, hW1, hm]
        obtain ⟨t, hfin, wft, trt, hwt, _, _⟩ :=
          finishHandle_total eng hq s1 w { W with m_examples := none } h hW1 hv wf1
        refine ⟨t, devs ++ [⟨w, .release_parser_datastructures h⟩, ⟨w, .finish h⟩],
          by rw [hID, hrel]; exact hfin, ?_⟩
        refine ⟨wft, by rw [trt, tr1, List.append_assoc], ?_, ?_, ?_, ?_, ?_⟩
        · rw [finishes_append, fdev, finishes_two]; simp
        · intro x hx
          rw [finishes_append, fdev, finishes_two] at hx
          have : x = h := by simpa using hx
          subst this
          exact ⟨w, W, Nat.le_refl w, hW, hv⟩
        · intro h2 hh2
          rw [hv] at hh2
          simp only [Option.some.injEq] at hh2
          subst hh2
          refine ⟨devs, rfl, ?_⟩
          intro b B hb hmb
          rw [hm] at hmb; cases hmb
        · intro h2 b B _ hmb
          rw [hm] at hmb; cases hmb
        · intro h2 b B _ hmb
          rw [hm] at hmb; cases hmb
      | some b =>
        have hbw : b < w := hwf.model_lt w W b hW hm
        have hne : b ≠ w := Nat.ne_of_lt hbw
        have hwl : w < s.wrappers.length := (List.getElem?_eq_some_iff.1 hW).1
        obtain ⟨B, hB⟩ : ∃ B, s.wrappers[b]? = some B :=
          ⟨_, List.getElem?_eq_getElem (Nat.lt_trans hbw hwl)⟩
        have hB1 : s1.wrappers[b]? = some B := by rw [hw1]; simp [hne, hB]
        obtain ⟨s1p, hs1p⟩ : ∃ x, x = updW s1 b
            fun o => { o with m_instanceCount := o.m_instanceCount - 1 } := ⟨_, rfl⟩
        have wfp : WF s1p := by
          rw [hs1p]
          exact WF_updW wf1 b (fun o => { o with m_instanceCount := o.m_instanceCount - 1 })
            (fun X => ⟨Or.inl rfl, Or.inl rfl, Or.inl rfl⟩)
        have hget : ∀ x, s1p.wrappers[x]? =
            if x = b then some { B with m_instanceCount := B.m_instanceCount - 1 }
            else if x = w then some { W with m_examples := none } else s.wrappers[x]? := by
          intro x
          rw [hs1p, updW_get]
          by_cases hx : x = b
          · subst hx; simp [hB1]
          · simp only [hx, if_false]
            rw [hw1]
        have hBp : s1p.wrappers[b]? = some { B with m_instanceCount := B.m_instanceCount - 1 } := by
          rw [hget]; simp
        have hWp : s1p.wrappers[w]? = some { W with m_examples := none } := by
          rw [hget]; simp [Ne.symm hne]
        have htrp : s1p.trace = s1.trace := by rw [hs1p]; simp
        have help : s1p.examples.length = s.examples.length := by rw [hs1p]; simpa using el1
        have srcBack : ∀ (i : Nat) (X : VowpalWabbitBase) (hx : Nat), i ≤ b →
            s1p.wrappers[i]? = some X → X.m_vw = some hx →
            ∃ X0, i ≤ w ∧ s.wrappers[i]? = some X0 ∧ X0.m_vw = some hx := by
          intro i X hx hib hX hXv
          rw [hget] at hX
          by_cases hi : i = b
          · subst hi
            simp only [if_true, Option.some.injEq] at hX
            subst hX
            exact ⟨B, Nat.le_of_lt hbw, hB, hXv⟩
          · have hiw : i ≠ w := by omega
            simp only [hi, hiw, if_false] at hX
            exact ⟨X, by omega, hX, hXv⟩
        by_cases hcnt : B.m_instanceCount - 1 ≤ 0
        · -- the base is torn down inside
          obtain ⟨t2, evs2, hn, td2⟩ := ih s1p b
            { B with m_instanceCount := B.m_instanceCount - 1 } wfp hBp (by omega)
          have hdec : DecrementReferenceWith (InternalDispose eng f) s1 b = .ok t2 := by
            simp only [DecrementReferenceWith, hB1, hcnt, if_true, ← hs1p]
            exact hn
          have fr := (InternalDispose_rel eng f b s1p t2 (by rw [hn]; rfl)).2 wfp.model_lt
          have hWt2 : t2.wrappers[w]? = some { W with m_examples := none } := by
            rw [fr.above w hbw]; exact hWp
          have wf3 : WF (updW t2 w fun o => { o with m_model := none }) :=
            WF_updW td2.wf w (fun o => { o with m_model := none })
              (fun X => ⟨Or.inl rfl, Or.inr rfl, Or.inl rfl⟩)
          have hW3 : (updW t2 w fun o => { o with m_model := none }).wrappers[w]? =
              some { W with m_examples := none, m_model := none } := by
            rw [updW_get_self, hWt2]; rfl
          obtain ⟨t, hfin, wft, trt, hwt, _, _⟩ := finishHandle_total eng hq _ w _ h hW3 hv wf3
          have hrelease : releaseModel (InternalDispose eng f) s1 w =
              .ok (updW t2 w fun o => { o with m_model := none }) := by
            simp [releaseModel, hW1, hm, hdec]
          refine ⟨t, (devs ++ evs2) ++ [⟨w, .release_parser_datastructures h⟩, ⟨w, .finish h⟩],
            by rw [hID, hrelease]; exact hfin, ?_⟩
          have hnot : h ∉ finishes evs2 := by
            intro hmem
            obtain ⟨i, X, hib, hX, hXv⟩ := td2.fin_src h hmem
            have := wfp.handle_inj i w X _ h hX hWp hXv hv
            omega
          refine ⟨wft, ?_, ?_, ?_, ?_, ?_, ?_⟩
          · rw [trt, updW_trace, td2.tr, htrp, tr1]; simp [List.append_assoc]
          · rw [finishes_append, finishes_append, fdev, finishes_two, List.nil_append]
            rw [List.nodup_append]
            refine ⟨td2.fin_nodup, by simp, ?_⟩
            intro x hx1 hx2
            have : x = h := by simpa using hx2
            subst this
            exact hnot hx1
          · intro x hx
            rw [finishes_append, finishes_append, fdev, List.nil_append] at hx
            rcases mem_finishes_two w h x _ hx with h1 | h1
            · obtain ⟨i, X, hib, hX, hXv⟩ := td2.fin_src x h1
              obtain ⟨X0, hiw, hX0, hX0v⟩ := srcBack i X x hib hX hXv
              exact ⟨i, X0, hiw, hX0, hX0v⟩
            · subst h1
              exact ⟨w, W, Nat.le_refl w, hW, hv⟩
          · intro h2 hh2
            rw [hv] at hh2
            simp only [Option.some.injEq] at hh2
            subst hh2
            refine ⟨devs ++ evs2, rfl, ?_⟩
            intro b2 B2 hb2 hmb hB2 _ hB2v
            rw [hm] at hmb
            simp only [Option.some.injEq] at hmb
            subst hmb
            rw [hB] at hB2
            simp only [Option.some.injEq] at hB2
            subst hB2
            obtain ⟨pre2, hpre2, _⟩ := td2.last hb2 hB2v
            rw [hpre2]
            simp
          · intro h2 b2 B2 _ hmb hB2
            rw [hm] at hmb
            simp only [Option.some.injEq] at hmb
            subst hmb
            rw [hB] at hB2
            simp only [Option.some.injEq] at hB2
            subst hB2
            have hc := fr.cnt
            rw [hBp] at hc
            have ht : t.wrappers[b]? = t2.wrappers[b]? := by
              rw [hwt]
              simp only [hne, if_false]
              exact updW_get_ne t2 w b _ hne
            rw [ht]
            cases hY : t2.wrappers[b]? with
            | none => simp [hY] at hc
            | some Y =>
              refine ⟨Y, rfl, ?_⟩
              simpa [hY] using hc
          · intro h2 b2 B2 _ hmb hB2 hpos
            rw [hm] at hmb
            simp only [Option.some.injEq] at hmb
            subst hmb
            rw [hB] at hB2
            simp only [Option.some.injEq] at hB2
            subst hB2
            omega
        · -- the base stays alive
          have hdec : DecrementReferenceWith (InternalDispose eng f) s1 b = .ok s1p := by
            simp only [DecrementReferenceWith, hB1, hcnt, if_false, ← hs1p]
          have wf3 : WF (updW s1p w fun o => { o with m_model := none }) :=
            WF_updW wfp w (fun o => { o with m_model := none })
              (fun X => ⟨Or.inl rfl, Or.inr rfl, Or.inl rfl⟩)
          have hW3 : (updW s1p w fun o => { o with m_model := none }).wrappers[w]? =
              some { W with m_examples := none, m_model := none } := by
            rw [updW_get_self, hWp]; rfl
          obtain ⟨t, hfin, wft, trt, hwt, hext, _⟩ :=
            finishHandle_total eng hq _ w _ h hW3 hv wf3
          have hrelease : releaseModel (InternalDispose eng f) s1 w =
              .ok (updW s1p w fun o => { o with m_model := none }) := by
            simp [releaseModel, hW1, hm, hdec]
          refine ⟨t, devs ++ [⟨w, .release_parser_datastructures h⟩, ⟨w, .finish h⟩],
            by rw [hID, hrelease]; exact hfin, ?_⟩
          have hfinq : finishes (devs ++
              [⟨w, .release_parser_datastructures h⟩, ⟨w, .finish h⟩]) = [h] := by
            rw [finishes_append, fdev, finishes_two]; rfl
          have htb : t.wrappers[b]? =
              some { B with m_instanceCount := B.m_instanceCount - 1 } := by
            rw [hwt]
            simp only [hne, if_false]
            rw [updW_get_ne s1p w b _ hne]
            exact hBp
          refine ⟨wft, ?_, ?_, ?_, ?_, ?_, ?_⟩
          · rw [trt, updW_trace, htrp, tr1]; simp [List.append_assoc]
          · rw [hfinq]; simp
          · intro x hx
            rw [hfinq] at hx
            have : x = h := by simpa using hx
            subst this
            exact ⟨w, W, Nat.le_refl w, hW, hv⟩
          · intro h2 hh2
            rw [hv] at hh2
            simp only [Option.some.injEq] at hh2
            subst hh2
            refine ⟨devs, rfl, ?_⟩
            intro b2 B2 hb2 hmb hB2 hle _
            rw [hm] at hmb
            simp only [Option.some.injEq] at hmb
            subst hmb
            rw [hB] at hB2
            simp only [Option.some.injEq] at hB2
            subst hB2
            exact absurd hle hcnt
          · intro h2 b2 B2 _ hmb hB2
            rw [hm] at hmb
            simp only [Option.some.injEq] at hmb
            subst hmb
            rw [hB] at hB2
            simp only [Option.some.injEq] at hB2
            subst hB2
            exact ⟨_, htb, rfl⟩
          · intro h2 b2 B2 hh2 hmb hB2 _
            rw [hm] at hmb
            simp only [Option.some.injEq] at hmb
            subst hmb
            rw [hB] at hB2
            simp only [Option.some.injEq] at hB2
            subst hB2
            rw [hv] at hh2
            simp only [Option.some.injEq] at hh2
            subst hh2
            refine ⟨htb, ?_, hfinq, ?_⟩
            · intro i hiw hib
              rw [hwt]
              simp only [hiw, if_false]
              rw [updW_get_ne s1p w i _ hiw, hget]
              simp [hib, hiw]
            · intro e he
              have hes : t.examples = s1.examples := by
                rw [hext, updW_examples, hs1p, updW_examples]
              rw [hes]
              apply hex1
              obtain ⟨v, V, eys, hV, hVp, hxe⟩ := he
              rw [hwt] at hV
              by_cases hvw : v = w
              · subst hvw
                simp only [if_true, Option.some.injEq] at hV
                subst hV
                simp at hVp
              · simp only [hvw, if_false] at hV
                rw [updW_get_ne s1p w v _ hvw, hget] at hV
                by_cases hvb : v = b
                · subst hvb
                  simp only [if_true, Option.some.injEq] at hV
                  subst hV
                  exact ⟨v, B, eys, hB1, hVp, hxe⟩
                · simp only [hvb, hvw, if_false] at hV
                  refine ⟨v, V, eys, ?_, hVp, hxe⟩
                  rw [hw1]
                  simp [hvw, hV]

/-! ## A dependent gives its base back: count, order of teardown -/

theorem Dispose_live (eng : Engine) (fuel : Nat) (s : State) (w : Nat) (W : VowpalWabbitBase)
    (hW : s.wrappers[w]? = some W) (hc : W.m_instanceCount ≤ 0) :
    Dispose eng fuel s w = InternalDispose eng fuel s w := by
  simp [Dispose, Finalize, hW, hc]

theorem Finalize_gated (eng : Engine) (fuel : Nat) (s : State) (w : Nat) (W : VowpalWabbitBase)
    (hW : s.wrappers[w]? = some W) (hc : 0 < W.m_instanceCount) :
    Finalize eng fuel s w = .ok s := by
  have : ¬ W.m_instanceCount ≤ 0 := by omega
  simp [Finalize, hW, this]

theorem sharedState_wf : WF sharedState := by
  refine ⟨?_, ?_, ?_, ?_, ?_, ?_, ?_, ?_⟩
  · intro w W b hW hb
    rcases w with _ | _ | _ | w <;> simp [sharedState] at hW <;> subst hW <;> simp at hb <;> omega
  · intro e E i hE hi
    rcases e with _ | e <;> simp [sharedState] at hE
    subst hE
    simp at hi
  · intro w W exs hW hp
    rcases w with _ | _ | _ | w <;> simp [sharedState] at hW <;> subst hW <;> simp at hp <;>
      subst hp <;> simp
  · intro w v W V exs eys e hW hV hp hq he1 he2
    rcases w with _ | _ | _ | w <;> simp [sharedState] at hW <;> subst hW <;> simp at hp <;>
      subst hp <;> simp at he1
    rcases v with _ | _ | _ | v <;> simp [sharedState] at hV <;> subst hV <;> simp at hq <;>
      subst hq <;> simp at he2
    rfl
  · intro e he
    obtain ⟨w, W, exs, hW, hp, hm⟩ := he
    rcases w with _ | _ | _ | w <;> simp [sharedState] at hW <;> subst hW <;> simp at hp <;>
      subst hp <;> simp at hm
    subst hm
    rfl
  · intro e x he hx n l hl
    obtain ⟨w, W, exs, hW, hp, hm⟩ := he
    rcases w with _ | _ | _ | w <;> simp [sharedState] at hW <;> subst hW <;> simp at hp <;>
      subst hp <;> simp at hm
    subst hm
    rcases n with _ | n <;> simp [chainNodes, sharedState] at hl
    subst hl
    simp
  · intro w v W V h hW hV h1 h2
    rcases w with _ | _ | _ | w <;> simp [sharedState] at hW <;> subst hW <;> simp at h1 <;>
      subst h1 <;>
      (rcases v with _ | _ | _ | v <;> simp [sharedState] at hV <;> subst hV <;> simp at h2)
    all_goals rfl
  · intro w W h hW h1
    rcases w with _ | _ | _ | w <;> simp [sharedState] at hW <;> subst hW <;> simp at h1 <;>
      subst h1 <;> simp [sharedState]

theorem Own.orefl (P : Call → Bool) (w : Nat) (s : State) : Own P w s s :=
  ⟨rfl, [], by simp, by simp⟩

theorem Own.otrans {P : Call → Bool} {w : Nat} {s t u : State} (h1 : Own P w s t)
    (h2 : Own P w t u) : Own P w s u := by
  obtain ⟨hw1, e1, ht1, hf1⟩ := h1
  obtain ⟨hw2, e2, ht2, hf2⟩ := h2
  refine ⟨hw2.trans hw1, e1 ++ e2, by rw [ht2, ht1, List.append_assoc], ?_⟩
  intro ev hmem
  rcases List.mem_append.1 hmem with hm | hm
  · exact hf1 ev hm
  · exact hf2 ev hm

theorem Res.All.bind_own {P : Call → Bool} {w : Nat} {s : State} {r : Res} {k : State → Res}
    (hr : r.All (Own P w s)) (hk : ∀ s1, (k s1).All (Own P w s1)) :
    (r.bind k).All (Own P w s) := by
  cases r with
  | ok s1 =>
    intro t ht
    exact (hr s1 rfl).otrans (hk s1 t ht)
  | raised e s1 => exact hr
  | fault => intro t ht; simp [Res.state?] at ht
  | outOfFuel => intro t ht; simp [Res.state?] at ht

theorem callNative_own (P : Call → Bool) (eng : Engine) (w : Nat) (s : State) (c : Call)
    (hc : P c = true) : (callNative eng s w c).All (Own P w s) := by
  intro t ht
  rcases callNative_cases eng s w c with h | h <;> rw [h] at ht <;>
    simp only [Res.state?, Option.some.injEq] at ht <;> subst ht <;>
    exact ⟨rfl, [⟨w, c⟩], rfl, by simp [hc]⟩

theorem own_updE (P : Call → Bool) (w e : Nat) (s : State)
    (f : VowpalWabbitExample → VowpalWabbitExample) :
    Own P w s (updE s e f) := ⟨by simp, [], by simp, by simp⟩

theorem clearChain_own (P : Call → Bool) (w : Nat) : ∀ (fuel : Nat) (s : State) (e : Nat),
    (clearChain fuel s e).All (Own P w s) := by
  intro fuel
  induction fuel with
  | zero => intro s e t ht; simp [clearChain, Res.state?] at ht
  | succ n ih =>
    intro s e
    cases h1 : s.examples[e]? with
    | none => intro t ht; simp [clearChain, h1, Res.state?] at ht
    | some E =>
      cases h2 : E.InnerExample with
      | none =>
        simp only [clearChain, h1, h2]
        exact Res.All.ok (Own.orefl P w s)
      | some i =>
        cases h3 : s.examples[i]? with
        | none => intro t ht; simp [clearChain, h1, h2, h3, Res.state?] at ht
        | some I =>
          simp only [clearChain, h1, h2, h3]
          intro t ht
          exact ((own_updE P w i s _).otrans (own_updE P w i _ _)).otrans (ih _ i t ht)

/-- However the loop over the removed examples ends, it has left the wrappers alone and
has made drain calls only, all on behalf of `w`. -/
theorem drainExamples_own (eng : Engine) (fuel : Nat) (w : Nat) (dl dp : Nat) :
    ∀ (exs : List Nat) (s : State),
      (drainExamples eng fuel w dl dp s exs).All (Own Call.isDrain w s) := by
  intro exs
  induction exs with
  | nil => intro s; exact Res.All.ok (Own.orefl _ w s)
  | cons ex rest ih =>
    intro s
    cases h1 : s.examples[ex]? with
    | none => intro t ht; simp [drainExamples, h1, Res.state?] at ht
    | some E =>
      cases h2 : E.m_example with
      | none => intro t ht; simp [drainExamples, h1, h2, Res.state?] at ht
      | some buf =>
        simp only [drainExamples, h1, h2]
        apply Res.All.bind_own (callNative_own _ eng w s _ rfl)
        intro s1
        apply Res.All.bind_own (callNative_own _ eng w s1 _ rfl)
        intro s2
        apply Res.All.bind_own (clearChain_own _ w fuel s2 ex)
        intro s3 t ht
        exact ((own_updE _ w ex s3 _).otrans (own_updE _ w ex _ _)).otrans (ih _ t ht)

/-- However the drain ends, it has changed, among the wrappers, only the pool of `w`, and
has made drain calls only, all on behalf of `w`. -/
theorem drainPool_local (eng : Engine) (fuel : Nat) (s s1 : State) (w h : Nat)
    (W : VowpalWabbitBase) (hW : s.wrappers[w]? = some W)
    (hd : (drainPool eng fuel s w h).state? = some s1) :
    (∀ x, x ≠ w → s1.wrappers[x]? = s.wrappers[x]?) ∧
    (∃ p, s1.wrappers[w]? = some { W with m_examples := p }) ∧
    ∃ evs, s1.trace = s.trace ++ evs ∧ ∀ ev ∈ evs, ev.who = w ∧ ev.call.isDrain = true := by
  cases hp : W.m_examples with
  | none =>
    simp only [drainPool, hW, Option.some_bind, hp, Res.state?, Option.some.injEq] at hd
    subst hd
    refine ⟨fun _ _ => rfl, ⟨none, ?_⟩, [], by simp, by simp⟩
    rw [hW, ← hp]
  | some exs =>
    simp only [drainPool, hW, Option.some_bind, hp] at hd
    have hown := drainExamples_own eng fuel w (eng.delete_label s.trace h)
      (eng.delete_prediction s.trace h) exs
      (updW s w fun o => { o with m_examples := some [] })
    cases hr : drainExamples eng fuel w (eng.delete_label s.trace h)
        (eng.delete_prediction s.trace h)
        (updW s w fun o => { o with m_examples := some [] }) exs with
    | ok s2 =>
      rw [hr] at hd hown
      simp only [Res.bind_ok, Res.state?, Option.some.injEq] at hd
      subst hd
      obtain ⟨hwr, evs, htr, hwho⟩ := hown s2 rfl
      refine ⟨?_, ⟨none, ?_⟩, evs, by simpa using htr, hwho⟩
      · intro x hx
        rw [updW_get_ne _ _ _ _ hx, hwr, updW_get_ne _ _ _ _ hx]
      · rw [updW_get_self, hwr, updW_get_self, hW]
        rfl
    | raised e s2 =>
      rw [hr] at hd hown
      simp only [Res.bind_raised, Res.state?, Option.some.injEq] at hd
      subst hd
      obtain ⟨hwr, evs, htr, hwho⟩ := hown s2 rfl
      refine ⟨?_, ⟨some [], ?_⟩, evs, by simpa using htr, hwho⟩
      · intro x hx
        rw [hwr, updW_get_ne _ _ _ _ hx]
      · rw [hwr, updW_get_self, hW]
        rfl
    | fault => rw [hr] at hd; simp [Res.state?] at hd
    | outOfFuel => rw [hr] at hd; simp [Res.state?] at hd

/-- A drain that returns has changed, among the wrappers, only the pool of `w`, which is
null afterwards. -/
theorem drainPool_ok_local (eng : Engine) (fuel : Nat) (s s1 : State) (w h : Nat)
    (W : VowpalWabbitBase) (hW : s.wrappers[w]? = some W)
    (hd : drainPool eng fuel s w h = .ok s1) :
    ∀ x, s1.wrappers[x]? =
      if x = w then some { W with m_examples := none } else s.wrappers[x]? := by
  cases hp : W.m_examples with
  | none =>
    simp only [drainPool, hW, Option.some_bind, hp, Res.ok.injEq] at hd
    subst hd
    intro x
    by_cases hx : x = w
    · subst hx
      simp only [if_true, hW, Option.some.injEq]
      rw [← hp]
    · simp [hx]
  | some exs =>
    simp only [drainPool, hW, Option.some_bind, hp] at hd
    obtain ⟨s2, h2, h3⟩ := Res.bind_eq_ok hd
    simp only [Res.ok.injEq] at h3
    subst h3
    obtain ⟨hwr, _⟩ := drainExamples_own eng fuel w _ _ exs _ s2 (by rw [h2]; rfl)
    intro x
    by_cases hx : x = w
    · subst hx
      rw [updW_get_self, hwr, updW_get_self, hW]
      simp
    · rw [updW_get_ne _ _ _ _ hx, hwr, updW_get_ne _ _ _ _ hx]
      simp [hx]

theorem callNative_eq_ok (eng : Engine) (s t : State) (who : Nat) (c : Call)
    (h : callNative eng s who c = .ok t) :
    t = { s with trace := s.trace ++ [⟨who, c⟩] } := by
  rcases callNative_cases eng s who c with h1 | h1 <;> rw [h1] at h
  · simp only [Res.ok.injEq] at h
    exact h.symm
  · simp at h

theorem clearChain_ok_trace : ∀ (fuel : Nat) (s t : State) (e : Nat),
    clearChain fuel s e = .ok t → t.trace = s.trace := by
  intro fuel
  induction fuel with
  | zero => intro s t e h; simp [clearChain] at h
  | succ n ih =>
    intro s t e h
    cases h1 : s.examples[e]? with
    | none => simp [clearChain, h1] at h
    | some E =>
      cases h2 : E.InnerExample with
      | none =>
        simp only [clearChain, h1, h2, Res.ok.injEq] at h
        rw [← h]
      | some i =>
        cases h3 : s.examples[i]? with
        | none => simp [clearChain, h1, h2, h3] at h
        | some I =>
          simp only [clearChain, h1, h2, h3] at h
          rw [ih _ t i h]
          simp

/-- A loop over the removed examples that returns has made, on behalf of `w`, drain calls
only, and its `dealloc_example` calls were issued for the listed examples, in order. -/
theorem drainExamples_ok_calls (eng : Engine) (fuel w dl dp : Nat) :
    ∀ (exs : List Nat) (s t : State), drainExamples eng fuel w dl dp s exs = .ok t →
      ∃ evs, t.trace = s.trace ++ evs ∧
        (∀ ev ∈ evs, ev.who = w ∧ ev.call.isDrain = true) ∧
        evs.filterMap (fun ev => ev.call.deallocOf) = exs := by
  intro exs
  induction exs with
  | nil =>
    intro s t h
    simp only [drainExamples, Res.ok.injEq] at h
    subst h
    exact ⟨[], by simp, by simp, rfl⟩
  | cons ex rest ih =>
    intro s t h
    cases h1 : s.examples[ex]? with
    | none => simp [drainExamples, h1] at h
    | some E =>
      cases h2 : E.m_example with
      | none => simp [drainExamples, h1, h2] at h
      | some buf =>
        simp only [drainExamples, h1, h2] at h
        obtain ⟨s1, hc1, h⟩ := Res.bind_eq_ok h
        obtain ⟨s2, hc2, h⟩ := Res.bind_eq_ok h
        obtain ⟨s3, hc3, h⟩ := Res.bind_eq_ok h
        have e1 := callNative_eq_ok eng s s1 w _ hc1
        have e2 := callNative_eq_ok eng s1 s2 w _ hc2
        have e3 := clearChain_ok_trace fuel s2 s3 ex hc3
        obtain ⟨evs, htr, hall, hfm⟩ := ih _ t h
        refine ⟨[⟨w, .dealloc_example dl buf dp ex⟩, ⟨w, .free_it buf⟩] ++ evs, ?_, ?_, ?_⟩
        · rw [htr, updE_trace, updE_trace, e3, e2, e1]
          simp
        · intro ev hev
          rcases List.mem_append.1 hev with hm | hm
          · simp only [List.mem_cons, List.mem_singleton, List.not_mem_nil, or_false] at hm
            rcases hm with hm | hm <;> subst hm <;> exact ⟨rfl, rfl⟩
          · exact hall ev hm
        · show List.filterMap (fun ev : Event => ev.call.deallocOf)
            (⟨w, .dealloc_example dl buf dp ex⟩ :: ⟨w, .free_it buf⟩ :: evs) = ex :: rest
          rw [List.filterMap_cons, List.filterMap_cons, hfm]
          rfl

theorem drainPool_ok_calls (eng : Engine) (fuel : Nat) (s s1 : State) (w h : Nat)
    (W : VowpalWabbitBase) (hW : s.wrappers[w]? = some W)
    (hd : drainPool eng fuel s w h = .ok s1) :
    ∃ evs, s1.trace = s.trace ++ evs ∧
      (∀ ev ∈ evs, ev.who = w ∧ ev.call.isDrain = true) ∧
      evs.filterMap (fun ev => ev.call.deallocOf) = W.m_examples.getD [] := by
  cases hp : W.m_examples with
  | none =>
    simp only [drainPool, hW, Option.some_bind, hp, Res.ok.injEq] at hd
    subst hd
    exact ⟨[], by simp, by simp, rfl⟩
  | some exs =>
    simp only [drainPool, hW, Option.some_bind, hp] at hd
    obtain ⟨s2, h2, h3⟩ := Res.bind_eq_ok hd
    simp only [Res.ok.injEq] at h3
    subst h3
    obtain ⟨evs, htr, hall, hfm⟩ := drainExamples_ok_calls eng fuel w _ _ exs _ s2 h2
    exact ⟨evs, by simpa using htr, hall, by simpa using hfm⟩

theorem finishHandle_ok_live (eng : Engine) (s t : State) (w h : Nat) (X : VowpalWabbitBase)
    (hX : s.wrappers[w]? = some X) (hv : X.m_vw = some h)
    (hf : finishHandle eng s w = .ok t) :
    t.trace = s.trace ++ [⟨w, .release_parser_datastructures h⟩, ⟨w, .finish h⟩] ∧
    ∀ x, x ≠ w → t.wrappers[x]? = s.wrappers[x]? := by
  have hh : (s.wrappers[w]?).bind (·.m_vw) = some h := by simp [hX, hv]
  simp only [finishHandle, hh] at hf
  obtain ⟨s1, hc1, hc2⟩ := Res.bind_eq_ok hf
  have e1 := callNative_eq_ok eng s s1 w _ hc1
  have e2 := callNative_eq_ok eng _ t w _ hc2
  subst e1
  subst e2
  refine ⟨by simp, ?_⟩
  intro x hx
  simp only
  exact updW_get_ne _ w x _ hx

/-- The calls of a teardown that returns, whatever the collaborators do, on a heap whose
base references are acyclic: the drain of the wrapper's own pool, then what the release of
its base does (issued by older wrappers only), then `release_parser_datastructures` and
`finish` on its own handle. -/
theorem InternalDispose_ok_shape (eng : Engine) : ∀ (fuel : Nat) (s t : State) (w h : Nat)
    (W : VowpalWabbitBase), Acyclic s → s.wrappers[w]? = some W → W.m_vw = some h →
    InternalDispose eng fuel s w = .ok t →
    ∃ dr mid,
      t.trace = s.trace ++ dr ++ mid ++
        [⟨w, .release_parser_datastructures h⟩, ⟨w, .finish h⟩] ∧
      (∀ ev ∈ dr, ev.who = w ∧ ev.call.isDrain = true) ∧
      dr.filterMap (fun ev => ev.call.deallocOf) = W.m_examples.getD [] ∧
      (∀ ev ∈ mid, ev.who < w) ∧
      ∀ (b : Nat) (B : VowpalWabbitBase), W.m_model = some b → s.wrappers[b]? = some B →
        (∃ B1, t.wrappers[b]? = some B1 ∧ B1.m_instanceCount = B.m_instanceCount - 1 ∧
          (0 < B.m_instanceCount - 1 →
            B1 = { B with m_instanceCount := B.m_instanceCount - 1 })) ∧
        (0 < B.m_instanceCount - 1 → mid = []) ∧
        (B.m_instanceCount - 1 ≤ 0 → ∀ hb, B.m_vw = some hb →
          (⟨b, .finish hb⟩ : Event) ∈ mid) := by
  intro fuel
  induction fuel with
  | zero => intro s t w h W _ _ _ hID; simp [InternalDispose] at hID
  | succ f ih =>
    intro s t w h W ha hW hv hID
    simp only [InternalDispose, hW, hv] at hID
    obtain ⟨s2, hA, hfin⟩ := Res.bind_eq_ok hID
    obtain ⟨s1, hdrain, hrel⟩ := Res.bind_eq_ok hA
    have hw1 := drainPool_ok_local eng f s s1 w h W hW hdrain
    obtain ⟨dr, htr1, hdr, hfm⟩ := drainPool_ok_calls eng f s s1 w h W hW hdrain
    have hW1 : s1.wrappers[w]? = some { W with m_examples := none } := by rw [hw1]; simp
    have ha1 : Acyclic s1 :=
      Acyclic.of_evolves (drainPool_rel eng f w s h s1 (by rw [hdrain]; rfl)).1 ha
    cases hm : W.m_model with
    | none =>
      simp only [releaseModel, hW1, Option.some_bind, hm, Res.ok.injEq] at hrel
      subst hrel
      obtain ⟨htr, _⟩ := finishHandle_ok_live eng s1 t w h _ hW1 hv hfin
      refine ⟨dr, [], ?_, hdr, hfm, by simp, ?_⟩
      · rw [htr, htr1]; simp
      · intro b B hb; simp at hb
    | some b =>
      have hbw : b < w := ha w W b hW hm
      have hne : b ≠ w := Nat.ne_of_lt hbw
      simp only [releaseModel, hW1, Option.some_bind, hm] at hrel
      obtain ⟨s3, hdec, hs2⟩ := Res.bind_eq_ok hrel
      simp only [Res.ok.injEq] at hs2
      subst hs2
      cases hB1 : s1.wrappers[b]? with
      | none => simp [DecrementReferenceWith, hB1] at hdec
      | some B =>
        have hBs : s.wrappers[b]? = some B := by
          rw [hw1] at hB1
          simpa [hne] using hB1
        have hBp : (updW s1 b fun o =>
            { o with m_instanceCount := o.m_instanceCount - 1 }).wrappers[b]?
            = some { B with m_instanceCount := B.m_instanceCount - 1 } := by
          rw [updW_get_self, hB1]; rfl
        have hWp : (updW s1 b fun o =>
            { o with m_instanceCount := o.m_instanceCount - 1 }).wrappers[w]?
            = some { W with m_examples := none } := by
          rw [updW_get_ne _ _ _ _ (Ne.symm hne), hW1]
        have e1' := evolves_updW b s1
          (fun o => { o with m_instanceCount := o.m_instanceCount - 1 })
          (fun X => ShrinkW.reflW _)
        have ha1' := Acyclic.of_evolves e1' ha1
        simp only [DecrementReferenceWith, hB1] at hdec
        -- what the release of the base did
        have key : ∃ mid, s3.trace = s1.trace ++ mid ∧ (∀ ev ∈ mid, ev.who < w) ∧
            s3.wrappers[w]? = some { W with m_examples := none } ∧
            (∃ B1, s3.wrappers[b]? = some B1 ∧
              B1.m_instanceCount = B.m_instanceCount - 1 ∧
              (0 < B.m_instanceCount - 1 →
                B1 = { B with m_instanceCount := B.m_instanceCount - 1 })) ∧
            (0 < B.m_instanceCount - 1 → mid = []) ∧
            (B.m_instanceCount - 1 ≤ 0 → ∀ hb, B.m_vw = some hb →
              (⟨b, .finish hb⟩ : Event) ∈ mid) := by
          by_cases hcnt : B.m_instanceCount - 1 ≤ 0
          · simp only [hcnt, if_true] at hdec
            have fr := (InternalDispose_rel eng f b _ s3 (by rw [hdec]; rfl)).2 ha1'
            obtain ⟨mid, hmtr, hmwho⟩ := fr.who
            have hc := fr.cnt
            rw [hBp] at hc
            cases hY : s3.wrappers[b]? with
            | none => simp [hY] at hc
            | some Y =>
              have hYc : Y.m_instanceCount = B.m_instanceCount - 1 := by simpa [hY] using hc
              refine ⟨mid, by simpa using hmtr, fun ev hev => ?_, ?_,
                ⟨Y, rfl, hYc, fun hpos => by omega⟩, fun hpos => by omega, ?_⟩
              · have := hmwho ev hev
                omega
              · rw [fr.above w hbw, hWp]
              · intro _ hb hBv
                obtain ⟨dr2, mid2, htr2, _⟩ := ih _ s3 b hb _ ha1' hBp hBv hdec
                rw [hmtr] at htr2
                have hmid : mid = dr2 ++ mid2 ++
                    [⟨b, .release_parser_datastructures hb⟩, ⟨b, .finish hb⟩] := by
                  apply @List.append_cancel_left _ (updW s1 b fun o =>
                    { o with m_instanceCount := o.m_instanceCount - 1 }).trace
                  rw [htr2]
                  simp only [List.append_assoc]
                rw [hmid]
                simp
          · simp only [hcnt, if_false, Res.ok.injEq] at hdec
            subst hdec
            exact ⟨[], by simp, by simp, hWp, ⟨_, hBp, rfl, fun _ => rfl⟩, fun _ => rfl,
              fun hle => absurd hle hcnt⟩
        obtain ⟨mid, hmtr, hmwho, hW3, hbase, hpos, hfinb⟩ := key
        have hW2 : (updW s3 w fun o => { o with m_model := none }).wrappers[w]? =
            some { W with m_examples := none, m_model := none } := by
          rw [updW_get_self, hW3]; rfl
        obtain ⟨htr, hothers⟩ := finishHandle_ok_live eng _ t w h _ hW2 hv hfin
        refine ⟨dr, mid, ?_, hdr, hfm, hmwho, ?_⟩
        · rw [htr, updW_trace, hmtr, htr1]
        · intro b2 B2 hb2 hB2
          simp only [Option.some.injEq] at hb2
          subst hb2
          rw [hBs] at hB2
          simp only [Option.some.injEq] at hB2
          subst hB2
          refine ⟨?_, hpos, hfinb⟩
          obtain ⟨B1, hB1', hc1, hk1⟩ := hbase
          refine ⟨B1, ?_, hc1, hk1⟩
          rw [hothers _ hne, updW_get_ne _ _ _ _ hne, hB1']

theorem finishHandle_live_outcomes (eng : Engine) (s t : State) (w h : Nat)
    (X : VowpalWabbitBase) (hX : s.wrappers[w]? = some X) (hv : X.m_vw = some h)
    (hst : (finishHandle eng s w).state? = some t) :
    (∀ x, x ≠ w → t.wrappers[x]? = s.wrappers[x]?) ∧
    (t.trace = s.trace ++ [⟨w, .release_parser_datastructures h⟩] ∨
      t.trace = s.trace ++ [⟨w, .release_parser_datastructures h⟩, ⟨w, .finish h⟩]) := by
  have hh : (s.wrappers[w]?).bind (·.m_vw) = some h := by simp [hX, hv]
  simp only [finishHandle, hh] at hst
  rcases callNative_cases eng s w (.release_parser_datastructures h) with h1 | h1
  · rw [h1] at hst
    simp only [Res.bind_ok] at hst
    rcases callNative_cases eng
      (updW { s with trace := s.trace ++ [⟨w, .release_parser_datastructures h⟩] } w
        fun o => { o with m_vw := none }) w (.finish h) with h2 | h2 <;>
      rw [h2] at hst <;> simp only [Res.state?, Option.some.injEq] at hst <;> subst hst
    · exact ⟨fun x hx => updW_get_ne _ w x _ hx, Or.inr (by simp)⟩
    · exact ⟨fun x hx => updW_get_ne _ w x _ hx, Or.inr (by simp)⟩
  · rw [h1] at hst
    simp only [Res.bind_raised, Res.state?, Option.some.injEq] at hst
    subst hst
    exact ⟨fun _ _ => rfl, Or.inl rfl⟩

/-- What a release of the base model that returns has done. -/
theorem releaseModel_ok_facts (eng : Engine) (f : Nat) (s1 s2 : State) (w : Nat)
    (W : VowpalWabbitBase) (ha1 : Acyclic s1) (hW1 : s1.wrappers[w]? = some W)
    (hrel : releaseModel (InternalDispose eng f) s1 w = .ok s2) :
    ∃ mid, s2.trace = s1.trace ++ mid ∧ (∀ ev ∈ mid, ev.who < w) ∧
      s2.wrappers[w]? = some { W with m_model := none } ∧
      ∀ (b : Nat) (B : VowpalWabbitBase), W.m_model = some b → s1.wrappers[b]? = some B →
        (∃ B1, s2.wrappers[b]? = some B1 ∧ B1.m_instanceCount = B.m_instanceCount - 1 ∧
          (0 < B.m_instanceCount - 1 →
            B1 = { B with m_instanceCount := B.m_instanceCount - 1 })) ∧
        (0 < B.m_instanceCount - 1 → mid = []) ∧
        (B.m_instanceCount - 1 ≤ 0 → ∀ hb, B.m_vw = some hb →
          (⟨b, .finish hb⟩ : Event) ∈ mid) := by
  cases hm : W.m_model with
  | none =>
    simp only [releaseModel, hW1, Option.some_bind, hm, Res.ok.injEq] at hrel
    subst hrel
    refine ⟨[], by simp, by simp, ?_, ?_⟩
    · rw [hW1, ← hm]
    · intro b B hb; simp at hb
  | some b =>
    have hbw : b < w := ha1 w W b hW1 hm
    have hne : b ≠ w := Nat.ne_of_lt hbw
    simp only [releaseModel, hW1, Option.some_bind, hm] at hrel
    obtain ⟨s3, hdec, hs2⟩ := Res.bind_eq_ok hrel
    simp only [Res.ok.injEq] at hs2
    subst hs2
    cases hB1 : s1.wrappers[b]? with
    | none => simp [DecrementReferenceWith, hB1] at hdec
    | some B =>
      have hBp : (updW s1 b fun o =>
          { o with m_instanceCount := o.m_instanceCount - 1 }).wrappers[b]?
          = some { B with m_instanceCount := B.m_instanceCount - 1 } := by
        rw [updW_get_self, hB1]; rfl
      have hWp : (updW s1 b fun o =>
          { o with m_instanceCount := o.m_instanceCount - 1 }).wrappers[w]? = some W := by
        rw [updW_get_ne _ _ _ _ (Ne.symm hne), hW1]
      have e1' := evolves_updW b s1
        (fun o => { o with m_instanceCount := o.m_instanceCount - 1 })
        (fun X => ShrinkW.reflW _)
      have ha1' := Acyclic.of_evolves e1' ha1
      simp only [DecrementReferenceWith, hB1] at hdec
      have key : ∃ mid, s3.trace = s1.trace ++ mid ∧ (∀ ev ∈ mid, ev.who < w) ∧
          s3.wrappers[w]? = some W ∧
          (∃ B1, s3.wrappers[b]? = some B1 ∧
            B1.m_instanceCount = B.m_instanceCount - 1 ∧
            (0 < B.m_instanceCount - 1 →
              B1 = { B with m_instanceCount := B.m_instanceCount - 1 })) ∧
          (0 < B.m_instanceCount - 1 → mid = []) ∧
          (B.m_instanceCount - 1 ≤ 0 → ∀ hb, B.m_vw = some hb →
            (⟨b, .finish hb⟩ : Event) ∈ mid) := by
        by_cases hcnt : B.m_instanceCount - 1 ≤ 0
        · simp only [hcnt, if_true] at hdec
          have fr := (InternalDispose_rel eng f b _ s3 (by rw [hdec]; rfl)).2 ha1'
          obtain ⟨mid, hmtr, hmwho⟩ := fr.who
          have hc := fr.cnt
          rw [hBp] at hc
          cases hY : s3.wrappers[b]? with
          | none => simp [hY] at hc
          | some Y =>
            have hYc : Y.m_instanceCount = B.m_instanceCount - 1 := by simpa [hY] using hc
            refine ⟨mid, by simpa using hmtr, fun ev hev => ?_, ?_,
              ⟨Y, rfl, hYc, fun hpos => by omega⟩, fun hpos => by omega, ?_⟩
            · have := hmwho ev hev
              omega
            · rw [fr.above w hbw, hWp]
            · intro _ hb hBv
              obtain ⟨dr2, mid2, htr2, _⟩ :=
                InternalDispose_ok_shape eng f _ s3 b hb _ ha1' hBp hBv hdec
              rw [hmtr] at htr2
              have hmid : mid = dr2 ++ mid2 ++
                  [⟨b, .release_parser_datastructures hb⟩, ⟨b, .finish hb⟩] := by
                apply @List.append_cancel_left _ (updW s1 b fun o =>
                  { o with m_instanceCount := o.m_instanceCount - 1 }).trace
                rw [htr2]
                simp only [List.append_assoc]
              rw [hmid]
              simp
        · simp only [hcnt, if_false, Res.ok.injEq] at hdec
          subst hdec
          exact ⟨[], by simp, by simp, hWp, ⟨_, hBp, rfl, fun _ => rfl⟩, fun _ => rfl,
            fun hle => absurd hle hcnt⟩
      obtain ⟨mid, hmtr, hmwho, hW3, hbase, hpos, hfinb⟩ := key
      refine ⟨mid, by rw [updW_trace, hmtr], hmwho, by rw [updW_get_self, hW3]; rfl, ?_⟩
      intro b2 B2 hb2 hB2
      simp only [Option.some.injEq] at hb2
      subst hb2
      rw [hB1] at hB2
      simp only [Option.some.injEq] at hB2
      subst hB2
      refine ⟨?_, hpos, hfinb⟩
      obtain ⟨B1, hB1', hc1, hk1⟩ := hbase
      exact ⟨B1, by rw [updW_get_ne _ _ _ _ hne, hB1'], hc1, hk1⟩

/-- What a release of the base model that raises has done: the exception comes out of the
teardown of the base, whose count has been decremented. -/
theorem releaseModel_raised_facts (eng : Engine) (f : Nat) (s1 t : State) (w : Nat)
    (W : VowpalWabbitBase) (e : Exn) (ha1 : Acyclic s1) (hW1 : s1.wrappers[w]? = some W)
    (hrel : releaseModel (InternalDispose eng f) s1 w = .raised e t) :
    ∃ (b : Nat) (B : VowpalWabbitBase) (mid : List Event), W.m_model = some b ∧
      s1.wrappers[b]? = some B ∧ t.trace = s1.trace ++ mid ∧ (∀ ev ∈ mid, ev.who < w) ∧
      ∃ B1, t.wrappers[b]? = some B1 ∧ B1.m_instanceCount = B.m_instanceCount - 1 := by
  cases hm : W.m_model with
  | none => simp [releaseModel, hW1, hm] at hrel
  | some b =>
    have hbw : b < w := ha1 w W b hW1 hm
    simp only [releaseModel, hW1, Option.some_bind, hm] at hrel
    cases hB1 : s1.wrappers[b]? with
    | none => simp [DecrementReferenceWith, hB1] at hrel
    | some B =>
      have hBp : (updW s1 b fun o =>
          { o with m_instanceCount := o.m_instanceCount - 1 }).wrappers[b]?
          = some { B with m_instanceCount := B.m_instanceCount - 1 } := by
        rw [updW_get_self, hB1]; rfl
      have e1' := evolves_updW b s1
        (fun o => { o with m_instanceCount := o.m_instanceCount - 1 })
        (fun X => ShrinkW.reflW _)
      have ha1' := Acyclic.of_evolves e1' ha1
      simp only [DecrementReferenceWith, hB1] at hrel
      by_cases hcnt : B.m_instanceCount - 1 ≤ 0
      · simp only [hcnt, if_true] at hrel
        cases hd : InternalDispose eng f (updW s1 b fun o =>
            { o with m_instanceCount := o.m_instanceCount - 1 }) b with
        | ok s3 => rw [hd] at hrel; simp at hrel
        | fault => rw [hd] at hrel; simp at hrel
        | outOfFuel => rw [hd] at hrel; simp at hrel
        | raised e2 s3 =>
          rw [hd] at hrel
          simp only [Res.bind_raised, Res.raised.injEq] at hrel
          obtain ⟨_, hs3⟩ := hrel
          subst hs3
          have fr := (InternalDispose_rel eng f b _ s3 (by rw [hd]; rfl)).2 ha1'
          obtain ⟨mid, hmtr, hmwho⟩ := fr.who
          have hc := fr.cnt
          rw [hBp] at hc
          cases hY : s3.wrappers[b]? with
          | none => simp [hY] at hc
          | some Y =>
            refine ⟨b, B, mid, rfl, hB1, by simpa using hmtr, fun ev hev => ?_, Y, hY,
              by simpa [hY] using hc⟩
            have := hmwho ev hev
            omega
      · simp [hcnt] at hrel

/-- The calls of a teardown of a live wrapper, however it ends, on a heap whose base
references are acyclic: drain calls of the wrapper, then calls issued by older wrappers
while the base is given back, then at most `release_parser_datastructures` and `finish`
on its own handle.  A call after the drain means the drain was complete; a call on the
own handle means the base has been given back. -/
theorem InternalDispose_shape (eng : Engine) (fuel : Nat) (s t : State) (w h : Nat)
    (W : VowpalWabbitBase) (ha : Acyclic s) (hW : s.wrappers[w]? = some W)
    (hv : W.m_vw = some h) (hst : (InternalDispose eng fuel s w).state? = some t) :
    ∃ dr mid fin,
      t.trace = s.trace ++ dr ++ mid ++ fin ∧
      (∀ ev ∈ dr, ev.who = w ∧ ev.call.isDrain = true) ∧
      (∀ ev ∈ mid, ev.who < w) ∧
      (fin = [] ∨ fin = [⟨w, .release_parser_datastructures h⟩] ∨
        fin = [⟨w, .release_parser_datastructures h⟩, ⟨w, .finish h⟩]) ∧
      (InternalDispose eng fuel s w = .ok t →
        fin = [⟨w, .release_parser_datastructures h⟩, ⟨w, .finish h⟩]) ∧
      (mid ≠ [] ∨ fin ≠ [] →
        dr.filterMap (fun ev => ev.call.deallocOf) = W.m_examples.getD []) ∧
      ∀ (b : Nat) (B : VowpalWabbitBase), W.m_model = some b → s.wrappers[b]? = some B →
        (∃ B1, t.wrappers[b]? = some B1 ∧
          (B1.m_instanceCount = B.m_instanceCount - 1 ∨ (B1 = B ∧ mid = [] ∧ fin = []))) ∧
        (fin ≠ [] →
          (0 < B.m_instanceCount - 1 → mid = []) ∧
          (B.m_instanceCount - 1 ≤ 0 → ∀ hb, B.m_vw = some hb →
            (⟨b, .finish hb⟩ : Event) ∈ mid)) := by
  cases fuel with
  | zero => simp [InternalDispose, Res.state?] at hst
  | succ f =>
    have hunf : InternalDispose eng (f + 1) s w =
        ((drainPool eng f s w h).bind fun s =>
          releaseModel (InternalDispose eng f) s w).bind fun s => finishHandle eng s w := by
      simp only [InternalDispose, hW, hv]
    simp only [InternalDispose, hW, hv] at hst
    cases hd : drainPool eng f s w h with
    | fault => rw [hd] at hst; simp [Res.state?] at hst
    | outOfFuel => rw [hd] at hst; simp [Res.state?] at hst
    | raised e s1 =>
      rw [hd] at hst
      simp only [Res.bind_raised, Res.state?, Option.some.injEq] at hst
      subst hst
      obtain ⟨hoth, _, dr, htr, hdr⟩ := drainPool_local eng f s s1 w h W hW (by rw [hd]; rfl)
      refine ⟨dr, [], [], by simpa using htr, hdr, by simp, Or.inl rfl,
        fun hok => by rw [hunf, hd] at hok; simp at hok, by simp, ?_⟩
      intro b B hm hB
      have hne : b ≠ w := Nat.ne_of_lt (ha w W b hW hm)
      exact ⟨⟨B, by rw [hoth b hne, hB], Or.inr ⟨rfl, rfl, rfl⟩⟩, by simp⟩
    | ok s1 =>
      rw [hd] at hst
      simp only [Res.bind_ok] at hst
      have hw1 := drainPool_ok_local eng f s s1 w h W hW hd
      obtain ⟨dr, htr1, hdr, hfm⟩ := drainPool_ok_calls eng f s s1 w h W hW hd
      have hW1 : s1.wrappers[w]? = some { W with m_examples := none } := by rw [hw1]; simp
      have ha1 : Acyclic s1 :=
        Acyclic.of_evolves (drainPool_rel eng f w s h s1 (by rw [hd]; rfl)).1 ha
      have hBs : ∀ b, b ≠ w → s1.wrappers[b]? = s.wrappers[b]? := by
        intro b hb; rw [hw1]; simp [hb]
      cases hr : releaseModel (InternalDispose eng f) s1 w with
      | fault => rw [hr] at hst; simp [Res.state?] at hst
      | outOfFuel => rw [hr] at hst; simp [Res.state?] at hst
      | raised e s3 =>
        rw [hr] at hst
        simp only [Res.bind_raised, Res.state?, Option.some.injEq] at hst
        subst hst
        obtain ⟨b, B, mid, hm, hB1, hmtr, hmwho, B1, hB1t, hcnt⟩ :=
          releaseModel_raised_facts eng f s1 s3 w _ e ha1 hW1 hr
        refine ⟨dr, mid, [], by rw [hmtr, htr1]; simp, hdr, hmwho, Or.inl rfl,
          fun hok => by rw [hunf, hd, Res.bind_ok, hr] at hok; simp at hok, fun _ => hfm, ?_⟩
        intro b2 B2 hm2 hB2
        have hm' : W.m_model = some b := hm
        rw [hm'] at hm2
        simp only [Option.some.injEq] at hm2
        subst hm2
        have hne : b ≠ w := Nat.ne_of_lt (ha w W b hW hm')
        rw [hBs b hne, hB2] at hB1
        simp only [Option.some.injEq] at hB1
        subst hB1
        exact ⟨⟨B1, hB1t, Or.inl hcnt⟩, by simp⟩
      | ok s2 =>
        rw [hr] at hst
        simp only [Res.bind_ok] at hst
        obtain ⟨mid, hmtr, hmwho, hW2, hbase⟩ :=
          releaseModel_ok_facts eng f s1 s2 w _ ha1 hW1 hr
        obtain ⟨hoth, hfin⟩ := finishHandle_live_outcomes eng s2 t w h _ hW2 hv hst
        have hbase2 : ∀ (b : Nat) (B : VowpalWabbitBase), W.m_model = some b →
            s.wrappers[b]? = some B →
            (∃ B1, t.wrappers[b]? = some B1 ∧
              B1.m_instanceCount = B.m_instanceCount - 1) ∧
            (0 < B.m_instanceCount - 1 → mid = []) ∧
            (B.m_instanceCount - 1 ≤ 0 → ∀ hb, B.m_vw = some hb →
              (⟨b, .finish hb⟩ : Event) ∈ mid) := by
          intro b B hm hB
          have hne : b ≠ w := Nat.ne_of_lt (ha w W b hW hm)
          obtain ⟨⟨B1, hB1, hc, _⟩, hpos, hfb⟩ := hbase b B hm (by rw [hBs b hne, hB])
          exact ⟨⟨B1, by rw [hoth b hne, hB1], hc⟩, hpos, hfb⟩
        rcases hfin with hfin | hfin
        · refine ⟨dr, mid, [⟨w, .release_parser_datastructures h⟩], by rw [hfin, hmtr, htr1],
            hdr, hmwho, Or.inr (Or.inl rfl), fun hok => ?_, fun _ => hfm, ?_⟩
          · rw [hunf, hd, Res.bind_ok, hr, Res.bind_ok] at hok
            have := (finishHandle_ok_live eng s2 t w h _ hW2 hv hok).1
            rw [hfin] at this
            have := List.append_cancel_left this
            simp at this
          intro b B hm hB
          obtain ⟨⟨B1, hB1, hc⟩, hpos, hfb⟩ := hbase2 b B hm hB
          exact ⟨⟨B1, hB1, Or.inl hc⟩, fun _ => ⟨hpos, hfb⟩⟩
        · refine ⟨dr, mid, [⟨w, .release_parser_datastructures h⟩, ⟨w, .finish h⟩],
            by rw [hfin, hmtr, htr1], hdr, hmwho, Or.inr (Or.inr rfl), fun _ => rfl,
            fun _ => hfm, ?_⟩
          intro b B hm hB
          obtain ⟨⟨B1, hB1, hc⟩, hpos, hfb⟩ := hbase2 b B hm hB
          exact ⟨⟨B1, hB1, Or.inl hc⟩, fun _ => ⟨hpos, hfb⟩⟩

theorem finishes_of_drain (evs : List Event)
    (h : ∀ ev ∈ evs, ev.call.isDrain = true) : finishes evs = [] := by
  induction evs with
  | nil => rfl
  | cons ev evs ih =>
    have h1 := h ev (List.mem_cons_self ev evs)
    have h2 := ih (fun x hx => h x (List.mem_cons_of_mem ev hx))
    simp only [finishes]
    cases hc : ev.call <;> rw [hc] at h1 <;> simp [Call.isDrain] at h1 <;> simp [h2]

/-! ## A dependent gives its base back -/

theorem seededState_wf : WF seededState := by
  refine ⟨?_, ?_, ?_, ?_, ?_, ?_, ?_, ?_⟩
  · intro w W b hW hb
    rcases w with _ | _ | w <;> simp [seededState] at hW <;> subst hW <;> simp at hb
    omega
  · intro e E i hE hi
    simp [seededState] at hE
  · intro w W exs hW hp
    rcases w with _ | _ | w <;> simp [seededState] at hW <;> subst hW <;> simp at hp <;>
      subst hp <;> simp
  · intro w v W V exs eys e hW hV hp hq he1 he2
    rcases w with _ | _ | w <;> simp [seededState] at hW <;> subst hW <;> simp at hp <;>
      subst hp <;> simp at he1
  · intro e he
    obtain ⟨w, W, exs, hW, hp, hm⟩ := he
    rcases w with _ | _ | w <;> simp [seededState] at hW <;> subst hW <;> simp at hp <;>
      subst hp <;> simp at hm
  · intro e x he hx n l hl
    obtain ⟨w, W, exs, hW, hp, hm⟩ := he
    rcases w with _ | _ | w <;> simp [seededState] at hW <;> subst hW <;> simp at hp <;>
      subst hp <;> simp at hm
  · intro w v W V h hW hV h1 h2
    rcases w with _ | _ | w <;> simp [seededState] at hW <;> subst hW <;> simp at h1 <;>
      subst h1 <;>
      (rcases v with _ | _ | v <;> simp [seededState] at hV <;> subst hV <;> simp at h2)
    all_goals rfl
  · intro w W h hW h1
    rcases w with _ | _ | w <;> simp [seededState] at hW <;> subst hW <;> simp at h1 <;>
      subst h1 <;> simp [seededState]

/-- A complete run on `baseState`: two wrappers are seeded from the base, then disposed in
the order 2, 1; the base is finished once, by the second disposal, before the dependent
that triggered it. -/
theorem two_dependents_run :
    (constructAll quietEngine baseState
        [{ VowpalWabbitSettings.fresh with Model := some 0 },
         { VowpalWabbitSettings.fresh with Model := some 0 }]).bind
      (fun s1 => disposeAll quietEngine 5 s1 [2, 1]) = .ok
      { wrappers := [{ m_examples := none, m_vw := none, m_model := none,
                       m_settings := VowpalWabbitSettings.fresh, m_instanceCount := 0 },
                     { m_examples := none, m_vw := none, m_model := none,
                       m_settings := { VowpalWabbitSettings.fresh with Model := some 0 },
                       m_instanceCount := 0 },
                     { m_examples := none, m_vw := none, m_model := none,
                       m_settings := { VowpalWabbitSettings.fresh with Model := some 0 },
                       m_instanceCount := 0 }]
        examples := [{ m_example := none, m_owner := none, InnerExample := none }]
        trace := [⟨1, .seed_vw_model 10 ""⟩, ⟨2, .seed_vw_model 10 ""⟩,
          ⟨2, .release_parser_datastructures 12⟩, ⟨2, .finish 12⟩,
          ⟨0, .dealloc_example 21 50 20 0⟩, ⟨0, .free_it 50⟩,
          ⟨0, .release_parser_datastructures 10⟩, ⟨0, .finish 10⟩,
          ⟨1, .release_parser_datastructures 11⟩, ⟨1, .finish 11⟩]
        nextHandle := 13 } := by
  decide

/-! ## What the teardown does to the pool -/

theorem poolOK_of_separate (es : List VowpalWabbitExample) (fuel : Nat) :
    ∀ (exs : List Nat), exs.Nodup → (∀ e ∈ exs, (bufOf es e).isSome = true) →
      (∀ e ∈ exs, ∃ l, chainNodes es fuel e = some l ∧ ∀ x ∈ exs, x ∉ l) →
      poolOK es fuel exs = true := by
  intro exs
  induction exs with
  | nil => intro _ _ _; rfl
  | cons e rest ih =>
    intro hnd hbuf hch
    have hb := hbuf e (List.mem_cons_self e rest)
    obtain ⟨l, hl, hsep⟩ := hch e (List.mem_cons_self e rest)
    have hrest := ih (List.nodup_cons.1 hnd).2
      (fun x hx => hbuf x (List.mem_cons_of_mem e hx))
      (fun x hx => by
        obtain ⟨l2, hl2, hs2⟩ := hch x (List.mem_cons_of_mem e hx)
        exact ⟨l2, hl2, fun y hy => hs2 y (List.mem_cons_of_mem e hy)⟩)
    simp only [poolOK, hb, hl, hrest, Bool.true_and, Bool.and_true, List.all_eq_true,
      Bool.and_eq_true, bne_iff_ne, ne_eq, Bool.not_eq_true', List.contains_eq_any_beq,
      List.any_eq_false, beq_iff_eq]
    intro x hx
    refine ⟨?_, ?_⟩
    · intro c
      subst c
      exact (List.nodup_cons.1 hnd).1 hx
    · intro y hy c
      subst c
      exact hsep x (List.mem_cons_of_mem e hx) hy

theorem isSome_of_map_eq (es : List VowpalWabbitExample) :
    ∀ (exs bufs : List Nat), exs.map (bufOf es) = bufs.map some →
      ∀ e ∈ exs, (bufOf es e).isSome = true := by
  intro exs
  induction exs with
  | nil => intro _ _ e he; simp at he
  | cons a rest ih =>
    intro bufs h e he
    cases bufs with
    | nil => simp at h
    | cons b bs =>
      simp only [List.map_cons, List.cons.injEq] at h
      rcases List.mem_cons.1 he with he | he
      · subst he; rw [h.1]; rfl
      · exact ih bs h.2 e he

theorem mem_zipWith_dealloc (w dl dp : Nat) (ev : Event) :
    ∀ (exs bufs : List Nat),
      ev ∈ List.zipWith (fun e buf => (⟨w, .dealloc_example dl buf dp e⟩ : Event)) exs bufs →
      ∃ e buf, e ∈ exs ∧ ev = ⟨w, .dealloc_example dl buf dp e⟩ := by
  intro exs
  induction exs with
  | nil => intro bufs h; simp at h
  | cons a rest ih =>
    intro bufs h
    cases bufs with
    | nil => simp at h
    | cons b bs =>
      simp only [List.zipWith_cons_cons, List.mem_cons] at h
      rcases h with h | h
      · exact ⟨a, b, List.mem_cons_self a rest, h⟩
      · obtain ⟨e, buf, he, hev⟩ := ih bs h
        exact ⟨e, buf, List.mem_cons_of_mem a he, hev⟩

/-- C4, as stated, fails.  In each of the four heaps every pooled example has a buffer and
a chain that ends.  (1) Example 0 is pooled and is also the inner node of pooled example
1, pool order 1, 0: the teardown clears the buffer pointer of example 0 while walking the
chain of example 1 and then dereferences that null pointer when it reaches example 0, so
no `dealloc_example` is called for the pooled example 0.  (2) The same with pool order
0, 1: the teardown returns and has called `dealloc_example` for example 0, a chained inner
node of example 1.  (3) The pool holds example 0 twice: the second visit dereferences the
null buffer pointer.  (4) `dealloc_example` raises: the teardown ends with the pool
container emptied but not null and with the buffer and owner of the pooled example and of
its chain nodes still set. -/
theorem pooled_inner_node_breaks_drain :
    (∀ e ∈ [1, 0], (bufOf overlappingPoolState.examples e).isSome = true ∧
      (chainNodes overlappingPoolState.examples 5 e).isSome = true) ∧
    InternalDispose quietEngine 6 overlappingPoolState 0 = .fault ∧
    drainExamples quietEngine 5 0 15 14 overlappingPoolState [1] = .ok
      { overlappingPoolState with
        examples := [{ m_example := none, m_owner := none, InnerExample := none },
                     { m_example := none, m_owner := none, InnerExample := some 0 }]
        trace := [⟨0, .dealloc_example 15 51 14 1⟩, ⟨0, .free_it 51⟩] } ∧
    (∀ e ∈ [0, 1], (bufOf innerFirstPoolState.examples e).isSome = true ∧
      (chainNodes innerFirstPoolState.examples 5 e).isSome = true) ∧
    chainNodes innerFirstPoolState.examples 5 1 = some [0] ∧
    InternalDispose quietEngine 6 innerFirstPoolState 0 = .ok
      { wrappers := [{ m_examples := none, m_vw := none, m_model := none,
                       m_settings := VowpalWabbitSettings.fresh, m_instanceCount := 0 }]
        examples := [{ m_example := none, m_owner := none, InnerExample := none },
                     { m_example := none, m_owner := none, InnerExample := some 0 }]
        trace := [⟨0, .dealloc_example 15 50 14 0⟩, ⟨0, .free_it 50⟩,
          ⟨0, .dealloc_example 15 51 14 1⟩, ⟨0, .free_it 51⟩,
          ⟨0, .release_parser_datastructures 7⟩, ⟨0, .finish 7⟩]
        nextHandle := 8 } ∧
    (∀ e ∈ [0, 0], (bufOf duplicatePoolState.examples e).isSome = true ∧
      (chainNodes duplicatePoolState.examples 5 e).isSome = true) ∧
    InternalDispose quietEngine 6 duplicatePoolState 0 = .fault ∧
    (∀ e ∈ [2], (bufOf pooledState.examples e).isSome = true ∧
      (chainNodes pooledState.examples 5 e).isSome = true) ∧
    InternalDispose deallocFailsEngine 6 pooledState 0 = .raised .VowpalWabbitException
      { pooledState with
        wrappers := [{ m_examples := some [], m_vw := some 7, m_model := none,
                       m_settings := VowpalWabbitSettings.fresh, m_instanceCount := 0 }]
        trace := [⟨0, .dealloc_example 15 50 14 2⟩] } := by
  decide

/-- C4, amended: a wrapper `w` with live handle `h` on a heap with acyclic base references,
whose pool `exs` holds no example twice and only examples that have a buffer and a chain
that ends and on which no pooled example lies, with the calls of the drain returning.
Then the drain phase of `InternalDispose` completes, the teardown continues from the
drained state, and in every state the teardown ends in (returning or raising) the pool
container is null, every pooled example and every node of its chain has buffer and owner
null, the `dealloc_example` calls issued by `w` are exactly one per pooled example, in
pool order, for that example and on its buffer, with the deallocators read from the
handle on entry, and no `dealloc_example` call of `w` is for a node on the chain of a
pooled example.  On a well-formed heap with all calls returning and enough fuel the
teardown does return. -/
theorem teardown_drains_pool (eng : Engine) (fuel : Nat) (s : State) (w : Nat)
    (W : VowpalWabbitBase) (h : Nat) (exs bufs : List Nat)
    (hW : s.wrappers[w]? = some W) (hvw : W.m_vw = some h) (hpool : W.m_examples = some exs)
    (hbufs : exs.map (bufOf s.examples) = bufs.map some)
    (hnd : exs.Nodup)
    (hch : ∀ e ∈ exs, ∃ l, chainNodes s.examples fuel e = some l ∧ ∀ x ∈ exs, x ∉ l)
    (hq : ∀ t c, c.isDrain = true → eng.raises t ⟨w, c⟩ = false)
    (ha : Acyclic s) :
    drainPool eng fuel s w h = .ok (drained eng s w W fuel h exs) ∧
    InternalDispose eng (fuel + 1) s w =
      ((releaseModel (InternalDispose eng fuel) (drained eng s w W fuel h exs) w).bind
        fun s2 => finishHandle eng s2 w) ∧
    (∀ t, (InternalDispose eng (fuel + 1) s w).state? = some t →
      (∃ Y, t.wrappers[w]? = some Y ∧ Y.m_examples = none) ∧
      (∀ e ∈ exs, ∀ l, chainNodes s.examples fuel e = some l → ∀ x ∈ e :: l,
        ∃ F, t.examples[x]? = some F ∧ F.m_example = none ∧ F.m_owner = none) ∧
      ∃ evs, t.trace = s.trace ++ evs ∧
        evs.filter (fun ev => ev.who == w && ev.call.isDealloc) =
          List.zipWith (fun e buf => ⟨w, .dealloc_example (eng.delete_label s.trace h) buf
            (eng.delete_prediction s.trace h) e⟩) exs bufs ∧
        ∀ ev ∈ evs, ev.who = w → ∀ x, ev.call.deallocOf = some x →
          x ∈ exs ∧ ∀ e ∈ exs, ∀ l, chainNodes s.examples fuel e = some l → x ∉ l) ∧
    ((∀ t e, eng.raises t e = false) → WF s → w + s.examples.length ≤ fuel →
      ∃ t, InternalDispose eng (fuel + 1) s w = .ok t) := by
  have hlt : w < s.wrappers.length := (List.getElem?_eq_some_iff.1 hW).1
  have hok : poolOK s.examples fuel exs = true :=
    poolOK_of_separate s.examples fuel exs hnd (isSome_of_map_eq s.examples exs bufs hbufs) hch
  have hdrain := drainPool_eq eng fuel s w W h exs hW hpool hok hq
  have hID : InternalDispose eng (fuel + 1) s w =
      ((releaseModel (InternalDispose eng fuel) (drained eng s w W fuel h exs) w).bind
        fun s2 => finishHandle eng s2 w) := by
    simp only [InternalDispose, hW, hvw, hdrain, Res.bind_ok]
  refine ⟨hdrain, hID, ?_, ?_⟩
  swap
  · intro hall hwf hfuel
    obtain ⟨t, _, ht, _⟩ := teardown_total eng hall (fuel + 1) s w W hwf hW (by omega)
    exact ⟨t, ht⟩
  intro t ht
  rw [hID] at ht
  have hev1 : Evolves s (drained eng s w W fuel h exs) :=
    (drainPool_rel eng fuel w s h _ (by rw [hdrain]; rfl)).1
  have ha1 : Acyclic (drained eng s w W fuel h exs) := Acyclic.of_evolves hev1 ha
  have hrel : Rel w (drained eng s w W fuel h exs) t :=
    Res.All.bind_rel (releaseModel_rel _ w _ (fun b s2 => InternalDispose_rel eng fuel b s2))
      (fun s2 _ => finishHandle_rel eng w s2) t ht
  have hnd2 : NoDeallocBy w (drained eng s w W fuel h exs) t :=
    Res.All.bind_noDealloc (releaseModel_noDealloc eng fuel w _ ha1)
      (fun s2 => finishHandle_noDealloc eng w s2) t ht
  refine ⟨?_, ?_, ?_⟩
  · have hw1 : (drained eng s w W fuel h exs).wrappers[w]? =
        some { W with m_examples := none } := by
      simp [drained, hlt]
    obtain ⟨Y, hY, hsh⟩ := hrel.1.wr w _ hw1
    exact ⟨Y, hY, hsh.2.2.1 rfl⟩
  · intro e he l hl x hx
    have hmem := mem_drainNodes s.examples fuel exs e he l hl x hx
    obtain ⟨X, hX⟩ : ∃ X, s.examples[x]? = some X := by
      rcases List.mem_cons.1 hx with hx | hx
      · subst hx; exact chainNodes_head_valid s.examples fuel x l hl
      · exact chainNodes_valid s.examples fuel e l hl x hx
    have hx1 : (drained eng s w W fuel h exs).examples[x]? = some (clearFields X) := by
      simp [drained, nullAllEx_get, hmem, hX]
    obtain ⟨F, hF, hsh⟩ := hrel.1.ex x _ hx1
    exact ⟨F, hF, hsh.2.1 rfl, hsh.2.2 rfl⟩
  · obtain ⟨evs2, htr, hno⟩ := hnd2
    have hfil : (drainEvents s.examples w (eng.delete_label s.trace h)
        (eng.delete_prediction s.trace h) exs ++ evs2).filter
          (fun ev => ev.who == w && ev.call.isDealloc) =
        List.zipWith (fun e buf => ⟨w, .dealloc_example (eng.delete_label s.trace h) buf
          (eng.delete_prediction s.trace h) e⟩) exs bufs := by
      rw [List.filter_append, drainEvents_filter s.examples w _ _ exs bufs hbufs]
      have : evs2.filter (fun ev => ev.who == w && ev.call.isDealloc) = [] := by
        rw [List.filter_eq_nil_iff]
        intro ev hev
        by_cases hw : ev.who = w
        · simp [hno ev hev hw]
        · simp [hw]
      rw [this, List.append_nil]
    refine ⟨drainEvents s.examples w (eng.delete_label s.trace h)
      (eng.delete_prediction s.trace h) exs ++ evs2, ?_, hfil, ?_⟩
    · rw [htr]; simp [drained]
    · intro ev hev hwho x hx
      have hde : ev.call.isDealloc = true := by
        cases hcall : ev.call <;> rw [hcall] at hx <;> simp [Call.deallocOf] at hx
        rfl
      have hin : ev ∈ (drainEvents s.examples w (eng.delete_label s.trace h)
          (eng.delete_prediction s.trace h) exs ++ evs2).filter
            (fun ev => ev.who == w && ev.call.isDealloc) := by
        rw [List.mem_filter]
        exact ⟨hev, by simp [hwho, hde]⟩
      rw [hfil] at hin
      obtain ⟨e, buf, he, hevq⟩ := mem_zipWith_dealloc w _ _ ev exs bufs hin
      rw [hevq] at hx
      simp only [Call.deallocOf, Option.some.injEq] at hx
      subst hx
      refine ⟨he, ?_⟩
      intro e2 he2 l hl
      obtain ⟨l2, hl2, hs2⟩ := hch e2 he2
      rw [hl] at hl2
      simp only [Option.some.injEq] at hl2
      subst hl2
      exact hs2 e he

theorem teardown_drains_pool_witness :
    InternalDispose quietEngine 6 pooledState 0 = .ok
      { wrappers := [{ m_examples := none, m_vw := none, m_model := none,
                       m_settings := VowpalWabbitSettings.fresh, m_instanceCount := 0 }]
        examples := [{ m_example := none, m_owner := none, InnerExample := none },
                     { m_example := none, m_owner := none, InnerExample := some 0 },
                     { m_example := none, m_owner := none, InnerExample := some 1 }]
        trace := [⟨0, .dealloc_example 15 50 14 2⟩, ⟨0, .free_it 50⟩,
          ⟨0, .release_parser_datastructures 7⟩, ⟨0, .finish 7⟩]
        nextHandle := 8 } ∧
    drainPool quietEngine 5 pooledState 0 7 = .ok (drained quietEngine pooledState 0
      { m_examples := some [2], m_vw := some 7, m_model := none,
        m_settings := VowpalWabbitSettings.fresh, m_instanceCount := 0 } 5 7 [2]) :=
  ⟨by decide,
   (teardown_drains_pool quietEngine 5 pooledState 0 _ 7 [2] [50] rfl rfl rfl (by decide)
    (by decide)
    (by
      intro e he
      simp only [List.mem_singleton] at he
      subst he
      exact ⟨[1, 0], by decide, by decide⟩)
    (fun _ _ _ => rfl)
    (by
      intro w W b hW hb
      rcases w with _ | w
      · simp [pooledState] at hW
        subst hW
        simp at hb
      · simp [pooledState] at hW)).1⟩


/-! ## N dependents of one base, disposed in any order -/

theorem construct_seed_ok (eng : Engine) (hq : ∀ t e, eng.raises t e = false) (s : State)
    (b hb : Nat) (B : VowpalWabbitBase) (st : VowpalWabbitSettings)
    (hB : s.wrappers[b]? = some B) (hv : B.m_vw = some hb) (hM : st.Model = some b) :
    construct eng s (some st) = (s.wrappers.length, .ok (seededFrom s b B hb st)) := by
  have hlt : b < s.wrappers.length := (List.getElem?_eq_some_iff.1 hB).1
  have hget : ∀ x : VowpalWabbitBase, (s.wrappers ++ [x])[b]? = some B := by
    intro x
    rw [List.getElem?_append_left hlt]; exact hB
  simp only [construct, hM, Option.getD_some, updW_append_new, hget, hv, callNative, hq,
    Bool.false_eq_true, if_false, Res.bind_ok, IncrementReference, Res.onRaise, seededFrom,
    dependentOf]
  rw [updW_of_get _ b _ B (hget _)]
  simp [List.set_append_left, hlt, hv]

theorem seededFrom_get (s : State) (b hb : Nat) (B : VowpalWabbitBase)
    (st : VowpalWabbitSettings) (hB : s.wrappers[b]? = some B) (x : Nat) :
    (seededFrom s b B hb st).wrappers[x]? =
      if x = s.wrappers.length then some (dependentOf s b st)
      else if x = b then some { B with m_instanceCount := B.m_instanceCount + 1 }
      else s.wrappers[x]? := by
  have hlt : b < s.wrappers.length := (List.getElem?_eq_some_iff.1 hB).1
  simp only [seededFrom]
  by_cases hx : x = s.wrappers.length
  · subst hx
    simp
  · simp only [hx, if_false]
    by_cases hxl : x < s.wrappers.length
    · rw [List.getElem?_append_left (by simpa using hxl)]
      by_cases hxb : x = b
      · subst hxb; simp [hxl]
      · have : b ≠ x := fun c => hxb c.symm
        simp [hxb, List.getElem?_set_ne this]
    · have h1 : ∀ (l : List VowpalWabbitBase) (D : VowpalWabbitBase),
          l.length = s.wrappers.length → (l ++ [D])[x]? = none := by
        intro l D hl
        rw [List.getElem?_eq_none_iff]
        simp only [List.length_append, List.length_singleton]
        omega
      have h2 : s.wrappers[x]? = none := by
        rw [List.getElem?_eq_none_iff]; omega
      have hxb : x ≠ b := by omega
      rw [h1 _ _ (by simp)]
      simp [hxb, h2]

theorem seededFrom_inv (s : State) (b hb : Nat) (B : VowpalWabbitBase)
    (st : VowpalWabbitSettings) (hB : s.wrappers[b]? = some B) (x : Nat) (Y : VowpalWabbitBase)
    (hY : (seededFrom s b B hb st).wrappers[x]? = some Y) :
    (x = s.wrappers.length ∧ Y = dependentOf s b st) ∨
    (x < s.wrappers.length ∧ ∃ X, s.wrappers[x]? = some X ∧ Y.m_vw = X.m_vw ∧
      Y.m_model = X.m_model ∧ Y.m_examples = X.m_examples) := by
  rw [seededFrom_get s b hb B st hB] at hY
  by_cases hx : x = s.wrappers.length
  · simp only [hx, if_true, Option.some.injEq] at hY
    exact Or.inl ⟨hx, hY.symm⟩
  · simp only [hx, if_false] at hY
    right
    by_cases hxb : x = b
    · subst hxb
      simp only [if_true, Option.some.injEq] at hY
      subst hY
      exact ⟨(List.getElem?_eq_some_iff.1 hB).1, B, hB, rfl, rfl, rfl⟩
    · simp only [hxb, if_false] at hY
      exact ⟨(List.getElem?_eq_some_iff.1 hY).1, Y, hY, rfl, rfl, rfl⟩

theorem seededFrom_wf (s : State) (b hb : Nat) (B : VowpalWabbitBase)
    (st : VowpalWabbitSettings) (hwf : WF s) (hB : s.wrappers[b]? = some B) :
    WF (seededFrom s b B hb st) := by
  have hbl : b < s.wrappers.length := (List.getElem?_eq_some_iff.1 hB).1
  have hpool : ∀ e, InPool (seededFrom s b B hb st) e → InPool s e := by
    intro e he
    obtain ⟨w, Y, exs, hY, hp, hm⟩ := he
    rcases seededFrom_inv s b hb B st hB w Y hY with ⟨_, h2⟩ | ⟨_, X, hX, _, _, h3⟩
    · subst h2
      simp only [dependentOf, Option.some.injEq] at hp
      subst hp
      simp at hm
    · exact ⟨w, X, exs, hX, by rw [← h3]; exact hp, hm⟩
  refine ⟨?_, ?_, ?_, ?_, ?_, ?_, ?_, ?_⟩
  · intro w Y c hY hc
    rcases seededFrom_inv s b hb B st hB w Y hY with ⟨h1, h2⟩ | ⟨_, X, hX, _, h3, _⟩
    · subst h2
      simp only [dependentOf, Option.some.injEq] at hc
      omega
    · exact hwf.model_lt w X c hX (by rw [← h3]; exact hc)
  · exact hwf.inner_lt
  · intro w Y exs hY hp
    rcases seededFrom_inv s b hb B st hB w Y hY with ⟨_, h2⟩ | ⟨_, X, hX, _, _, h3⟩
    · subst h2
      simp only [dependentOf, Option.some.injEq] at hp
      subst hp
      exact List.nodup_nil
    · exact hwf.pool_nodup w X exs hX (by rw [← h3]; exact hp)
  · intro w v Y Z exs eys e hY hZ hp hq he1 he2
    rcases seededFrom_inv s b hb B st hB w Y hY with ⟨_, h2⟩ | ⟨_, X1, hX1, _, _, h3⟩
    · subst h2
      simp only [dependentOf, Option.some.injEq] at hp
      subst hp
      simp at he1
    · rcases seededFrom_inv s b hb B st hB v Z hZ with ⟨_, h2⟩ | ⟨_, X2, hX2, _, _, h4⟩
      · subst h2
        simp only [dependentOf, Option.some.injEq] at hq
        subst hq
        simp at he2
      · exact hwf.pool_disjoint w v X1 X2 exs eys e hX1 hX2 (by rw [← h3]; exact hp)
          (by rw [← h4]; exact hq) he1 he2
  · intro e he
    exact hwf.pool_buf e (hpool e he)
  · intro e x he hx
    exact hwf.pool_head e x (hpool e he) (hpool x hx)
  · intro w v Y Z h hY hZ h1 h2
    rcases seededFrom_inv s b hb B st hB w Y hY with ⟨hw, hYd⟩ | ⟨hw, X1, hX1, h3, _, _⟩
    · rcases seededFrom_inv s b hb B st hB v Z hZ with ⟨hv, _⟩ | ⟨_, X2, hX2, h4, _, _⟩
      · omega
      · subst hYd
        simp only [dependentOf, Option.some.injEq] at h1
        have := hwf.handle_lt v X2 h hX2 (by rw [← h4]; exact h2)
        omega
    · rcases seededFrom_inv s b hb B st hB v Z hZ with ⟨hv, hZd⟩ | ⟨_, X2, hX2, h4, _, _⟩
      · subst hZd
        simp only [dependentOf, Option.some.injEq] at h2
        have := hwf.handle_lt w X1 h hX1 (by rw [← h3]; exact h1)
        omega
      · exact hwf.handle_inj w v X1 X2 h hX1 hX2 (by rw [← h3]; exact h1)
          (by rw [← h4]; exact h2)
  · intro w Y h hY h1
    show h < s.nextHandle + 1
    rcases seededFrom_inv s b hb B st hB w Y hY with ⟨_, hYd⟩ | ⟨_, X, hX, h3, _, _⟩
    · subst hYd
      simp only [dependentOf, Option.some.injEq] at h1
      omega
    · have := hwf.handle_lt w X h hX (by rw [← h3]; exact h1)
      omega

theorem finishes_concat_seed (tr : List Event) (w hb : Nat) (args : String) :
    finishes (tr ++ [⟨w, .seed_vw_model hb args⟩]) = finishes tr := by
  rw [finishes_append]; simp [finishes]

theorem Dep_seededFrom (s : State) (b hb : Nat) (B : VowpalWabbitBase)
    (st : VowpalWabbitSettings) (hwf : WF s) (hB : s.wrappers[b]? = some B) (d : Nat)
    (hd : Dep s b d) : Dep (seededFrom s b B hb st) b d := by
  obtain ⟨D, h, hD, hDv, hDm, hDc⟩ := hd
  have hdl : d < s.wrappers.length := (List.getElem?_eq_some_iff.1 hD).1
  have hbd : b < d := hwf.model_lt d D b hD hDm
  refine ⟨D, h, ?_, hDv, hDm, hDc⟩
  rw [seededFrom_get s b hb B st hB]
  have h1 : d ≠ s.wrappers.length := by omega
  have h2 : d ≠ b := by omega
  simp [h1, h2, hD]

/-- Seeding wrappers one after the other from a live base on a well-formed heap. -/
theorem constructAll_seed (eng : Engine) (hq : ∀ t e, eng.raises t e = false) (b hb : Nat) :
    ∀ (sts : List VowpalWabbitSettings) (s : State) (B : VowpalWabbitBase), WF s →
      s.wrappers[b]? = some B → B.m_vw = some hb → (∀ st ∈ sts, st.Model = some b) →
      ∃ s1, constructAll eng s sts = .ok s1 ∧ WF s1 ∧
        s1.wrappers.length = s.wrappers.length + sts.length ∧
        s1.examples.length = s.examples.length ∧
        (∃ B1, s1.wrappers[b]? = some B1 ∧ B1.m_vw = some hb ∧
          B1.m_instanceCount = B.m_instanceCount + sts.length) ∧
        (∀ d, s.wrappers.length ≤ d → d < s.wrappers.length + sts.length → Dep s1 b d) ∧
        (∀ d, Dep s b d → Dep s1 b d) ∧
        finishes s1.trace = finishes s.trace := by
  intro sts
  induction sts with
  | nil =>
    intro s B hwf hB hv _
    refine ⟨s, rfl, hwf, by simp, rfl, ⟨B, hB, hv, by simp⟩, ?_, fun _ h => h, rfl⟩
    intro d h1 h2
    simp at h2
    omega
  | cons st rest ih =>
    intro s B hwf hB hv hM
    have hbl : b < s.wrappers.length := (List.getElem?_eq_some_iff.1 hB).1
    have hc := construct_seed_ok eng hq s b hb B st hB hv (hM st (List.mem_cons_self st rest))
    have hwf1 := seededFrom_wf s b hb B st hwf hB
    have hB1 : (seededFrom s b B hb st).wrappers[b]? =
        some { B with m_instanceCount := B.m_instanceCount + 1 } := by
      rw [seededFrom_get s b hb B st hB]
      have : b ≠ s.wrappers.length := by omega
      simp [this]
    obtain ⟨s1, hs1, wf1, hlen, helen, ⟨B1, hB1', hB1v, hB1c⟩, hnew, hold, hfin⟩ :=
      ih (seededFrom s b B hb st) _ hwf1 hB1 hv
        (fun x hx => hM x (List.mem_cons_of_mem st hx))
    have hl1 : (seededFrom s b B hb st).wrappers.length = s.wrappers.length + 1 := by
      simp [seededFrom]
    refine ⟨s1, ?_, wf1, ?_, ?_, ⟨B1, hB1', hB1v, ?_⟩, ?_, ?_, ?_⟩
    · simp only [constructAll, hc, Res.bind_ok]
      exact hs1
    · rw [hlen, hl1]; simp; omega
    · rw [helen]; rfl
    · rw [hB1c]
      simp only [List.length_cons]
      push_cast
      ring
    · intro d h1 h2
      simp only [List.length_cons] at h2
      by_cases hd : d = s.wrappers.length
      · apply hold
        refine ⟨dependentOf s b st, s.nextHandle, ?_, rfl, rfl, by simp [dependentOf]⟩
        rw [seededFrom_get s b hb B st hB]
        simp [hd]
      · apply hnew
        · rw [hl1]; omega
        · rw [hl1]; omega
    · intro d hd
      exact hold d (Dep_seededFrom s b hb B st hwf hB d hd)
    · rw [hfin]
      exact finishes_concat_seed s.trace _ hb _

theorem count_finishes_append (a b : List Event) (h : Nat) :
    (finishes (a ++ b)).count h = (finishes a).count h + (finishes b).count h := by
  rw [finishes_append, List.count_append]

/-- Disposing the dependents of a base one after the other: the base stays live, its count
going down by one each time, until the last disposal, which finishes it once. -/
theorem disposeAll_deps (eng : Engine) (hq : ∀ t e, eng.raises t e = false)
    (fuel b hb : Nat) :
    ∀ (rem : List Nat) (s : State) (Bs : VowpalWabbitBase), WF s →
      s.wrappers[b]? = some Bs → Bs.m_vw = some hb → Bs.m_instanceCount = rem.length →
      rem.Nodup → (∀ d ∈ rem, Dep s b d) → (∀ d ∈ rem, d + s.examples.length + 1 ≤ fuel) →
      (∀ k, k < rem.length → ∃ sk, disposeAll eng fuel s (rem.take k) = .ok sk ∧
        handleOf sk b = some hb ∧
        (sk.wrappers[b]?).map (·.m_instanceCount) = some ((rem.length : Int) - k) ∧
        (finishes sk.trace).count hb = (finishes s.trace).count hb) ∧
      (rem ≠ [] → ∃ sN, disposeAll eng fuel s rem = .ok sN ∧ handleOf sN b = none ∧
        (sN.wrappers[b]?).map (·.m_instanceCount) = some 0 ∧
        (finishes sN.trace).count hb = (finishes s.trace).count hb + 1) := by
  intro rem
  induction rem with
  | nil =>
    intro s Bs _ _ _ _ _ _ _
    exact ⟨fun k hk => by simp at hk, fun h => absurd rfl h⟩
  | cons d rest ih =>
    intro s Bs hwf hB hBv hBc hnd hdep hfuel
    obtain ⟨D, hd, hD, hDv, hDm, hDc⟩ := hdep d (List.mem_cons_self d rest)
    have hbd : b < d := hwf.model_lt d D b hD hDm
    obtain ⟨t, evs, hID, td⟩ := teardown_total eng hq fuel s d D hwf hD
      (hfuel d (List.mem_cons_self d rest))
    have hdisp : Dispose eng fuel s d = .ok t := by
      rw [Dispose_live eng fuel s d D hD hDc]; exact hID
    have hev : Evolves s t := (InternalDispose_rel eng fuel d s t (by rw [hID]; rfl)).1
    have hs0 : handleOf s b = some hb := by simp [handleOf, hB, hBv]
    have hk0 : ∃ sk, disposeAll eng fuel s (List.take 0 (d :: rest)) = .ok sk ∧
        handleOf sk b = some hb ∧
        (sk.wrappers[b]?).map (·.m_instanceCount) = some (((d :: rest).length : Int) - (0 : Nat)) ∧
        (finishes sk.trace).count hb = (finishes s.trace).count hb :=
      ⟨s, rfl, hs0, by simp [hB, hBc], rfl⟩
    by_cases hre : rest = []
    · subst hre
      have hone : Bs.m_instanceCount - 1 ≤ 0 := by rw [hBc]; simp
      refine ⟨?_, fun _ => ?_⟩
      · intro k hk
        have : k = 0 := by simpa using hk
        subst this
        exact hk0
      · obtain ⟨pre, hpre, hbase⟩ := td.last hd hDv
        have hmem : (⟨b, .finish hb⟩ : Event) ∈ evs := by
          rw [hpre]
          exact List.mem_append_left _ (hbase b Bs hb hDm hB hone hBv)
        obtain ⟨evs2, ht2, hf2⟩ := hev.tr
        have hev2 : evs2 = evs := by
          rw [td.tr] at ht2
          exact (List.append_cancel_left ht2).symm
        subst hev2
        obtain ⟨B1, hB1, hB1c⟩ := td.base_cnt hd b Bs hDv hDm hB
        refine ⟨t, by simp [disposeAll, hdisp], hf2 b hb hmem, ?_, ?_⟩
        · rw [hB1]
          simp only [Option.map_some', Option.some.injEq]
          rw [hB1c, hBc]
          simp
        · rw [td.tr, count_finishes_append]
          rw [List.count_eq_one_of_mem td.fin_nodup (mem_finishes_of_mem evs2 b hb hmem)]
    · have hlenpos : 0 < rest.length := List.length_pos.2 hre
      have hpos : 0 < Bs.m_instanceCount - 1 := by
        rw [hBc]
        simp only [List.length_cons]
        push_cast
        omega
      obtain ⟨htb, hothers, hfinq, _⟩ := td.base_kept hd b Bs hDv hDm hB hpos
      have hne : hb ≠ hd := by
        intro c
        subst c
        have := hwf.handle_inj d b D Bs hb hD hB hDv hBv
        omega
      have hcnt0 : (finishes evs).count hb = 0 := by
        rw [hfinq]
        exact List.count_eq_zero_of_not_mem (by simpa using hne)
      have hft : (finishes t.trace).count hb = (finishes s.trace).count hb := by
        rw [td.tr, count_finishes_append, hcnt0]
        rfl
      have hnd2 := List.nodup_cons.1 hnd
      have hdep2 : ∀ x ∈ rest, Dep t b x := by
        intro x hx
        obtain ⟨X, hxh, hX, hXv, hXm, hXc⟩ := hdep x (List.mem_cons_of_mem d hx)
        have hbx : b < x := hwf.model_lt x X b hX hXm
        have hxd : x ≠ d := by
          intro c
          subst c
          exact hnd2.1 hx
        exact ⟨X, hxh, by rw [hothers x hxd (by omega)]; exact hX, hXv, hXm, hXc⟩
      have hfuel2 : ∀ x ∈ rest, x + t.examples.length + 1 ≤ fuel := by
        intro x hx
        rw [hev.elen]
        exact hfuel x (List.mem_cons_of_mem d hx)
      obtain ⟨ih1, ih2⟩ := ih t { Bs with m_instanceCount := Bs.m_instanceCount - 1 } td.wf
        htb hBv
        (by
          show Bs.m_instanceCount - 1 = _
          rw [hBc]
          simp only [List.length_cons]
          push_cast
          ring)
        hnd2.2 hdep2 hfuel2
      refine ⟨?_, fun _ => ?_⟩
      · intro k hk
        cases k with
        | zero => exact hk0
        | succ k =>
          obtain ⟨sk, hsk, hh, hc, hf⟩ := ih1 k (by simpa using hk)
          refine ⟨sk, ?_, hh, ?_, by rw [hf, hft]⟩
          · simp only [List.take_succ_cons, disposeAll, hdisp, Res.bind_ok]
            exact hsk
          · rw [hc]
            simp only [List.length_cons, Option.some.injEq]
            push_cast
            ring
      · obtain ⟨sN, hsN, hh, hc, hf⟩ := ih2 hre
        refine ⟨sN, ?_, hh, hc, by rw [hf, hft]⟩
        simp only [disposeAll, hdisp, Res.bind_ok]
        exact hsN

theorem baseState_wf : WF baseState := by
  refine ⟨?_, ?_, ?_, ?_, ?_, ?_, ?_, ?_⟩
  · intro w W b hW hb
    rcases w with _ | w <;> simp [baseState] at hW
    subst hW
    simp at hb
  · intro e E i hE hi
    rcases e with _ | e <;> simp [baseState] at hE
    subst hE
    simp at hi
  · intro w W exs hW hp
    rcases w with _ | w <;> simp [baseState] at hW
    subst hW
    simp at hp
    subst hp
    simp
  · intro w v W V exs eys e hW hV _ _ _ _
    rcases w with _ | w <;> simp [baseState] at hW
    rcases v with _ | v <;> simp [baseState] at hV
    rfl
  · intro e he
    obtain ⟨w, W, exs, hW, hp, hm⟩ := he
    rcases w with _ | w <;> simp [baseState] at hW
    subst hW
    simp at hp
    subst hp
    simp at hm
    subst hm
    rfl
  · intro e x he hx n l hl
    obtain ⟨w, W, exs, hW, hp, hm⟩ := he
    rcases w with _ | w <;> simp [baseState] at hW
    subst hW
    simp at hp
    subst hp
    simp at hm
    subst hm
    rcases n with _ | n <;> simp [chainNodes, baseState] at hl
    subst hl
    simp
  · intro w v W V h hW hV _ _
    rcases w with _ | w <;> simp [baseState] at hW
    rcases v with _ | v <;> simp [baseState] at hV
    rfl
  · intro w W h hW h1
    rcases w with _ | w <;> simp [baseState] at hW
    subst hW
    simp at h1
    subst h1
    simp [baseState]

/-- C1: on a well-formed heap with all calls returning, let `b` be a wrapper with live
handle `hb` and count 0, and let wrappers be seeded from it with the settings `sts`
(at least one).  All constructions return, each new wrapper is a live dependent of `b`, and
for every order in which the new wrappers are then disposed, each once: after the first
`k` disposals (`k` less than their number) all have returned, `b` still holds `hb`, its
count is the number of dependents left, and `finish hb` has been called as often as
before the run; after the last disposal, which takes the count from 1 to 0, `b` has a
null handle and `finish hb` has been called exactly once more. -/
theorem base_finished_exactly_once (eng : Engine) (hq : ∀ t e, eng.raises t e = false)
    (s0 : State) (b hb : Nat) (B : VowpalWabbitBase) (sts : List VowpalWabbitSettings)
    (fuel : Nat) (hwf : WF s0) (hB : s0.wrappers[b]? = some B) (hv : B.m_vw = some hb)
    (hc : B.m_instanceCount = 0) (hne : sts ≠ []) (hM : ∀ st ∈ sts, st.Model = some b)
    (hfuel : s0.wrappers.length + sts.length + s0.examples.length ≤ fuel) :
    ∃ s1, constructAll eng s0 sts = .ok s1 ∧
      (∀ d ∈ List.range' s0.wrappers.length sts.length, Dep s1 b d) ∧
      handleOf s1 b = some hb ∧
      (s1.wrappers[b]?).map (·.m_instanceCount) = some (sts.length : Int) ∧
      ∀ order : List Nat, order.Perm (List.range' s0.wrappers.length sts.length) →
        (∀ k, k < sts.length → ∃ sk, disposeAll eng fuel s1 (order.take k) = .ok sk ∧
          handleOf sk b = some hb ∧
          (sk.wrappers[b]?).map (·.m_instanceCount) = some ((sts.length : Int) - k) ∧
          (finishes sk.trace).count hb = (finishes s0.trace).count hb) ∧
        ∃ sN, disposeAll eng fuel s1 order = .ok sN ∧ handleOf sN b = none ∧
          (sN.wrappers[b]?).map (·.m_instanceCount) = some 0 ∧
          (finishes sN.trace).count hb = (finishes s0.trace).count hb + 1 := by
  obtain ⟨s1, hs1, wf1, hlen, helen, ⟨B1, hB1, hB1v, hB1c⟩, hnew, _, hfin⟩ :=
    constructAll_seed eng hq b hb sts s0 B hwf hB hv hM
  have hdeps : ∀ d ∈ List.range' s0.wrappers.length sts.length, Dep s1 b d := by
    intro d hd
    rw [List.mem_range'_1] at hd
    exact hnew d hd.1 hd.2
  refine ⟨s1, hs1, hdeps, by simp [handleOf, hB1, hB1v], by simp [hB1, hB1c, hc], ?_⟩
  intro order hperm
  have hol : order.length = sts.length := by
    rw [hperm.length_eq]; simp
  have hond : order.Nodup := hperm.nodup_iff.2 (List.nodup_range' _ _)
  have hmem : ∀ d ∈ order, d ∈ List.range' s0.wrappers.length sts.length :=
    fun d hd => hperm.mem_iff.1 hd
  obtain ⟨h1, h2⟩ := disposeAll_deps eng hq fuel b hb order s1 B1 wf1 hB1 hB1v
    (by rw [hB1c, hc, hol]; simp) hond (fun d hd => hdeps d (hmem d hd))
    (by
      intro d hd
      have := hmem d hd
      rw [List.mem_range'_1] at this
      rw [helen]
      omega)
  have hone : order ≠ [] := by
    intro c
    rw [c] at hol
    exact hne (List.length_eq_zero.1 hol.symm)
  refine ⟨?_, ?_⟩
  · intro k hk
    obtain ⟨sk, hsk, hh, hcnt, hf⟩ := h1 k (by rw [hol]; exact hk)
    exact ⟨sk, hsk, hh, by rw [hcnt, hol], by rw [hf, hfin]⟩
  · obtain ⟨sN, hsN, hh, hcnt, hf⟩ := h2 hone
    exact ⟨sN, hsN, hh, hcnt, by rw [hf, hfin]⟩

theorem base_finished_exactly_once_witness :
    ∃ s1, constructAll quietEngine baseState
        [{ VowpalWabbitSettings.fresh with Model := some 0 },
         { VowpalWabbitSettings.fresh with Model := some 0, Arguments := "-q ab" }] = .ok s1 ∧
      (∀ d ∈ List.range' baseState.wrappers.length 2, Dep s1 0 d) ∧
      handleOf s1 0 = some 10 ∧
      (s1.wrappers[0]?).map (·.m_instanceCount) = some ((2 : Nat) : Int) ∧
      ∀ order : List Nat, order.Perm (List.range' baseState.wrappers.length 2) →
        (∀ k, k < 2 → ∃ sk, disposeAll quietEngine 5 s1 (order.take k) = .ok sk ∧
          handleOf sk 0 = some 10 ∧
          (sk.wrappers[0]?).map (·.m_instanceCount) = some (((2 : Nat) : Int) - k) ∧
          (finishes sk.trace).count 10 = (finishes baseState.trace).count 10) ∧
        ∃ sN, disposeAll quietEngine 5 s1 order = .ok sN ∧ handleOf sN 0 = none ∧
          (sN.wrappers[0]?).map (·.m_instanceCount) = some 0 ∧
          (finishes sN.trace).count 10 = (finishes baseState.trace).count 10 + 1 :=
  base_finished_exactly_once quietEngine (fun _ _ => rfl) baseState 0 10 _
    [{ VowpalWabbitSettings.fresh with Model := some 0 },
     { VowpalWabbitSettings.fresh with Model := some 0, Arguments := "-q ab" }] 5
    baseState_wf rfl rfl rfl (by simp)
    (by
      intro st hst
      simp only [List.mem_cons, List.mem_singleton, List.not_mem_nil, or_false] at hst
      rcases hst with h | h <;> subst h <;> rfl)
    (by decide)

/-! ## The reference counter -/

theorem countP_set_add {α : Type} (p : α → Bool) : ∀ (l : List α) (i : Nat) (x a : α),
    l[i]? = some x →
    (l.set i a).countP p + (if p x then 1 else 0) = l.countP p + (if p a then 1 else 0) := by
  intro l
  induction l with
  | nil => intro i x a h; simp at h
  | cons y ys ih =>
    intro i x a h
    cases i with
    | zero =>
      simp only [List.getElem?_cons_zero, Option.some.injEq] at h
      subst h
      simp only [List.set_cons_zero, List.countP_cons]
      omega
    | succ i =>
      simp only [List.getElem?_cons_succ] at h
      have := ih i x a h
      simp only [List.set_cons_succ, List.countP_cons]
      omega

theorem dependents_updW (s : State) (x w : Nat) (f : VowpalWabbitBase → VowpalWabbitBase)
    (X : VowpalWabbitBase) (hX : s.wrappers[x]? = some X) :
    dependents (updW s x f) w + (if holds w X then 1 else 0) =
      dependents s w + (if holds w (f X) then 1 else 0) := by
  rw [updW_of_get s x f X hX]
  exact countP_set_add (holds w) s.wrappers x X (f X) hX

theorem countOf_updW (s : State) (x w : Nat) (f : VowpalWabbitBase → VowpalWabbitBase)
    (X : VowpalWabbitBase) (hX : s.wrappers[x]? = some X) :
    countOf (updW s x f) w = if w = x then (f X).m_instanceCount else countOf s w := by
  unfold countOf
  rw [updW_get]
  by_cases h : w = x
  · subst h; simp [hX]
  · simp [h]

theorem balance_congr (s t : State) (h : t.wrappers = s.wrappers) (w : Nat) :
    balance t w = balance s w := by
  simp [balance, countOf, dependents, h]

/-- An update that leaves handle, base reference and count of the wrapper alone. -/
theorem balance_updW_frame (s : State) (x w : Nat) (f : VowpalWabbitBase → VowpalWabbitBase)
    (hf : ∀ X, (f X).m_vw = X.m_vw ∧ (f X).m_model = X.m_model ∧
      (f X).m_instanceCount = X.m_instanceCount) :
    balance (updW s x f) w = balance s w := by
  cases hX : s.wrappers[x]? with
  | none => simp [updW, hX]
  | some X =>
    have h1 := dependents_updW s x w f X hX
    have h2 := countOf_updW s x w f X hX
    have h3 : holds w (f X) = holds w X := by simp [holds, (hf X).1, (hf X).2.1]
    rw [h3] at h1
    have h4 : dependents (updW s x f) w = dependents s w := by omega
    unfold balance
    rw [h4, h2]
    by_cases h : w = x
    · subst h
      simp [countOf, hX, (hf X).2.2]
    · simp [h]

theorem balance_updW (s : State) (x w : Nat) (f : VowpalWabbitBase → VowpalWabbitBase)
    (X : VowpalWabbitBase) (hX : s.wrappers[x]? = some X) :
    balance (updW s x f) w = balance s w +
      (if w = x then (f X).m_instanceCount - X.m_instanceCount else 0) +
      (if holds w X then 1 else 0) - (if holds w (f X) then 1 else 0) := by
  have h1 := dependents_updW s x w f X hX
  have h2 := countOf_updW s x w f X hX
  unfold balance
  rw [h2]
  by_cases h : w = x
  · subst h
    have h3 : countOf s w = X.m_instanceCount := by simp [countOf, hX]
    rw [h3]
    simp only [if_true]
    split_ifs at h1 ⊢ <;> omega
  · simp only [h, if_false]
    split_ifs at h1 ⊢ <;> omega

theorem drainPool_ok_wrappers (eng : Engine) (fuel : Nat) (s s1 : State) (w h : Nat)
    (W : VowpalWabbitBase) (hW : s.wrappers[w]? = some W)
    (hd : drainPool eng fuel s w h = .ok s1) :
    s1.wrappers = (updW s w fun o => { o with m_examples := none }).wrappers := by
  have hw1 := drainPool_ok_local eng fuel s s1 w h W hW hd
  apply List.ext_getElem?
  intro i
  rw [hw1 i, updW_get]
  by_cases hi : i = w
  · subst hi; simp [hW]
  · simp [hi]

theorem finishHandle_ok_wrappers (eng : Engine) (s t : State) (w h : Nat)
    (X : VowpalWabbitBase) (hX : s.wrappers[w]? = some X) (hv : X.m_vw = some h)
    (hf : finishHandle eng s w = .ok t) :
    t.wrappers = (updW s w fun o => { o with m_vw := none }).wrappers := by
  have hh : (s.wrappers[w]?).bind (·.m_vw) = some h := by simp [hX, hv]
  simp only [finishHandle, hh] at hf
  obtain ⟨s1, hc1, hc2⟩ := Res.bind_eq_ok hf
  have e1 := callNative_eq_ok eng s s1 w _ hc1
  have e2 := callNative_eq_ok eng _ t w _ hc2
  subst e1
  subst e2
  simp only
  rw [updW_of_get _ w _ X (by simpa using hX), updW_of_get s w _ X hX]

/-- A teardown that returns leaves, for every wrapper, the difference between its count
and the number of its live dependents as it was. -/
theorem InternalDispose_ok_balance (eng : Engine) : ∀ (fuel : Nat) (s t : State) (x : Nat),
    Acyclic s → InternalDispose eng fuel s x = .ok t → ∀ w, balance t w = balance s w := by
  intro fuel
  induction fuel with
  | zero => intro s t x _ hID; simp [InternalDispose] at hID
  | succ f ih =>
    intro s t x ha hID w
    cases hX : s.wrappers[x]? with
    | none => simp [InternalDispose, hX] at hID
    | some X =>
      cases hv : X.m_vw with
      | none =>
        rw [InternalDispose_dead eng f s x X hX hv] at hID
        simp only [Res.ok.injEq] at hID
        rw [← hID]
      | some h =>
        simp only [InternalDispose, hX, hv] at hID
        obtain ⟨s2, hA, hfin⟩ := Res.bind_eq_ok hID
        obtain ⟨s1, hdrain, hrel⟩ := Res.bind_eq_ok hA
        have hws1 := drainPool_ok_wrappers eng f s s1 x h X hX hdrain
        have hX1 : s1.wrappers[x]? = some { X with m_examples := none } := by
          rw [hws1, updW_get_self, hX]; rfl
        have ha1 : Acyclic s1 :=
          Acyclic.of_evolves (drainPool_rel eng f x s h s1 (by rw [hdrain]; rfl)).1 ha
        have b1 : balance s1 w = balance s w := by
          rw [balance_congr _ _ hws1 w]
          exact balance_updW_frame s x w _ (fun _ => ⟨rfl, rfl, rfl⟩)
        have key : balance s2 w = balance s1 w ∧ ∃ X2, s2.wrappers[x]? = some X2 ∧
            X2.m_vw = some h ∧ X2.m_model = none ∧
            X2.m_instanceCount = X.m_instanceCount := by
          cases hm : X.m_model with
          | none =>
            simp only [releaseModel, hX1, Option.some_bind, hm, Res.ok.injEq] at hrel
            subst hrel
            exact ⟨rfl, _, hX1, hv, hm, rfl⟩
          | some b =>
            have hbx : b < x := ha x X b hX hm
            have hne : b ≠ x := Nat.ne_of_lt hbx
            simp only [releaseModel, hX1, Option.some_bind, hm] at hrel
            obtain ⟨s3, hdec, hs2⟩ := Res.bind_eq_ok hrel
            simp only [Res.ok.injEq] at hs2
            subst hs2
            cases hB1 : s1.wrappers[b]? with
            | none => simp [DecrementReferenceWith, hB1] at hdec
            | some B =>
              have hXp : (updW s1 b fun o =>
                  { o with m_instanceCount := o.m_instanceCount - 1 }).wrappers[x]?
                  = some { X with m_examples := none } := by
                rw [updW_get_ne _ _ _ _ (Ne.symm hne), hX1]
              have e1' := evolves_updW b s1
                (fun o => { o with m_instanceCount := o.m_instanceCount - 1 })
                (fun X => ShrinkW.reflW _)
              have ha1' := Acyclic.of_evolves e1' ha1
              have bdec : balance (updW s1 b fun o =>
                  { o with m_instanceCount := o.m_instanceCount - 1 }) w =
                  balance s1 w - (if w = b then 1 else 0) := by
                rw [balance_updW s1 b w _ B hB1]
                have hh : holds w { B with m_instanceCount := B.m_instanceCount - 1 } =
                    holds w B := rfl
                rw [hh]
                split_ifs <;> (simp; try omega)
              simp only [DecrementReferenceWith, hB1] at hdec
              have h3 : balance s3 w = balance s1 w - (if w = b then 1 else 0) ∧
                  s3.wrappers[x]? = some { X with m_examples := none } := by
                by_cases hcnt : B.m_instanceCount - 1 ≤ 0
                · simp only [hcnt, if_true] at hdec
                  have fr := (InternalDispose_rel eng f b _ s3 (by rw [hdec]; rfl)).2 ha1'
                  exact ⟨by rw [ih _ s3 b ha1' hdec w, bdec], by rw [fr.above x hbx, hXp]⟩
                · simp only [hcnt, if_false, Res.ok.injEq] at hdec
                  subst hdec
                  exact ⟨bdec, hXp⟩
              obtain ⟨hb3, hX3⟩ := h3
              refine ⟨?_, { X with m_examples := none, m_model := none },
                by rw [updW_get_self, hX3]; rfl, hv, rfl, rfl⟩
              rw [balance_updW s3 x w _ _ hX3, hb3]
              have hh2 : holds w { X with m_examples := none, m_model := none } = false := by
                simp [holds]
              by_cases hwb : w = b
              · subst hwb
                have hh1 : holds w { X with m_examples := none } = true := by
                  simp [holds, hm, hv]
                simp [hh1, hh2, hne]
              · have hbw : ¬ b = w := fun h => hwb h.symm
                have hh1 : holds w { X with m_examples := none } = false := by
                  simp [holds, hm, hbw]
                simp [hh1, hh2, hwb]
        obtain ⟨hb2, X2, hX2, hv2, hm2, _⟩ := key
        have hwt := finishHandle_ok_wrappers eng s2 t x h X2 hX2 hv2 hfin
        rw [balance_congr _ _ hwt w, balance_updW s2 x w _ X2 hX2, hb2, b1]
        have hh1 : holds w X2 = false := by simp [holds, hm2]
        have hh2 : holds w { X2 with m_vw := none } = false := by simp [holds]
        simp [hh1, hh2]

theorem Res.onRaise_eq_ok {r : Res} {f : State → State} {t : State}
    (h : r.onRaise f = .ok t) : r = .ok t := by
  cases r <;> simp [Res.onRaise] at h ⊢
  exact h

/-- The wrappers after a construction that returns: the new object, with count 0 and a
live handle, is appended, and the count of the base model, if one is given, is one more. -/
theorem construct_ok_wrappers (eng : Engine) (s t : State) (st : VowpalWabbitSettings)
    (i : Nat) (h : construct eng s (some st) = (i, .ok t)) :
    i = s.wrappers.length ∧
    ∃ N : VowpalWabbitBase, N.m_instanceCount = 0 ∧ N.m_model = st.Model ∧
      N.m_vw.isSome = true ∧
      ((st.Model = none ∧ t.wrappers = s.wrappers ++ [N]) ∨
       (∃ m B, st.Model = some m ∧ s.wrappers[m]? = some B ∧
          t.wrappers =
            s.wrappers.set m { B with m_instanceCount := B.m_instanceCount + 1 } ++ [N])) := by
  unfold construct at h
  simp only [Prod.mk.injEq] at h
  obtain ⟨hi, hbody⟩ := h
  refine ⟨hi.symm, ?_⟩
  have hbody := Res.onRaise_eq_ok hbody
  simp only [Option.getD_some, updW_append_new] at hbody
  cases hm : st.Model with
  | some m =>
    simp only [hm, updW_append_new] at hbody
    split at hbody
    · simp at hbody
    · rename_i base hbase
      split at hbody
      · simp at hbody
      · rename_i bh hbh
        obtain ⟨s1, hc, hinc⟩ := Res.bind_eq_ok hbody
        have e1 := callNative_eq_ok eng _ s1 _ _ hc
        subst e1
        simp only [updW_append_new] at hinc
        have hlt : m < s.wrappers.length := by
          by_contra hge
          have hle : s.wrappers.length ≤ m := by omega
          rw [List.getElem?_append_right hle] at hbase
          cases hd : m - s.wrappers.length with
          | zero =>
            rw [hd] at hbase
            simp only [List.getElem?_cons_zero, Option.some.injEq] at hbase
            subst hbase
            simp at hbh
          | succ k =>
            rw [hd] at hbase
            simp at hbase
        have hB : s.wrappers[m]? = some base := by
          rw [List.getElem?_append_left hlt] at hbase
          exact hbase
        have hget : ∀ x : VowpalWabbitBase, (s.wrappers ++ [x])[m]? = some base := by
          intro x
          rw [List.getElem?_append_left hlt]; exact hB
        simp only [IncrementReference, hget, Res.ok.injEq] at hinc
        rw [updW_of_get _ m _ base (hget _)] at hinc
        subst hinc
        refine ⟨dependentOf s m st, rfl, rfl, rfl, Or.inr ⟨m, base, rfl, hB, ?_⟩⟩
        simp only [List.set_append_left _ _ hlt]
        rfl
  | none =>
    simp only [hm] at hbody
    cases hs : st.ModelStream with
    | none =>
      simp only [hs] at hbody
      obtain ⟨s1, hc, hok⟩ := Res.bind_eq_ok hbody
      have e1 := callNative_eq_ok eng _ s1 _ _ hc
      subst e1
      simp only [updW_append_new, Res.ok.injEq] at hok
      subst hok
      exact ⟨⟨some [], some s.nextHandle, none, st, 0⟩, rfl, rfl, rfl, Or.inl ⟨rfl, rfl⟩⟩
    | some stream =>
      simp only [hs] at hbody
      obtain ⟨s1, hc, hok⟩ := Res.bind_eq_ok hbody
      have e1 := callNative_eq_ok eng _ s1 _ _ hc
      subst e1
      simp only [updW_append_new] at hok
      have e2 := callNative_eq_ok eng _ t _ _ hok
      subst e2
      exact ⟨⟨some [], some s.nextHandle, none, st, 0⟩, rfl, rfl, rfl, Or.inl ⟨rfl, rfl⟩⟩

theorem balance_append (s t : State) (N : VowpalWabbitBase)
    (h : t.wrappers = s.wrappers ++ [N]) (w : Nat) (hw : w < s.wrappers.length) :
    balance t w = balance s w - (if holds w N then 1 else 0) := by
  unfold balance countOf dependents
  rw [h, List.getElem?_append_left hw, List.countP_append]
  simp only [List.countP_cons, List.countP_nil]
  split_ifs <;> (simp; try omega)

theorem acyclic_append (s t : State) (N : VowpalWabbitBase) (ha : Acyclic s)
    (h : t.wrappers = s.wrappers ++ [N])
    (hN : ∀ b, N.m_model = some b → b < s.wrappers.length) : Acyclic t := by
  intro d D b hD hb
  rw [h] at hD
  by_cases hd : d < s.wrappers.length
  · rw [List.getElem?_append_left hd] at hD
    exact ha d D b hD hb
  · have hle : s.wrappers.length ≤ d := by omega
    rw [List.getElem?_append_right hle] at hD
    cases hk : d - s.wrappers.length with
    | zero =>
      rw [hk] at hD
      simp only [List.getElem?_cons_zero, Option.some.injEq] at hD
      subst hD
      have := hN b hb
      omega
    | succ k =>
      rw [hk] at hD
      simp at hD

/-- A construction that returns keeps base references acyclic, adds one object, and
leaves the balance of every older wrapper as it was. -/
theorem construct_ok_step (eng : Engine) (s t : State) (st : VowpalWabbitSettings) (i : Nat)
    (ha : Acyclic s) (h : construct eng s (some st) = (i, .ok t)) :
    Acyclic t ∧ t.wrappers.length = s.wrappers.length + 1 ∧
    ∀ w, w < s.wrappers.length → balance t w = balance s w := by
  obtain ⟨_, N, hN0, hNm, hNv, hcase⟩ := construct_ok_wrappers eng s t st i h
  rcases hcase with ⟨hm, hws⟩ | ⟨m, B, hm, hB, hws⟩
  · refine ⟨acyclic_append s t N ha hws (fun b hb => ?_), by rw [hws]; simp, ?_⟩
    · rw [hNm, hm] at hb
      simp at hb
    · intro w hw
      rw [balance_append s t N hws w hw]
      have : holds w N = false := by simp [holds, hNm, hm]
      simp [this]
  · have hlt : m < s.wrappers.length := (List.getElem?_eq_some_iff.1 hB).1
    have hs1 : (updW s m fun o => { o with m_instanceCount := o.m_instanceCount + 1 }).wrappers
        = s.wrappers.set m { B with m_instanceCount := B.m_instanceCount + 1 } := by
      rw [updW_of_get s m _ B hB]
    have hws2 : t.wrappers =
        (updW s m fun o => { o with m_instanceCount := o.m_instanceCount + 1 }).wrappers ++
          [N] := by
      rw [hs1, hws]
    have ha1 : Acyclic (updW s m fun o => { o with m_instanceCount := o.m_instanceCount + 1 }) :=
      Acyclic.of_evolves (evolves_updW m s _ (fun X => ShrinkW.reflW _)) ha
    refine ⟨acyclic_append _ t N ha1 hws2 (fun b hb => ?_), by rw [hws]; simp, ?_⟩
    · rw [hNm, hm] at hb
      simp only [Option.some.injEq] at hb
      subst hb
      simpa using hlt
    · intro w hw
      rw [balance_append _ t N hws2 w (by simpa using hw), balance_updW s m w _ B hB]
      have hh : holds w { B with m_instanceCount := B.m_instanceCount + 1 } = holds w B := rfl
      rw [hh]
      cases hNv2 : N.m_vw with
      | none => simp [hNv2] at hNv
      | some nh =>
        by_cases hwm : w = m
        · subst hwm
          have : holds w N = true := by simp [holds, hNm, hm, hNv2]
          simp [this]
        · have hmw : ¬ m = w := fun h => hwm h.symm
          have : holds w N = false := by simp [holds, hNm, hm, hmw]
          simp [this, hwm]

/-- What one operation that returns does to the balance of a wrapper `w`: one up for an
`IncrementReference` on `w`, one down for a `DecrementReference` on `w`, nothing else. -/
theorem runStep_ok_balance (eng : Engine) (fuel : Nat) (s t : State) (step : Step)
    (ha : Acyclic s) (h : runStep eng fuel s step = .ok t) :
    Acyclic t ∧ s.wrappers.length ≤ t.wrappers.length ∧
    ∀ w, w < s.wrappers.length → balance t w = balance s w +
      (if step = .IncrementReference w then 1 else 0) -
      (if step = .DecrementReference w then 1 else 0) := by
  cases step with
  | construct st =>
    have hc : construct eng s (some st) = ((construct eng s (some st)).1, .ok t) := by
      simp only [runStep] at h
      rw [← h]
    obtain ⟨ha1, hlen, hb⟩ := construct_ok_step eng s t st _ ha hc
    exact ⟨ha1, by omega, fun w hw => by simp [hb w hw]⟩
  | IncrementReference x =>
    simp only [runStep, IncrementReference] at h
    cases hX : s.wrappers[x]? with
    | none => simp [hX] at h
    | some X =>
      simp only [hX, Res.ok.injEq] at h
      subst h
      refine ⟨Acyclic.of_evolves (evolves_updW x s _ (fun X => ShrinkW.reflW _)) ha,
        by simp, fun w _ => ?_⟩
      rw [balance_updW s x w _ X hX]
      have hh : holds w { X with m_instanceCount := X.m_instanceCount + 1 } = holds w X := rfl
      rw [hh]
      by_cases hwx : w = x
      · subst hwx
        simp
      · have hxw : ¬ x = w := fun h => hwx h.symm
        simp [hwx, hxw]
  | DecrementReference x =>
    simp only [runStep, DecrementReference, DecrementReferenceWith] at h
    cases hX : s.wrappers[x]? with
    | none => simp [hX] at h
    | some X =>
      simp only [hX] at h
      have e1 := evolves_updW x s
        (fun o => { o with m_instanceCount := o.m_instanceCount - 1 }) (fun X => ShrinkW.reflW _)
      have ha1 := Acyclic.of_evolves e1 ha
      have bdec : ∀ w, balance (updW s x fun o =>
          { o with m_instanceCount := o.m_instanceCount - 1 }) w =
          balance s w + (if Step.DecrementReference x = .IncrementReference w then 1 else 0) -
            (if Step.DecrementReference x = .DecrementReference w then 1 else 0) := by
        intro w
        rw [balance_updW s x w _ X hX]
        have hh : holds w { X with m_instanceCount := X.m_instanceCount - 1 } = holds w X :=
          rfl
        rw [hh]
        by_cases hwx : w = x
        · subst hwx
          simp
          omega
        · have hxw : ¬ x = w := fun h => hwx h.symm
          simp [hwx, hxw]
      by_cases hcnt : X.m_instanceCount - 1 ≤ 0
      · simp only [hcnt, if_true] at h
        have r := InternalDispose_rel eng fuel x _ t (by rw [h]; rfl)
        refine ⟨Acyclic.of_evolves r.1 ha1, by rw [r.1.len]; simp, fun w _ => ?_⟩
        rw [InternalDispose_ok_balance eng fuel _ t x ha1 h w, bdec w]
      · simp only [hcnt, if_false, Res.ok.injEq] at h
        subst h
        exact ⟨ha1, by simp, fun w _ => bdec w⟩
  | Dispose x =>
    simp only [runStep, Dispose, Finalize] at h
    cases hX : s.wrappers[x]? with
    | none => simp [hX] at h
    | some X =>
      simp only [hX] at h
      by_cases hcnt : X.m_instanceCount ≤ 0
      · simp only [hcnt, if_true] at h
        have r := InternalDispose_rel eng fuel x _ t (by rw [h]; rfl)
        refine ⟨Acyclic.of_evolves r.1 ha, by rw [r.1.len], fun w _ => ?_⟩
        rw [InternalDispose_ok_balance eng fuel _ t x ha h w]
        simp
      · simp only [hcnt, if_false, Res.ok.injEq] at h
        subst h
        exact ⟨ha, le_refl _, fun w _ => by simp⟩
  | Finalize x =>
    simp only [runStep, Finalize] at h
    cases hX : s.wrappers[x]? with
    | none => simp [hX] at h
    | some X =>
      simp only [hX] at h
      by_cases hcnt : X.m_instanceCount ≤ 0
      · simp only [hcnt, if_true] at h
        have r := InternalDispose_rel eng fuel x _ t (by rw [h]; rfl)
        refine ⟨Acyclic.of_evolves r.1 ha, by rw [r.1.len], fun w _ => ?_⟩
        rw [InternalDispose_ok_balance eng fuel _ t x ha h w]
        simp
      · simp only [hcnt, if_false, Res.ok.injEq] at h
        subst h
        exact ⟨ha, le_refl _, fun w _ => by simp⟩

theorem runSteps_ok_balance (eng : Engine) (fuel : Nat) : ∀ (steps : List Step) (s t : State),
    Acyclic s → runSteps eng fuel s steps = .ok t →
    s.wrappers.length ≤ t.wrappers.length ∧
    ∀ w, w < s.wrappers.length → balance t w = balance s w +
      (steps.count (.IncrementReference w) : Int) -
      (steps.count (.DecrementReference w) : Int) := by
  intro steps
  induction steps with
  | nil =>
    intro s t _ h
    simp only [runSteps, Res.ok.injEq] at h
    subst h
    exact ⟨le_refl _, fun w _ => by simp⟩
  | cons step rest ih =>
    intro s t ha h
    simp only [runSteps] at h
    obtain ⟨s1, h1, h2⟩ := Res.bind_eq_ok h
    obtain ⟨ha1, hlen1, hb1⟩ := runStep_ok_balance eng fuel s s1 step ha h1
    obtain ⟨hlen2, hb2⟩ := ih s1 t ha1 h2
    refine ⟨by omega, fun w hw => ?_⟩
    rw [hb2 w (by omega), hb1 w hw]
    simp only [List.count_cons, beq_iff_eq]
    split_ifs <;> simp_all <;> omega

theorem dependents_last (s : State) (w : Nat) (ha : Acyclic s)
    (hlen : s.wrappers.length = w + 1) : dependents s w = 0 := by
  unfold dependents
  rw [List.countP_eq_zero]
  intro D hD hholds
  obtain ⟨d, hd, hget⟩ := List.getElem_of_mem hD
  simp only [holds, Bool.and_eq_true, beq_iff_eq] at hholds
  have := ha d D w (by rw [List.getElem?_eq_getElem hd, hget]) hholds.1
  omega

end VW
